import Mathlib

/-!
# nn.h: a single-header feed-forward neural network library

A shallow embedding of `src/nn.h` and a verification of its contracts.

Modelling decisions.

* Every `float *` is an address into one flat memory of float cells, `Mem F`. A `Mat` is
  the C struct itself (`rows`, `cols`, `stride` and the address `es` of its first
  element), so a view aliases its backing buffer exactly as in C, and two matrices may
  overlap unless a hypothesis says otherwise.
* `F` is the type of `float` values. The definitions use only the arithmetic operations
  the source uses, and `expf` of libm is a parameter of every function that calls it.
  Theorems on data flow and on accumulated sums hold for every interpretation of the
  operations. Theorems on order are stated in rounded arithmetic: `Rounded rnd` is the
  type whose operations round every exact result by `rnd`, and `binary32` is the rounding
  of IEEE 754 single precision (to nearest, ties to even, subnormal numbers included;
  overflow to infinity and NaN are not modelled). Theorems over a semiring or a (linear
  ordered) field describe exact arithmetic only and say so.
* A failed `NN_ASSERT` or `assert` ends the run: a function that can fail returns
  `Except`, the error carrying the memory at the moment of the abort.
* `size_t` values are natural numbers (no wrap-around). The header arrays `ws`, `bs`,
  `as` of a network are functions from the index to the header; only the indices below
  `count` (up to `count` for `as`) are ever read.
* `NN_MALLOC` is an allocator that hands out consecutive blocks up to a capacity and
  returns NULL beyond it; the contents of a fresh block are whatever memory holds.
* The data model of the library asks of a matrix `stride >= cols` and of a network that
  it owns the buffers of its matrices. The theorems take these as hypotheses
  (`NN.shapeOK`, `NN.owned`, `TrainingSetup`); `nn_alloc_owned` and
  `training_setup_of_alloc` show that the networks `nn_alloc` returns satisfy them.
-/

namespace NNFramework

/-! ## Control flow -/

/-- The loop `for (size_t i = 0; i < n; ++i) s = body i s`. -/
def forLoop {σ : Type} : Nat → (Nat → σ → σ) → σ → σ
  | 0, _, s => s
  | n + 1, body, s => body n (forLoop n body s)

/-- The loop `for (size_t i = 0; i < n; ++i)` whose body may abort the run. -/
def forLoopE {ε σ : Type} : Nat → (Nat → σ → Except ε σ) → σ → Except ε σ
  | 0, _, s => .ok s
  | n + 1, body, s =>
    match forLoopE n body s with
    | .ok s' => body n s'
    | .error e => .error e

/-! ## Matrices over a flat float memory -/

/-- Float memory: the cell at every address. -/
structure Mem (F : Type) where
  cell : Nat → F

instance {F : Type} : CoeFun (Mem F) (fun _ => Nat → F) := ⟨Mem.cell⟩

/-- The memory after the store `*(float *)a = v`. -/
def Mem.set {F : Type} (mem : Mem F) (a : Nat) (v : F) : Mem F :=
  { cell := Function.update mem.cell a v }

/-- The struct `Mat`; `es` is the address of element (0,0). -/
structure Mat where
  rows : Nat
  cols : Nat
  stride : Nat
  es : Nat
deriving DecidableEq, Repr, Inhabited

/-- Address of `MAT_AT(m, i, j)`, that is `&(m).es[(i) * (m).stride + (j)]`. -/
def Mat.addr (m : Mat) (i j : Nat) : Nat := m.es + (i * m.stride + j)

/-- Reading the lvalue `MAT_AT(m, i, j)`. -/
def MAT_AT {F : Type} (mem : Mem F) (m : Mat) (i j : Nat) : F := mem (m.addr i j)

/-- Assigning `MAT_AT(m, i, j) = v`. -/
def MAT_SET {F : Type} (mem : Mem F) (m : Mat) (i j : Nat) (v : F) : Mem F :=
  mem.set (m.addr i j) v

/-- The address `a` is one of the in-range elements of `m`. -/
def Mat.owns (m : Mat) (a : Nat) : Prop :=
  ∃ i, i < m.rows ∧ ∃ j, j < m.cols ∧ a = m.addr i j

/-- No in-range element of `m1` shares its cell with an in-range element of `m2`. -/
def Mat.disj (m1 m2 : Mat) : Prop :=
  ∀ i, i < m1.rows → ∀ j, j < m1.cols → ∀ i', i' < m2.rows → ∀ j', j' < m2.cols →
    m1.addr i j ≠ m2.addr i' j'

instance (m1 m2 : Mat) : Decidable (m1.disj m2) := by
  unfold Mat.disj; infer_instance

section Ops

variable {F : Type}

/-- The function `sigmoidf`: `1.f / (1.f + expf(-x))`. -/
def sigmoidf [One F] [Add F] [Neg F] [Div F] (expf : F → F) (x : F) : F :=
  1 / (1 + expf (-x))

/-- The function `mat_fill`. -/
def mat_fill (a : Mat) (x : F) (mem : Mem F) : Mem F :=
  forLoop a.rows (fun i s => forLoop a.cols (fun j s => MAT_SET s a i j x) s) mem

/-- The function `mat_dot`: three assertions, then the triple loop. -/
def mat_dot [Zero F] [Add F] [Mul F] (dest a b : Mat) (mem : Mem F) :
    Except (Mem F) (Mem F) :=
  if a.cols ≠ b.rows then .error mem else
  let n := a.cols
  if dest.rows ≠ a.rows then .error mem else
  if dest.cols ≠ b.cols then .error mem else
  .ok (forLoop dest.rows (fun i s =>
    forLoop dest.cols (fun j s =>
      forLoop n (fun k s =>
        MAT_SET s dest i j (MAT_AT s dest i j + MAT_AT s a i k * MAT_AT s b k j))
        (MAT_SET s dest i j 0)) s) mem)

/-- The function `mat_sum`. -/
def mat_sum [Add F] (dest a : Mat) (mem : Mem F) : Except (Mem F) (Mem F) :=
  if dest.rows ≠ a.rows then .error mem else
  if dest.cols ≠ a.cols then .error mem else
  .ok (forLoop dest.rows (fun i s =>
    forLoop dest.cols (fun j s =>
      MAT_SET s dest i j (MAT_AT s dest i j + MAT_AT s a i j)) s) mem)

/-- The function `mat_sig`. -/
def mat_sig [One F] [Add F] [Neg F] [Div F] (expf : F → F) (m : Mat) (mem : Mem F) : Mem F :=
  forLoop m.rows (fun i s =>
    forLoop m.cols (fun j s => MAT_SET s m i j (sigmoidf expf (MAT_AT s m i j))) s) mem

/-- The function `mat_row`: a one-row view that starts at `&MAT_AT(m, row, 0)`. -/
def mat_row (m : Mat) (row : Nat) : Mat :=
  { rows := 1, cols := m.cols, stride := m.stride, es := m.addr row 0 }

/-- The function `mat_copy`. -/
def mat_copy (dest src : Mat) (mem : Mem F) : Except (Mem F) (Mem F) :=
  if dest.rows ≠ src.rows then .error mem else
  if dest.cols ≠ src.cols then .error mem else
  .ok (forLoop dest.rows (fun i s =>
    forLoop dest.cols (fun j s => MAT_SET s dest i j (MAT_AT s src i j)) s) mem)

end Ops

/-! ## Networks -/

/-- The struct `NN`: `ws`, `bs` and `as` are the arrays of matrix headers. -/
structure NN where
  count : Nat
  ws : Nat → Mat
  bs : Nat → Mat
  as : Nat → Mat

/-- The macro `NN_INPUT`. -/
def NN_INPUT (nn : NN) : Mat := nn.as 0

/-- The macro `NN_OUTPUT`. -/
def NN_OUTPUT (nn : NN) : Mat := nn.as nn.count

section NNOps

variable {F : Type}

/-- The function `nn_forward`: per layer `mat_dot`, `mat_sum`, `mat_sig`. -/
def nn_forward [Zero F] [One F] [Add F] [Mul F] [Neg F] [Div F] (expf : F → F) (nn : NN)
    (mem : Mem F) : Except (Mem F) (Mem F) :=
  forLoopE nn.count (fun i s => do
    let s ← mat_dot (nn.as (i + 1)) (nn.as i) (nn.ws i) s
    let s ← mat_sum (nn.as (i + 1)) (nn.bs i) s
    pure (mat_sig expf (nn.as (i + 1)) s)) mem

/-- The function `nn_cost`; the loop state is the accumulator `c` and the memory, and
`tout` is the parameter `to` of the source. -/
def nn_cost [Zero F] [One F] [Add F] [Sub F] [Mul F] [Neg F] [Div F] [NatCast F]
    (expf : F → F) (nn : NN) (ti tout : Mat) (mem : Mem F) : Except (Mem F) (F × Mem F) :=
  if ti.rows ≠ tout.rows then .error mem else
  if tout.cols ≠ (NN_OUTPUT nn).cols then .error mem else
  let n := ti.rows
  do
    let cs ← forLoopE n (fun i (cs : F × Mem F) => do
      let x := mat_row ti i
      let y := mat_row tout i
      let s ← mat_copy (NN_INPUT nn) x cs.2
      let s ← nn_forward expf nn s
      let q := tout.cols
      pure (forLoop q (fun j c =>
        let d := MAT_AT s (NN_OUTPUT nn) 0 j - MAT_AT s y 0 j
        c + d * d) cs.1, s)) (0, mem)
    pure (cs.1 / (n : F), cs.2)

/-- The function `nn_finite_diff`. -/
def nn_finite_diff [Zero F] [One F] [Add F] [Sub F] [Mul F] [Neg F] [Div F] [NatCast F]
    (expf : F → F) (n g : NN) (eps : F) (ti tout : Mat) (mem : Mem F) :
    Except (Mem F) (Mem F) := do
  let c0 ← nn_cost expf n ti tout mem
  let c := c0.1
  forLoopE n.count (fun i s => do
    let s ← forLoopE (n.ws i).rows (fun j s =>
      forLoopE (n.ws i).cols (fun k s => do
        let saved := MAT_AT s (n.ws i) j k
        let s := MAT_SET s (n.ws i) j k (MAT_AT s (n.ws i) j k + eps)
        let c1 ← nn_cost expf n ti tout s
        let s := MAT_SET c1.2 (g.ws i) j k ((c1.1 - c) / eps)
        pure (MAT_SET s (n.ws i) j k saved)) s) s
    forLoopE (n.bs i).rows (fun j s =>
      forLoopE (n.bs i).cols (fun k s => do
        let saved := MAT_AT s (n.bs i) j k
        let s := MAT_SET s (n.bs i) j k (MAT_AT s (n.bs i) j k + eps)
        let c1 ← nn_cost expf n ti tout s
        let s := MAT_SET c1.2 (g.bs i) j k ((c1.1 - c) / eps)
        pure (MAT_SET s (n.bs i) j k saved)) s) s) c0.2

/-- The function `nn_learn`. -/
def nn_learn [Sub F] [Mul F] (n g : NN) (rate : F) (mem : Mem F) : Mem F :=
  forLoop n.count (fun i s =>
    let s := forLoop (n.ws i).rows (fun j s =>
      forLoop (n.ws i).cols (fun k s =>
        MAT_SET s (n.ws i) j k (MAT_AT s (n.ws i) j k - MAT_AT s (g.ws i) j k * rate)) s) s
    forLoop (n.bs i).rows (fun j s =>
      forLoop (n.bs i).cols (fun k s =>
        MAT_SET s (n.bs i) j k (MAT_AT s (n.bs i) j k - MAT_AT s (g.bs i) j k * rate)) s) s) mem

end NNOps

/-! ## Allocation -/

/-- The allocator behind `NN_MALLOC`: blocks are handed out in address order from `brk`
up to the limit `cap`. Sizes and addresses count cells, one per `float`. -/
structure Alloc where
  brk : Nat
  cap : Nat
deriving DecidableEq, Repr

/-- How a run ends early: a failed `NN_ASSERT`, or `exit(EXIT_FAILURE)`. -/
inductive Fault where
  | assertion
  | exit_failure
deriving DecidableEq, Repr

/-- The call `NN_MALLOC(size)`: `none` is the NULL pointer. -/
def NN_MALLOC (a : Alloc) (size : Nat) : Option Nat × Alloc :=
  if a.brk + size ≤ a.cap then (some a.brk, { a with brk := a.brk + size }) else (none, a)

/-- The function `mat_alloc`; the contents of the block are whatever memory holds. -/
def mat_alloc (rows cols : Nat) (a : Alloc) : Except Fault (Mat × Alloc) :=
  match NN_MALLOC a (rows * cols) with
  | (some p, a') => .ok ({ rows := rows, cols := cols, stride := cols, es := p }, a')
  | (none, _) => .error Fault.assertion

/-- The function `nn_alloc`. The three header arrays take one cell of the allocator per
matrix header; `arch[i]` is `arch.getD i 0`. -/
def nn_alloc (arch : List Nat) (arch_count : Nat) (a : Alloc) : Except Fault (NN × Alloc) :=
  if ¬ (arch_count > 0) then .error Fault.assertion else
  let count := arch_count - 1
  match NN_MALLOC a count with
  | (none, _) => .error Fault.exit_failure
  | (some _, a1) =>
  match NN_MALLOC a1 count with
  | (none, _) => .error Fault.exit_failure
  | (some _, a2) =>
  match NN_MALLOC a2 (count + 1) with
  | (none, _) => .error Fault.exit_failure
  | (some _, a3) => do
    let m0 ← mat_alloc 1 (arch.getD 0 0) a3
    let nn0 : NN := { count := count, ws := fun _ => default, bs := fun _ => default,
                      as := Function.update (fun _ => default) 0 m0.1 }
    forLoopE (arch_count - 1) (fun t (st : NN × Alloc) => do
      let i := t + 1
      let nn := st.1
      let w ← mat_alloc (nn.as (i - 1)).cols (arch.getD i 0) st.2
      let nn := { nn with ws := Function.update nn.ws (i - 1) w.1 }
      let b ← mat_alloc 1 (arch.getD i 0) w.2
      let nn := { nn with bs := Function.update nn.bs (i - 1) b.1 }
      let m ← mat_alloc 1 (arch.getD i 0) b.2
      let nn := { nn with as := Function.update nn.as i m.1 }
      pure (nn, m.2)) (nn0, m0.2)

/-! ## Well-formed networks -/

/-- The shape invariant of the data model: activations and biases are single rows, and
`weights[i].rows == activations[i].cols`,
`weights[i].cols == biases[i].cols == activations[i+1].cols`. -/
def NN.shapeOK (nn : NN) : Prop :=
  (∀ i, i ≤ nn.count → (nn.as i).rows = 1) ∧
  (∀ i, i < nn.count →
    (nn.ws i).rows = (nn.as i).cols ∧ (nn.ws i).cols = (nn.bs i).cols ∧
    (nn.bs i).cols = (nn.as (i + 1)).cols ∧ (nn.bs i).rows = 1)

/-- Ownership in the data model: every matrix of the network has stride at least cols
and its own buffer, so no two of them share a cell. -/
def NN.owned (nn : NN) : Prop :=
  (∀ i, i ≤ nn.count → (nn.as i).cols ≤ (nn.as i).stride) ∧
  (∀ i, i < nn.count → (nn.ws i).cols ≤ (nn.ws i).stride ∧ (nn.bs i).cols ≤ (nn.bs i).stride) ∧
  (∀ i, i ≤ nn.count → ∀ j, j ≤ nn.count → i ≠ j → (nn.as i).disj (nn.as j)) ∧
  (∀ i, i ≤ nn.count → ∀ j, j < nn.count → (nn.as i).disj (nn.ws j) ∧ (nn.as i).disj (nn.bs j)) ∧
  (∀ i, i < nn.count → ∀ j, j < nn.count →
    (nn.ws i).disj (nn.bs j) ∧ (i ≠ j → (nn.ws i).disj (nn.ws j) ∧ (nn.bs i).disj (nn.bs j)))

instance (nn : NN) : Decidable nn.shapeOK := by
  unfold NN.shapeOK; infer_instance

instance (nn : NN) : Decidable nn.owned := by
  unfold NN.owned; infer_instance

/-- Every matrix of a network: activations 0..count, then weights, then biases. -/
def NN.mats (nn : NN) : List Mat :=
  (List.range (nn.count + 1)).map nn.as ++ (List.range nn.count).map nn.ws ++
    (List.range nn.count).map nn.bs

/-- Identical architecture: the same count and the same rows and cols matrix by matrix. -/
def NN.sameArch (n g : NN) : Prop :=
  n.count = g.count ∧
  (∀ i, i ≤ n.count → (n.as i).rows = (g.as i).rows ∧ (n.as i).cols = (g.as i).cols) ∧
  (∀ i, i < n.count →
    (n.ws i).rows = (g.ws i).rows ∧ (n.ws i).cols = (g.ws i).cols ∧
    (n.bs i).rows = (g.bs i).rows ∧ (n.bs i).cols = (g.bs i).cols)

/-- No matrix of `n` shares a cell with a matrix of `g`. -/
def NN.apart (n g : NN) : Prop :=
  ∀ m, m ∈ n.mats → ∀ m', m' ∈ g.mats → m.disj m'

instance (n g : NN) : Decidable (n.sameArch g) := by
  unfold NN.sameArch; infer_instance

instance (n g : NN) : Decidable (n.apart g) := by
  unfold NN.apart; infer_instance

/-- The shape requirements of a dataset for `nn`: as many input rows as output rows,
input rows as wide as `NN_INPUT`, output rows as wide as `NN_OUTPUT`. -/
def NN.dataShape (nn : NN) (ti tout : Mat) : Prop :=
  ti.rows = tout.rows ∧ ti.cols = (NN_INPUT nn).cols ∧ tout.cols = (NN_OUTPUT nn).cols

/-- No matrix of `nn` shares a cell with the dataset views. -/
def NN.dataApart (nn : NN) (ti tout : Mat) : Prop :=
  ∀ m, m ∈ nn.mats → m.disj ti ∧ m.disj tout

instance (nn : NN) (ti tout : Mat) : Decidable (nn.dataShape ti tout) := by
  unfold NN.dataShape; infer_instance

instance (nn : NN) (ti tout : Mat) : Decidable (nn.dataApart ti tout) := by
  unfold NN.dataApart; infer_instance

/-- The setting of a training step: the live network `n` and the gradient network `g`
are well formed, of identical architecture and stored apart, and the dataset views fit
`n` and share no cell with either network. -/
def TrainingSetup (n g : NN) (ti tout : Mat) : Prop :=
  n.shapeOK ∧ n.owned ∧ g.owned ∧ n.sameArch g ∧ n.apart g ∧ n.dataShape ti tout ∧
    n.dataApart ti tout ∧ g.dataApart ti tout

instance (n g : NN) (ti tout : Mat) : Decidable (TrainingSetup n g ti tout) := by
  unfold TrainingSetup; infer_instance

/-! ## Specification vocabulary

Pure functions and predicates in which the theorems describe what the routines leave in
memory. -/

/-- The value the accumulation `acc = 0; for k < n: acc += x k * y k` ends with. -/
def dotAcc {F : Type} [Zero F] [Add F] [Mul F] (n : Nat) (x y : Nat → F) : F :=
  forLoop n (fun k acc => acc + x k * y k) 0

section SpecNN

variable {F : Type}

/-- The rows the layer recurrence yields from the input row `x` with the weights and
biases found in `mem`: row 0 is `x`, and row `i + 1` at column `j` is
`sigmoidf (acc + bias)` for the accumulated product of row `i` with column `j` of
`weights[i]`. -/
def actRow [Zero F] [One F] [Add F] [Mul F] [Neg F] [Div F] (expf : F → F) (nn : NN)
    (mem : Mem F) (x : Nat → F) : Nat → Nat → F
  | 0 => x
  | i + 1 => fun j =>
    sigmoidf expf (dotAcc (nn.as i).cols (actRow expf nn mem x i)
      (fun k => MAT_AT mem (nn.ws i) k j) + MAT_AT mem (nn.bs i) 0 j)

/-- Two memories hold the same weights and the same biases of `nn`. -/
def NN.sameParams (nn : NN) (m1 m2 : Mem F) : Prop :=
  ∀ l, l < nn.count →
    (∀ j, j < (nn.ws l).rows → ∀ k, k < (nn.ws l).cols →
      MAT_AT m1 (nn.ws l) j k = MAT_AT m2 (nn.ws l) j k) ∧
    (∀ j, j < (nn.bs l).rows → ∀ k, k < (nn.bs l).cols →
      MAT_AT m1 (nn.bs l) j k = MAT_AT m2 (nn.bs l) j k)

/-- The address `x` is an element of one of the activation rows 1..count of `nn`. -/
def NN.hiddenCell (nn : NN) (x : Nat) : Prop :=
  ∃ i, i < nn.count ∧ (nn.as (i + 1)).owns x

/-- The address `x` is an element of one of the activation rows 0..count of `nn`. -/
def NN.actCell (nn : NN) (x : Nat) : Prop :=
  ∃ i, i ≤ nn.count ∧ (nn.as i).owns x

/-- The address `x` is an element of a weight or bias matrix of `nn`. -/
def NN.paramCell (nn : NN) (x : Nat) : Prop :=
  ∃ i, i < nn.count ∧ ((nn.ws i).owns x ∨ (nn.bs i).owns x)

end SpecNN

section SpecCost

variable {F : Type}

/-- The value the accumulation of `nn_cost` ends with: `c = 0`, then for every sample `i`
and every column `j` in loop order `c += d * d` with `d = out i j - tgt i j`. -/
def sqErrAcc [Zero F] [Add F] [Sub F] [Mul F] (n q : Nat) (out tgt : Nat → Nat → F) : F :=
  forLoop n (fun i c =>
    forLoop q (fun j c => c + (out i j - tgt i j) * (out i j - tgt i j)) c) 0

/-- The output row of the recurrence for sample `i` of the input view `ti`, with the
weights and biases found in `mem`. -/
def netOut [Zero F] [One F] [Add F] [Mul F] [Neg F] [Div F] (expf : F → F) (nn : NN)
    (ti : Mat) (mem : Mem F) (i j : Nat) : F :=
  actRow expf nn mem (fun k => MAT_AT mem ti i k) nn.count j

/-- The cost as a function of the memory: accumulated squared error over the sample
count. -/
def costVal [Zero F] [One F] [Add F] [Sub F] [Mul F] [Neg F] [Div F] [NatCast F]
    (expf : F → F) (nn : NN) (ti tout : Mat) (mem : Mem F) : F :=
  sqErrAcc ti.rows tout.cols (netOut expf nn ti mem) (fun i j => MAT_AT mem tout i j)
    / (ti.rows : F)

end SpecCost

section SpecFiniteDiff

variable {F : Type}

/-- The forward difference for element (j, k) of the parameter matrix `pm`: the cost with
that one element raised by `eps`, minus the cost of the memory as it is, over `eps`. -/
def fdVal [Zero F] [One F] [Add F] [Sub F] [Mul F] [Neg F] [Div F] [NatCast F]
    (expf : F → F) (nn : NN) (eps : F) (ti tout : Mat) (mem : Mem F) (pm : Mat)
    (j k : Nat) : F :=
  (costVal expf nn ti tout (MAT_SET mem pm j k (MAT_AT mem pm j k + eps))
    - costVal expf nn ti tout mem) / eps

/-- The value `v` is the forward difference that belongs at address `x` of the gradient
network `g`: `x` is the cell of an in-range element of a weight or bias matrix of `g`
and `v` the forward difference for the element of `n` at the same position. -/
def fdGood [Zero F] [One F] [Add F] [Sub F] [Mul F] [Neg F] [Div F] [NatCast F]
    (expf : F → F) (n g : NN) (eps : F) (ti tout : Mat) (mem : Mem F) (x : Nat) (v : F) :
    Prop :=
  ∃ i, i < n.count ∧ ∃ j k,
    (j < (n.ws i).rows ∧ k < (n.ws i).cols ∧ x = (g.ws i).addr j k ∧
      v = fdVal expf n eps ti tout mem (n.ws i) j k) ∨
    (j < (n.bs i).rows ∧ k < (n.bs i).cols ∧ x = (g.bs i).addr j k ∧
      v = fdVal expf n eps ti tout mem (n.bs i) j k)

/-- A Hoare triple for a stretch of `nn_finite_diff`. Started in a memory that agrees with
`mem` outside the cells `act` and `G`, the run `f` returns, changes no cell outside `act`
and `T`, and leaves in every cell of `T` a value that is `good` there. -/
def Writes (mem : Mem F) (act G : Nat → Prop) (good : Nat → F → Prop) (T : Nat → Prop)
    (f : Mem F → Except (Mem F) (Mem F)) : Prop :=
  ∀ s : Mem F, (∀ x, ¬ act x → ¬ G x → s x = mem x) →
    ∃ s', f s = .ok s' ∧ (∀ x, ¬ act x → ¬ T x → s' x = s x) ∧ (∀ x, T x → good x (s' x))

end SpecFiniteDiff

/-! ## The layout `nn_alloc` produces -/

/-- Cells `nn_alloc` requests for layers 1..t: per layer a weight matrix and two rows. -/
def layerCells (arch : List Nat) : Nat → Nat
  | 0 => 0
  | t + 1 => layerCells arch t +
      (arch.getD t 0 * arch.getD (t + 1) 0 + 1 * arch.getD (t + 1) 0 + 1 * arch.getD (t + 1) 0)

/-- Cells `nn_alloc` requests in all: the three header arrays, the input row and the
layers. -/
def nn_alloc_cells (arch : List Nat) : Nat :=
  (arch.length - 1) + (arch.length - 1) + (arch.length - 1 + 1) + 1 * arch.getD 0 0 +
    layerCells arch (arch.length - 1)

/-- The address of the first matrix block: `brk` moved past the three header arrays. -/
def allocBase (arch : List Nat) (a : Alloc) : Nat :=
  a.brk + (arch.length - 1) + (arch.length - 1) + (arch.length - 1 + 1)

/-- The address of the weight block of layer `i`: past the input row and the blocks of
the layers before. -/
def layerBase (arch : List Nat) (a : Alloc) (i : Nat) : Nat :=
  allocBase arch a + 1 * arch.getD 0 0 + layerCells arch i

/-- The header `nn_alloc` stores in `ws[i]`. -/
def wsAt (arch : List Nat) (a : Alloc) (i : Nat) : Mat :=
  { rows := arch.getD i 0, cols := arch.getD (i + 1) 0, stride := arch.getD (i + 1) 0,
    es := layerBase arch a i }

/-- The header `nn_alloc` stores in `bs[i]`. -/
def bsAt (arch : List Nat) (a : Alloc) (i : Nat) : Mat :=
  { rows := 1, cols := arch.getD (i + 1) 0, stride := arch.getD (i + 1) 0,
    es := layerBase arch a i + arch.getD i 0 * arch.getD (i + 1) 0 }

/-- The header `nn_alloc` stores in `as[i]`. -/
def asAt (arch : List Nat) (a : Alloc) : Nat → Mat
  | 0 => { rows := 1, cols := arch.getD 0 0, stride := arch.getD 0 0, es := allocBase arch a }
  | i + 1 =>
    { rows := 1, cols := arch.getD (i + 1) 0, stride := arch.getD (i + 1) 0,
      es := layerBase arch a i + arch.getD i 0 * arch.getD (i + 1) 0
        + 1 * arch.getD (i + 1) 0 }

/-- The blocks in allocation order: `as[0]`, `ws[0]`, `bs[0]`, `as[1]`, `ws[1]`, ... -/
def allocSeq (arch : List Nat) (a : Alloc) (r : Nat) : Mat :=
  if r % 3 = 0 then asAt arch a (r / 3)
  else if r % 3 = 1 then wsAt arch a (r / 3)
  else bsAt arch a (r / 3)

/-! ## Concrete data for the instances -/

/-- A memory over the integers whose cell `a` holds `a`. -/
def exMemInt : Mem Int := { cell := fun a => (a : Int) }

/-- A 2x2 matrix at address 0. -/
def exA : Mat := { rows := 2, cols := 2, stride := 2, es := 0 }

/-- A 2x2 matrix at address 4. -/
def exB : Mat := { rows := 2, cols := 2, stride := 2, es := 4 }

/-- A 2x2 matrix at address 8. -/
def exDest : Mat := { rows := 2, cols := 2, stride := 2, es := 8 }

/-- A 4x2 view with stride 3, the shape of the input view of the XOR table. -/
def exView : Mat := { rows := 4, cols := 2, stride := 3, es := 0 }

/-- The network of architecture {2, 2, 1} laid out from address 0 in allocation order. -/
def exNet : NN :=
  { count := 2
    ws := fun i => if i = 0 then { rows := 2, cols := 2, stride := 2, es := 2 }
                   else { rows := 2, cols := 1, stride := 1, es := 10 }
    bs := fun i => if i = 0 then { rows := 1, cols := 2, stride := 2, es := 6 }
                   else { rows := 1, cols := 1, stride := 1, es := 12 }
    as := fun i => if i = 0 then { rows := 1, cols := 2, stride := 2, es := 0 }
                   else if i = 1 then { rows := 1, cols := 2, stride := 2, es := 8 }
                   else { rows := 1, cols := 1, stride := 1, es := 13 } }

/-- A memory over the rationals whose cell `a` holds `a / 4`. -/
def exMemRat : Mem Rat := { cell := fun a => (a : Rat) / 4 }

/-- A stand-in for `expf` on the rationals. -/
def exExp : Rat → Rat := fun x => 1 + x * x

/-- A second network of architecture {2, 2, 1}, laid out from address 14. -/
def exGrad : NN :=
  { count := 2
    ws := fun i => if i = 0 then { rows := 2, cols := 2, stride := 2, es := 16 }
                   else { rows := 2, cols := 1, stride := 1, es := 24 }
    bs := fun i => if i = 0 then { rows := 1, cols := 2, stride := 2, es := 20 }
                   else { rows := 1, cols := 1, stride := 1, es := 26 }
    as := fun i => if i = 0 then { rows := 1, cols := 2, stride := 2, es := 14 }
                   else if i = 1 then { rows := 1, cols := 2, stride := 2, es := 22 }
                   else { rows := 1, cols := 1, stride := 1, es := 27 } }

/-- The architecture {2, 2, 1} of the XOR demonstration. -/
def exArch : List Nat := [2, 2, 1]

/-- An allocator with 100 free cells. -/
def exAlloc : Alloc := { brk := 0, cap := 100 }

/-- The input view of a 4-sample table of rows (x1, x2, y) stored from address 30. -/
def exTi : Mat := { rows := 4, cols := 2, stride := 3, es := 30 }

/-- The output view of the same table. -/
def exTo : Mat := { rows := 4, cols := 1, stride := 3, es := 32 }

/-! ## The dataset views of the demonstration program -/

/-- The input view `ti` of `main` in `nn.c`, for a table at address `buf` of `n` rows, each
`p` inputs followed by `q` outputs: `rows = n`, `cols = p`, `stride = p + q`, `es = buf`
(in `nn.c`: `p = 2`, `q = 1`, `stride = 3`, `es = td`). -/
def inputView (buf n p q : Nat) : Mat :=
  { rows := n, cols := p, stride := p + q, es := buf }

/-- The output view `to` of `main` in `nn.c`: `rows = n`, `cols = q`, `stride = p + q`,
`es = buf + p` (in `nn.c`: `es = td + 2`). -/
def outputView (buf n p q : Nat) : Mat :=
  { rows := n, cols := q, stride := p + q, es := buf + p }

/-- An input view with one column where `exNet` takes two. -/
def exBadTi : Mat := { rows := 4, cols := 1, stride := 3, es := 30 }

/-- An allocator whose next free cell is at address 7. -/
def exAllocUsed : Alloc := { brk := 7, cap := 100 }

/-! ## Random initialisation

`rand()` of libc is a stream: `rnd k` is the result of its `k`-th call, and the state of a
run is the memory together with the number of calls made so far. `RAND_MAX` is the macro
of `stdlib.h` (or the fallback `0x7FFF` of `nn.h`) and a parameter here. -/

section Rand

variable {F : Type}

/-- The function `rand_float`, for the result `r` of its call of `rand()`:
`(float) rand() / (float) RAND_MAX`. -/
def rand_float [NatCast F] [Div F] (RAND_MAX r : Nat) : F :=
  (r : F) / (RAND_MAX : F)

/-- The function `mat_rand`. -/
def mat_rand [NatCast F] [Div F] [Mul F] [Sub F] [Add F] (RAND_MAX : Nat) (rnd : Nat → Nat)
    (m : Mat) (low high : F) (st : Mem F × Nat) : Mem F × Nat :=
  forLoop m.rows (fun i st =>
    forLoop m.cols (fun j (st : Mem F × Nat) =>
      (MAT_SET st.1 m i j (rand_float RAND_MAX (rnd st.2) * (high - low) + low), st.2 + 1))
      st) st

/-- The function `nn_rand`. -/
def nn_rand [NatCast F] [Div F] [Mul F] [Sub F] [Add F] (RAND_MAX : Nat) (rnd : Nat → Nat)
    (nn : NN) (low high : F) (st : Mem F × Nat) : Mem F × Nat :=
  forLoop nn.count (fun i st =>
    let st := mat_rand RAND_MAX rnd (nn.ws i) low high st
    mat_rand RAND_MAX rnd (nn.bs i) low high st) st

end Rand

/-- A 1x1 matrix at address 0. -/
def exCell : Mat := { rows := 1, cols := 1, stride := 1, es := 0 }

/-- A stream of `rand()` results that is always `RAND_MAX = 0x7FFF`. -/
def exRndMax : Nat → Nat := fun _ => 32767

/-- A stream of `rand()` results below `RAND_MAX = 0x7FFF`. -/
def exRnd : Nat → Nat := fun k => (k * 7919 + 13) % 32768

/-- The network `n1` in the memory `m1` and the network `n2` in the memory `m2` hold equal
weights and equal biases, element by element. -/
def NN.equalParams {F : Type} (n1 n2 : NN) (m1 m2 : Mem F) : Prop :=
  ∀ l, l < n1.count →
    (∀ j, j < (n1.ws l).rows → ∀ k, k < (n1.ws l).cols →
      MAT_AT m1 (n1.ws l) j k = MAT_AT m2 (n2.ws l) j k) ∧
    (∀ j, j < (n1.bs l).rows → ∀ k, k < (n1.bs l).cols →
      MAT_AT m1 (n1.bs l) j k = MAT_AT m2 (n2.bs l) j k)

/-- Two memories hold the same in-range elements of the view `v`. -/
def Mat.sameIn {F : Type} (v : Mat) (m1 m2 : Mem F) : Prop :=
  ∀ i, i < v.rows → ∀ j, j < v.cols → MAT_AT m1 v i j = MAT_AT m2 v i j

instance {F : Type} [DecidableEq F] (n1 n2 : NN) (m1 m2 : Mem F) :
    Decidable (n1.equalParams n2 m1 m2) := by
  unfold NN.equalParams; infer_instance

instance {F : Type} [DecidableEq F] (v : Mat) (m1 m2 : Mem F) : Decidable (v.sameIn m1 m2) := by
  unfold Mat.sameIn; infer_instance

/-- A memory over the integers in which the cells 14..27, where `exGrad` lives, repeat
the cells 0..13 of `exMemInt`, where `exNet` lives, except that its activation rows hold
other values. -/
def exMemIntShift : Mem Int :=
  { cell := fun a =>
      if a = 14 ∨ a = 15 ∨ a = 22 ∨ a = 23 ∨ a = 27 then 1000
      else if 14 ≤ a ∧ a < 28 then ((a - 14 : Nat) : Int) else (a : Int) }

/-- A stand-in for `expf` on the integers. -/
def exExpInt : Int → Int := fun x => x * x

/-! ## Sequences of calls on a network -/

/-- A call a program makes on its network `nn`: `nn_rand(nn, low, high)`,
`nn_forward(nn)`, `nn_learn(nn, g, rate)` or `nn_finite_diff(nn, g, eps, ti, to)`. -/
inductive Call (F : Type) where
  | rand (low high : F)
  | forward
  | learn (g : NN) (rate : F)
  | finite_diff (g : NN) (eps : F) (ti tout : Mat)

section Calls

variable {F : Type} [Zero F] [One F] [Add F] [Sub F] [Mul F] [Neg F] [Div F] [NatCast F]

/-- One call on `nn`, on the memory and the count of `rand()` calls made so far. -/
def runCall (expf : F → F) (RAND_MAX : Nat) (rnd : Nat → Nat) (nn : NN) (c : Call F)
    (st : Mem F × Nat) : Except (Mem F) (Mem F × Nat) :=
  match c with
  | .rand low high => .ok (nn_rand RAND_MAX rnd nn low high st)
  | .forward =>
    match nn_forward expf nn st.1 with
    | .ok s => .ok (s, st.2)
    | .error e => .error e
  | .learn g rate => .ok (nn_learn nn g rate st.1, st.2)
  | .finite_diff g eps ti tout =>
    match nn_finite_diff expf nn g eps ti tout st.1 with
    | .ok s => .ok (s, st.2)
    | .error e => .error e

/-- A sequence of calls on `nn`, one after the other; an abort ends the run. -/
def runCalls (expf : F → F) (RAND_MAX : Nat) (rnd : Nat → Nat) (nn : NN) :
    List (Call F) → Mem F × Nat → Except (Mem F) (Mem F × Nat)
  | [], st => .ok st
  | c :: cs, st =>
    match runCall expf RAND_MAX rnd nn c st with
    | .ok st' => runCalls expf RAND_MAX rnd nn cs st'
    | .error e => .error e

end Calls

/-- The call is made with a gradient network of the architecture of `nn` and a dataset
whose rows and widths fit `nn`. -/
def Call.fits {F : Type} (nn : NN) : Call F → Prop
  | .rand _ _ => True
  | .forward => True
  | .learn g _ => nn.sameArch g
  | .finite_diff g _ ti tout => nn.sameArch g ∧ nn.dataShape ti tout

instance {F : Type} (nn : NN) (c : Call F) : Decidable (c.fits nn) := by
  cases c <;> unfold Call.fits <;> infer_instance

/-- An allocator whose free cells start past `exNet`, `exGrad` and the dataset. -/
def exAllocHigh : Alloc := { brk := 50, cap := 100 }

/-- The network `nn_alloc` returns for the architecture {2, 2, 1} on `exAllocHigh`. -/
def exAllocNet : NN :=
  match nn_alloc exArch exArch.length exAllocHigh with
  | .ok r => r.1
  | .error _ => exNet

/-- A training round on `exAllocNet`: initialise, estimate the gradient, learn, infer. -/
def exCalls : List (Call Rat) :=
  [Call.rand 0 1, Call.finite_diff exGrad (1 / 10) exTi exTo, Call.learn exGrad (1 / 10),
    Call.forward]

/-! ## Float arithmetic with rounding -/

/-- Floats as the values of `Q` with every arithmetic result rounded by `rnd`: the
arithmetic of C on `float` when `rnd` rounds to the float format. -/
structure Rounded {Q : Type} (rnd : Q → Q) where
  val : Q

section RoundedOps

variable {Q : Type} {rnd : Q → Q}

instance [Zero Q] : Zero (Rounded rnd) := ⟨⟨0⟩⟩

instance [One Q] : One (Rounded rnd) := ⟨⟨1⟩⟩

instance [Add Q] : Add (Rounded rnd) := ⟨fun a b => ⟨rnd (a.val + b.val)⟩⟩

instance [Sub Q] : Sub (Rounded rnd) := ⟨fun a b => ⟨rnd (a.val - b.val)⟩⟩

instance [Mul Q] : Mul (Rounded rnd) := ⟨fun a b => ⟨rnd (a.val * b.val)⟩⟩

instance [Div Q] : Div (Rounded rnd) := ⟨fun a b => ⟨rnd (a.val / b.val)⟩⟩

instance [Neg Q] : Neg (Rounded rnd) := ⟨fun a => ⟨-a.val⟩⟩

instance [NatCast Q] : NatCast (Rounded rnd) := ⟨fun n => ⟨rnd (n : Q)⟩⟩

end RoundedOps

/-- Rounding to the nearest integer, ties to the even one. -/
def roundHalfEven (q : Rat) : Int :=
  if q - ⌊q⌋ < 1 / 2 then ⌊q⌋
  else if 1 / 2 < q - ⌊q⌋ then ⌊q⌋ + 1
  else if ⌊q⌋ % 2 = 0 then ⌊q⌋ else ⌊q⌋ + 1

/-- The spacing of the binary32 numbers around `q > 0`: 24 significant bits, and the
smallest exponent -126 (below it the numbers are the subnormal ones). -/
def ulp32 (q : Rat) : Rat := 2 ^ (max (Int.log 2 q) (-126) - 23)

/-- Rounding of `q >= 0` to binary32, to nearest, ties to even. -/
def binary32Pos (q : Rat) : Rat := (roundHalfEven (q / ulp32 q) : Rat) * ulp32 q

/-- Rounding to binary32 (IEEE 754 single precision), to nearest with ties to even,
the arithmetic of `float`; magnitudes from 2^128 on, which overflow to infinity, are
rounded as if the exponent had no upper limit. -/
def binary32 (q : Rat) : Rat := if q < 0 then -binary32Pos (-q) else binary32Pos q

/-- A stand-in for `expf` on binary32: the power of two `2 ^ floor(x * 13/9)`, where
13/9 is close to the binary logarithm of e. At -20 it is 2^-29, about 1.86e-9, where
e^-20 is about 2.06e-9. -/
def exExp32 (x : Rounded binary32) : Rounded binary32 :=
  ⟨binary32 (2 ^ ⌊x.val * (13 / 9)⌋)⟩

/-- The float memory that holds 20 in every cell. -/
def exMem32 : Mem (Rounded binary32) := { cell := fun _ => ⟨20⟩ }

/-- The lower end -1 of an interval for `mat_rand`, in binary32. -/
def exLow32 : Rounded binary32 := ⟨-1⟩

/-- The upper end 3 * 2^-25 of an interval for `mat_rand`, in binary32. -/
def exHigh32 : Rounded binary32 := ⟨3 / 2 ^ 25⟩

/-! ## Concrete data in binary32 -/

/-- A 1x3 matrix at address 0. -/
def exRowA : Mat := { rows := 1, cols := 3, stride := 3, es := 0 }

/-- A 3x1 matrix at address 3. -/
def exColB : Mat := { rows := 3, cols := 1, stride := 1, es := 3 }

/-- A 1x1 matrix at address 7. -/
def exDot : Mat := { rows := 1, cols := 1, stride := 1, es := 7 }

/-- A binary32 memory: cells 0, 1, 2 hold 1e8, 1, -1e8, cells 3, 4, 5 hold 1, every
other cell holds 0. -/
def exMemCancel : Mem (Rounded binary32) :=
  { cell := fun a =>
      if a = 0 then ⟨100000000⟩ else if a = 1 then ⟨1⟩ else if a = 2 then ⟨-100000000⟩
      else if a = 3 ∨ a = 4 ∨ a = 5 then ⟨1⟩ else ⟨0⟩ }

/-- The network of architecture {3, 1} laid out from address 0: input row, weights,
bias, output. -/
def exNet31 : NN :=
  { count := 1
    ws := fun _ => { rows := 3, cols := 1, stride := 1, es := 3 }
    bs := fun _ => { rows := 1, cols := 1, stride := 1, es := 6 }
    as := fun i => if i = 0 then { rows := 1, cols := 3, stride := 3, es := 0 }
                   else { rows := 1, cols := 1, stride := 1, es := 7 } }

/-- The network of architecture {1, 1} laid out from address 0: input, weight, bias,
output. -/
def exNet11 : NN :=
  { count := 1
    ws := fun _ => { rows := 1, cols := 1, stride := 1, es := 1 }
    bs := fun _ => { rows := 1, cols := 1, stride := 1, es := 2 }
    as := fun i => if i = 0 then { rows := 1, cols := 1, stride := 1, es := 0 }
                   else { rows := 1, cols := 1, stride := 1, es := 3 } }

/-- The input view of a table of two samples (one input, one output) at address 4. -/
def exTi2 : Mat := { rows := 2, cols := 1, stride := 2, es := 4 }

/-- The output view of the table of two samples at address 4. -/
def exTo2 : Mat := { rows := 2, cols := 1, stride := 2, es := 5 }

/-- A binary32 memory for `exNet11` with weight 0 and bias 0, and the table of the two
samples (1, 4096.5) and (1, 1.5). -/
def exMemCost : Mem (Rounded binary32) :=
  { cell := fun a =>
      if a = 4 then ⟨1⟩ else if a = 5 then ⟨8193 / 2⟩ else if a = 6 then ⟨1⟩
      else if a = 7 then ⟨3 / 2⟩ else ⟨0⟩ }

theorem Mem.ext_cell {F : Type} {m1 m2 : Mem F} (h : ∀ x, m1 x = m2 x) : m1 = m2 := by
  cases m1; cases m2
  congr
  funext x
  exact h x

theorem Mem.set_same {F : Type} (mem : Mem F) (a : Nat) (v : F) : mem.set a v a = v := by
  show Function.update mem.cell a v a = v
  exact Function.update_same a v mem.cell

theorem Mem.set_noteq {F : Type} (mem : Mem F) {a x : Nat} (v : F) (h : x ≠ a) :
    mem.set a v x = mem x := by
  show Function.update mem.cell a v x = mem.cell x
  exact Function.update_noteq h v mem.cell

theorem Mem.set_idem {F : Type} (mem : Mem F) (a : Nat) (v w : F) :
    (mem.set a v).set a w = mem.set a w := by
  unfold Mem.set
  simp only [Function.update_idem]

/-! ## Loops -/

theorem forLoop_congr {σ : Type} (n : Nat) (f g : Nat → σ → σ)
    (h : ∀ i, i < n → ∀ s, f i s = g i s) (s : σ) : forLoop n f s = forLoop n g s := by
  induction n with
  | zero => rfl
  | succ n ih =>
    simp only [forLoop]
    rw [ih (fun i hi => h i (Nat.lt_succ_of_lt hi)), h n (Nat.lt_succ_self n)]

/-! ## Addresses -/

theorem Mat.addr_col_inj (m : Mat) {i j j' : Nat} (e : m.addr i j = m.addr i j') : j = j' := by
  unfold Mat.addr at e; omega

theorem Mat.addr_inj (m : Mat) (hs : m.cols ≤ m.stride) {i j i' j' : Nat}
    (hj : j < m.cols) (hj' : j' < m.cols) (e : m.addr i j = m.addr i' j') :
    i = i' ∧ j = j' := by
  unfold Mat.addr at e
  have e' : i * m.stride + j = i' * m.stride + j' := by omega
  have hpos : 0 < m.stride := by omega
  have h1 : (i * m.stride + j) / m.stride = i := by
    rw [Nat.add_comm, Nat.add_mul_div_right _ _ hpos, Nat.div_eq_of_lt (by omega)]; simp
  have h2 : (i' * m.stride + j') / m.stride = i' := by
    rw [Nat.add_comm, Nat.add_mul_div_right _ _ hpos, Nat.div_eq_of_lt (by omega)]; simp
  have hi : i = i' := by rw [← h1, ← h2, e']
  subst hi
  exact ⟨rfl, by omega⟩

theorem Mat.disj_not_owns {m1 m2 : Mat} (h : m1.disj m2) {a : Nat} (h1 : m1.owns a) :
    ¬ m2.owns a := by
  rintro ⟨i', hi', j', hj', e'⟩
  obtain ⟨i, hi, j, hj, e⟩ := h1
  exact h i hi j hj i' hi' j' hj' (e ▸ e')

theorem Mat.disj_symm {m1 m2 : Mat} (h : m1.disj m2) : m2.disj m1 :=
  fun i hi j hj i' hi' j' hj' e => h i' hi' j' hj' i hi j hj e.symm

/-! ## Element-wise loops

Every matrix routine is a double loop that assigns one element per iteration. When the
value assigned to element (i,j) reads only cells outside the matrix or the element
itself, the loop writes exactly the elements of the matrix, each with the value computed
from the initial memory. -/

section CellLoop

variable {F : Type}

theorem rowLoop_spec (m : Mat) (val : Nat → Nat → Mem F → F) (i : Nat) (hi : i < m.rows)
    (hval : ∀ j s s', j < m.cols → (∀ a, (m.owns a → a = m.addr i j) → s a = s' a) →
      val i j s = val i j s')
    (s0 : Mem F) (C : Nat) (hC : C ≤ m.cols) :
    (∀ a, (∀ j, j < C → a ≠ m.addr i j) →
        forLoop C (fun j s => MAT_SET s m i j (val i j s)) s0 a = s0 a) ∧
    (∀ j, j < C →
        forLoop C (fun j s => MAT_SET s m i j (val i j s)) s0 (m.addr i j) = val i j s0) := by
  induction C with
  | zero => exact ⟨fun a _ => rfl, fun j hj => absurd hj (Nat.not_lt_zero j)⟩
  | succ C ih =>
    obtain ⟨ih1, ih2⟩ := ih (Nat.le_of_succ_le hC)
    have hCc : C < m.cols := hC
    constructor
    · intro a ha
      simp only [forLoop, MAT_SET]
      rw [Mem.set_noteq _ _ (ha C (Nat.lt_succ_self C))]
      exact ih1 a (fun j hj => ha j (Nat.lt_succ_of_lt hj))
    · intro j hj
      simp only [forLoop, MAT_SET]
      rcases Nat.lt_succ_iff_lt_or_eq.mp hj with hlt | heq
      · have hne : m.addr i j ≠ m.addr i C := fun e => by
          have := m.addr_col_inj e; omega
        rw [Mem.set_noteq _ _ hne]
        exact ih2 j hlt
      · subst heq
        rw [Mem.set_same]
        apply hval j _ _ hCc
        intro a ha
        apply ih1
        intro j' hj' e
        have := ha ⟨i, hi, j', by omega, e⟩
        rw [e] at this
        have := m.addr_col_inj this
        omega

theorem cellLoop_spec (m : Mat) (hs : m.cols ≤ m.stride) (val : Nat → Nat → Mem F → F)
    (hval : ∀ i j s s', i < m.rows → j < m.cols →
      (∀ a, (m.owns a → a = m.addr i j) → s a = s' a) → val i j s = val i j s')
    (mem : Mem F) (R : Nat) (hR : R ≤ m.rows) :
    (∀ a, (∀ i, i < R → ∀ j, j < m.cols → a ≠ m.addr i j) →
        forLoop R (fun i s => forLoop m.cols (fun j s => MAT_SET s m i j (val i j s)) s)
          mem a = mem a) ∧
    (∀ i, i < R → ∀ j, j < m.cols →
        forLoop R (fun i s => forLoop m.cols (fun j s => MAT_SET s m i j (val i j s)) s)
          mem (m.addr i j) = val i j mem) := by
  induction R with
  | zero => exact ⟨fun a _ => rfl, fun i hi => absurd hi (Nat.not_lt_zero i)⟩
  | succ R ih =>
    obtain ⟨ih1, ih2⟩ := ih (Nat.le_of_succ_le hR)
    have hRr : R < m.rows := hR
    have row := fun s0 => rowLoop_spec m val R hRr (fun j s s' hj h => hval R j s s' hRr hj h)
      s0 m.cols (Nat.le_refl _)
    constructor
    · intro a ha
      simp only [forLoop]
      rw [(row _).1 a (fun j hj => ha R (Nat.lt_succ_self R) j hj)]
      exact ih1 a (fun i hi j hj => ha i (Nat.lt_succ_of_lt hi) j hj)
    · intro i hi j hj
      simp only [forLoop]
      rcases Nat.lt_succ_iff_lt_or_eq.mp hi with hlt | heq
      · rw [(row _).1 (m.addr i j) (fun j' hj' e => by
          have := (m.addr_inj hs hj hj' e).1; omega)]
        exact ih2 i hlt j hj
      · subst heq
        rw [(row _).2 j hj]
        apply hval i j _ _ hRr hj
        intro a ha
        apply ih1
        intro i' hi' j' hj' e
        have := ha ⟨i', by omega, j', hj', e⟩
        rw [e] at this
        have := (m.addr_inj hs hj' hj this).1
        omega

/-- An element-wise loop leaves every cell outside the matrix alone and gives every
element the value computed from the initial memory. -/
theorem cellLoop_frame_val (m : Mat) (hs : m.cols ≤ m.stride) (val : Nat → Nat → Mem F → F)
    (hval : ∀ i j s s', i < m.rows → j < m.cols →
      (∀ a, (m.owns a → a = m.addr i j) → s a = s' a) → val i j s = val i j s')
    (mem : Mem F) :
    (∀ a, ¬ m.owns a →
        forLoop m.rows (fun i s => forLoop m.cols (fun j s => MAT_SET s m i j (val i j s)) s)
          mem a = mem a) ∧
    (∀ i, i < m.rows → ∀ j, j < m.cols →
        forLoop m.rows (fun i s => forLoop m.cols (fun j s => MAT_SET s m i j (val i j s)) s)
          mem (m.addr i j) = val i j mem) := by
  obtain ⟨h1, h2⟩ := cellLoop_spec m hs val hval mem m.rows (Nat.le_refl _)
  exact ⟨fun a ha => h1 a (fun i hi j hj e => ha ⟨i, hi, j, hj, e⟩), h2⟩

end CellLoop

/-! ## `mat_dot` -/

section MatDot

variable {F : Type} [Zero F] [Add F] [Mul F]

/-- The innermost loop of `mat_dot`, started on a cleared cell `d` that none of the
operands read share, is one assignment of the accumulated dot product. -/
theorem dot_inner (d : Nat) (x y : Nat → Nat) (s0 : Mem F) (n : Nat)
    (hx : ∀ k, k < n → x k ≠ d) (hy : ∀ k, k < n → y k ≠ d) :
    forLoop n (fun k s => s.set d (s d + s (x k) * s (y k))) (s0.set d 0)
      = s0.set d (dotAcc n (fun k => s0 (x k)) (fun k => s0 (y k))) := by
  induction n with
  | zero => rfl
  | succ n ih =>
    simp only [forLoop, dotAcc]
    rw [ih (fun k hk => hx k (Nat.lt_succ_of_lt hk)) (fun k hk => hy k (Nat.lt_succ_of_lt hk))]
    rw [Mem.set_idem, Mem.set_same,
      Mem.set_noteq _ _ (hx n (Nat.lt_succ_self n)),
      Mem.set_noteq _ _ (hy n (Nat.lt_succ_self n))]
    rfl

/-- Under its assertions and with `dest` apart from the operands, `mat_dot` returns, leaves
every cell outside `dest` alone and stores the accumulated dot products. -/
theorem mat_dot_spec (dest a b : Mat) (mem : Mem F)
    (h1 : a.cols = b.rows) (h2 : dest.rows = a.rows) (h3 : dest.cols = b.cols)
    (hs : dest.cols ≤ dest.stride) (hda : dest.disj a) (hdb : dest.disj b) :
    ∃ mem', mat_dot dest a b mem = .ok mem' ∧
      (∀ x, ¬ dest.owns x → mem' x = mem x) ∧
      (∀ i, i < dest.rows → ∀ j, j < dest.cols →
        mem' (dest.addr i j)
          = dotAcc a.cols (fun k => mem (a.addr i k)) (fun k => mem (b.addr k j))) := by
  have hok : mat_dot dest a b mem = .ok (forLoop dest.rows (fun i s =>
      forLoop dest.cols (fun j s =>
        forLoop b.rows (fun k s =>
          MAT_SET s dest i j (MAT_AT s dest i j + MAT_AT s a i k * MAT_AT s b k j))
          (MAT_SET s dest i j 0)) s) mem) := by
    simp only [mat_dot, h1, h2, h3, ne_eq, not_true_eq_false, if_false]
  refine ⟨_, hok, ?_⟩
  · have hbody : ∀ i, i < dest.rows → ∀ s : Mem F,
        forLoop dest.cols (fun j s =>
          forLoop b.rows (fun k s =>
            MAT_SET s dest i j (MAT_AT s dest i j + MAT_AT s a i k * MAT_AT s b k j))
            (MAT_SET s dest i j 0)) s
        = forLoop dest.cols (fun j s => MAT_SET s dest i j
            (dotAcc b.rows (fun k => s (a.addr i k)) (fun k => s (b.addr k j)))) s := by
      intro i hi s
      apply forLoop_congr
      intro j hj s
      exact dot_inner (dest.addr i j) (fun k => a.addr i k) (fun k => b.addr k j) s b.rows
        (fun k hk e => hda i hi j hj i (h2 ▸ hi) k (h1 ▸ hk) e.symm)
        (fun k hk e => hdb i hi j hj k hk j (h3 ▸ hj) e.symm)
    rw [forLoop_congr _ _ _ hbody, ← h1]
    apply cellLoop_frame_val dest hs
      (fun i j s => dotAcc a.cols (fun k => s (a.addr i k)) (fun k => s (b.addr k j)))
    intro i j s s' hi hj hag
    have ea : ∀ k, k < a.cols → s (a.addr i k) = s' (a.addr i k) := fun k hk =>
      hag _ (fun ho => absurd ⟨i, h2 ▸ hi, k, hk, rfl⟩ (Mat.disj_not_owns hda ho))
    have eb : ∀ k, k < a.cols → s (b.addr k j) = s' (b.addr k j) := fun k hk =>
      hag _ (fun ho => absurd ⟨k, h1 ▸ hk, j, h3 ▸ hj, rfl⟩ (Mat.disj_not_owns hdb ho))
    unfold dotAcc
    apply forLoop_congr
    intro k hk acc
    show acc + s (a.addr i k) * s (b.addr k j) = acc + s' (a.addr i k) * s' (b.addr k j)
    rw [ea k hk, eb k hk]

end MatDot

/-- Over a semiring the accumulated dot product is the sum of the products. -/
theorem dotAcc_eq_sum {F : Type} [Semiring F] (n : Nat) (x y : Nat → F) :
    dotAcc n x y = ∑ k in Finset.range n, x k * y k := by
  induction n with
  | zero => rfl
  | succ n ih =>
    rw [Finset.sum_range_succ, ← ih]
    rfl

/-! ## Claims on the matrix routines -/

/-- In exact arithmetic (a semiring, no rounding): for matrices with `a.cols == b.rows`,
`dest.rows == a.rows`, `dest.cols == b.cols`, `dest` a matrix (stride at least cols) that
shares no cell with `a` or `b`, `mat_dot` returns and every element of `dest` is the sum
over `k < a.cols` of `a[i][k] * b[k][j]`,
whatever `dest` held before; the operands are untouched; the element is 0 when
`a.cols == 0`, and for 1x1 matrices it is the product `a[0][0] * b[0][0]`. -/
theorem mat_dot_standard_product {F : Type} [Semiring F] (dest a b : Mat) (mem : Mem F)
    (h1 : a.cols = b.rows) (h2 : dest.rows = a.rows) (h3 : dest.cols = b.cols)
    (hs : dest.cols ≤ dest.stride) (hda : dest.disj a) (hdb : dest.disj b) :
    ∃ mem', mat_dot dest a b mem = .ok mem' ∧
      (∀ i, i < dest.rows → ∀ j, j < dest.cols →
        MAT_AT mem' dest i j = ∑ k in Finset.range a.cols, MAT_AT mem a i k * MAT_AT mem b k j) ∧
      (∀ x, ¬ dest.owns x → mem' x = mem x) ∧
      (a.cols = 0 → ∀ i, i < dest.rows → ∀ j, j < dest.cols → MAT_AT mem' dest i j = 0) ∧
      (dest.rows = 1 → dest.cols = 1 → a.cols = 1 →
        MAT_AT mem' dest 0 0 = MAT_AT mem a 0 0 * MAT_AT mem b 0 0) := by
  obtain ⟨mem', hok, hframe, hval⟩ := mat_dot_spec dest a b mem h1 h2 h3 hs hda hdb
  have hsum : ∀ i, i < dest.rows → ∀ j, j < dest.cols →
      MAT_AT mem' dest i j = ∑ k in Finset.range a.cols, MAT_AT mem a i k * MAT_AT mem b k j := by
    intro i hi j hj
    show mem' (dest.addr i j) = _
    rw [hval i hi j hj, dotAcc_eq_sum]
    rfl
  refine ⟨mem', hok, hsum, hframe, ?_, ?_⟩
  · intro h0 i hi j hj
    rw [hsum i hi j hj, h0, Finset.sum_range_zero]
  · intro hr hc hn
    rw [hsum 0 (by omega) 0 (by omega), hn, Finset.sum_range_one]

/-- The product in exact arithmetic, an instance: two 2x2 matrices over the integers
into a third. -/
theorem mat_dot_standard_product_witness :
    ∃ mem', mat_dot exDest exA exB exMemInt = .ok mem' ∧
      (∀ i, i < exDest.rows → ∀ j, j < exDest.cols →
        MAT_AT mem' exDest i j
          = ∑ k in Finset.range exA.cols, MAT_AT exMemInt exA i k * MAT_AT exMemInt exB k j) ∧
      (∀ x, ¬ exDest.owns x → mem' x = exMemInt x) ∧
      (exA.cols = 0 → ∀ i, i < exDest.rows → ∀ j, j < exDest.cols →
        MAT_AT mem' exDest i j = 0) ∧
      (exDest.rows = 1 → exDest.cols = 1 → exA.cols = 1 →
        MAT_AT mem' exDest 0 0 = MAT_AT exMemInt exA 0 0 * MAT_AT exMemInt exB 0 0) :=
  mat_dot_standard_product exDest exA exB exMemInt (by decide) (by decide) (by decide)
    (by decide) (by decide) (by decide)

/-- C10: for a matrix with stride at least cols, a row `r < rows` and a column `j < cols`,
writing `v` at element (0, j) of `mat_row(m, r)` makes element (r, j) of `m` equal to `v`
and leaves every other in-range element of `m` unchanged. -/
theorem mat_row_write_aliases {F : Type} (m : Mat) (mem : Mem F) (r j : Nat) (v : F)
    (hs : m.cols ≤ m.stride) (_hr : r < m.rows) (hj : j < m.cols) :
    MAT_AT (MAT_SET mem (mat_row m r) 0 j v) m r j = v ∧
    (∀ i', i' < m.rows → ∀ j', j' < m.cols → (i', j') ≠ (r, j) →
      MAT_AT (MAT_SET mem (mat_row m r) 0 j v) m i' j' = MAT_AT mem m i' j') := by
  have haddr : (mat_row m r).addr 0 j = m.addr r j := by
    simp only [mat_row, Mat.addr]; omega
  constructor
  · unfold MAT_AT MAT_SET
    rw [haddr, Mem.set_same]
  · intro i' _ j' hj' hne
    unfold MAT_AT MAT_SET
    rw [haddr]
    apply Mem.set_noteq
    intro e
    obtain ⟨e1, e2⟩ := m.addr_inj hs hj' hj e
    exact hne (by rw [e1, e2])

/-- C10, an instance: writing through the view of row 2 of a strided 4x2 view. -/
theorem mat_row_write_aliases_witness :
    MAT_AT (MAT_SET exMemInt (mat_row exView 2) 0 1 7) exView 2 1 = 7 ∧
    (∀ i', i' < exView.rows → ∀ j', j' < exView.cols → (i', j') ≠ (2, 1) →
      MAT_AT (MAT_SET exMemInt (mat_row exView 2) 0 1 7) exView i' j'
        = MAT_AT exMemInt exView i' j') :=
  mat_row_write_aliases exView exMemInt 2 1 7 (by decide) (by decide) (by decide)

/-! ## `mat_sum`, `mat_sig`, `mat_copy` -/

section ElementWise

variable {F : Type}

theorem mat_sum_spec [Add F] (dest a : Mat) (mem : Mem F)
    (h1 : dest.rows = a.rows) (h2 : dest.cols = a.cols)
    (hs : dest.cols ≤ dest.stride) (hda : dest.disj a) :
    ∃ mem', mat_sum dest a mem = .ok mem' ∧
      (∀ x, ¬ dest.owns x → mem' x = mem x) ∧
      (∀ i, i < dest.rows → ∀ j, j < dest.cols →
        mem' (dest.addr i j) = mem (dest.addr i j) + mem (a.addr i j)) := by
  have hok : mat_sum dest a mem = .ok (forLoop dest.rows (fun i s =>
      forLoop dest.cols (fun j s =>
        MAT_SET s dest i j (MAT_AT s dest i j + MAT_AT s a i j)) s) mem) := by
    simp only [mat_sum, h1, h2, ne_eq, not_true_eq_false, if_false]
  refine ⟨_, hok, ?_⟩
  apply cellLoop_frame_val dest hs (fun i j s => s (dest.addr i j) + s (a.addr i j))
  intro i j s s' hi hj hag
  show s (dest.addr i j) + s (a.addr i j) = s' (dest.addr i j) + s' (a.addr i j)
  rw [hag _ (fun _ => rfl),
    hag _ (fun ho => absurd ⟨i, h1 ▸ hi, j, h2 ▸ hj, rfl⟩ (Mat.disj_not_owns hda ho))]

theorem mat_sig_spec [One F] [Add F] [Neg F] [Div F] (expf : F → F) (m : Mat) (mem : Mem F)
    (hs : m.cols ≤ m.stride) :
    (∀ x, ¬ m.owns x → mat_sig expf m mem x = mem x) ∧
    (∀ i, i < m.rows → ∀ j, j < m.cols →
      mat_sig expf m mem (m.addr i j) = sigmoidf expf (mem (m.addr i j))) := by
  apply cellLoop_frame_val m hs (fun i j s => sigmoidf expf (s (m.addr i j)))
  intro i j s s' _ _ hag
  show sigmoidf expf (s (m.addr i j)) = sigmoidf expf (s' (m.addr i j))
  rw [hag _ (fun _ => rfl)]

theorem mat_copy_spec (dest src : Mat) (mem : Mem F)
    (h1 : dest.rows = src.rows) (h2 : dest.cols = src.cols)
    (hs : dest.cols ≤ dest.stride) (hd : dest.disj src) :
    ∃ mem', mat_copy dest src mem = .ok mem' ∧
      (∀ x, ¬ dest.owns x → mem' x = mem x) ∧
      (∀ i, i < dest.rows → ∀ j, j < dest.cols →
        mem' (dest.addr i j) = mem (src.addr i j)) := by
  have hok : mat_copy dest src mem = .ok (forLoop dest.rows (fun i s =>
      forLoop dest.cols (fun j s => MAT_SET s dest i j (MAT_AT s src i j)) s) mem) := by
    simp only [mat_copy, h1, h2, ne_eq, not_true_eq_false, if_false]
  refine ⟨_, hok, ?_⟩
  apply cellLoop_frame_val dest hs (fun i j s => s (src.addr i j))
  intro i j s s' hi hj hag
  exact hag _ (fun ho => absurd ⟨i, h1 ▸ hi, j, h2 ▸ hj, rfl⟩ (Mat.disj_not_owns hd ho))

end ElementWise

/-! ## Loops that may abort -/

theorem forLoopE_inv {ε σ : Type} (n : Nat) (body : Nat → σ → Except ε σ) (I : Nat → σ → Prop)
    (s : σ) (h0 : I 0 s)
    (hstep : ∀ i, i < n → ∀ s, I i s → ∃ s', body i s = .ok s' ∧ I (i + 1) s') :
    ∃ s', forLoopE n body s = .ok s' ∧ I n s' := by
  induction n with
  | zero => exact ⟨s, rfl, h0⟩
  | succ n ih =>
    obtain ⟨s1, e1, i1⟩ := ih (fun i hi => hstep i (Nat.lt_succ_of_lt hi))
    obtain ⟨s2, e2, i2⟩ := hstep n (Nat.lt_succ_self n) s1 i1
    exact ⟨s2, by simp only [forLoopE, e1, e2], i2⟩

theorem dotAcc_congr {F : Type} [Zero F] [Add F] [Mul F] (n : Nat) (x y x' y' : Nat → F)
    (hx : ∀ k, k < n → x k = x' k) (hy : ∀ k, k < n → y k = y' k) :
    dotAcc n x y = dotAcc n x' y' := by
  unfold dotAcc
  apply forLoop_congr
  intro k hk acc
  rw [hx k hk, hy k hk]

/-! ## `nn_forward` -/

section Forward

variable {F : Type} [Zero F] [One F] [Add F] [Mul F] [Neg F] [Div F]

/-- One iteration of `nn_forward` on a well-formed network: it returns, writes only
row `i + 1` of the activations, and what it writes is the layer formula read off the
memory the iteration started with. -/
theorem layer_spec (expf : F → F) (nn : NN) (hsh : nn.shapeOK) (hown : nn.owned)
    (i : Nat) (hi : i < nn.count) (s : Mem F) :
    ∃ s', (do
        let s1 ← mat_dot (nn.as (i + 1)) (nn.as i) (nn.ws i) s
        let s2 ← mat_sum (nn.as (i + 1)) (nn.bs i) s1
        pure (mat_sig expf (nn.as (i + 1)) s2) : Except (Mem F) (Mem F)) = .ok s' ∧
      (∀ x, ¬ (nn.as (i + 1)).owns x → s' x = s x) ∧
      (∀ j, j < (nn.as (i + 1)).cols →
        s' ((nn.as (i + 1)).addr 0 j)
          = sigmoidf expf (dotAcc (nn.as i).cols (fun k => s ((nn.as i).addr 0 k))
              (fun k => s ((nn.ws i).addr k j)) + s ((nn.bs i).addr 0 j))) := by
  obtain ⟨hrows, hlay⟩ := hsh
  obtain ⟨hsa, _, hdaa, hdap, _⟩ := hown
  obtain ⟨hwr, hwc, hbc, hbr⟩ := hlay i hi
  have hi1 : i + 1 ≤ nn.count := hi
  have hr1 : (nn.as (i + 1)).rows = 1 := hrows (i + 1) hi1
  have hr0 : (nn.as i).rows = 1 := hrows i (Nat.le_of_lt hi)
  obtain ⟨s1, e1, f1, v1⟩ := mat_dot_spec (nn.as (i + 1)) (nn.as i) (nn.ws i) s
    hwr.symm (hr1.trans hr0.symm) (hbc.symm.trans hwc.symm) (hsa (i + 1) hi1)
    (hdaa (i + 1) hi1 i (Nat.le_of_lt hi) (Nat.succ_ne_self i)) (hdap (i + 1) hi1 i hi).1
  obtain ⟨s2, e2, f2, v2⟩ := mat_sum_spec (nn.as (i + 1)) (nn.bs i) s1
    (hr1.trans hbr.symm) hbc.symm (hsa (i + 1) hi1) (hdap (i + 1) hi1 i hi).2
  obtain ⟨f3, v3⟩ := mat_sig_spec expf (nn.as (i + 1)) s2 (hsa (i + 1) hi1)
  refine ⟨mat_sig expf (nn.as (i + 1)) s2, ?_, ?_, ?_⟩
  · rw [e1]
    show (do
        let s2 ← mat_sum (nn.as (i + 1)) (nn.bs i) s1
        pure (mat_sig expf (nn.as (i + 1)) s2) : Except (Mem F) (Mem F)) = _
    rw [e2]
    rfl
  · intro x hx
    rw [f3 x hx, f2 x hx, f1 x hx]
  · intro j hj
    have h0 : 0 < (nn.as (i + 1)).rows := by omega
    rw [v3 0 h0 j hj, v2 0 h0 j hj, v1 0 h0 j hj]
    have hb : ¬ (nn.as (i + 1)).owns ((nn.bs i).addr 0 j) :=
      Mat.disj_not_owns (Mat.disj_symm (hdap (i + 1) hi1 i hi).2)
        ⟨0, by omega, j, by omega, rfl⟩
    rw [f1 _ hb]

end Forward

section ForwardRun

variable {F : Type} [Zero F] [One F] [Add F] [Mul F] [Neg F] [Div F]

/-- On a well-formed network `nn_forward` returns, changes no cell outside activation
rows 1..count, and leaves in every activation row the row of the recurrence computed
from the input row and the parameters it found in memory. -/
theorem nn_forward_spec (expf : F → F) (nn : NN) (hsh : nn.shapeOK) (hown : nn.owned)
    (mem : Mem F) :
    ∃ mem', nn_forward expf nn mem = .ok mem' ∧
      (∀ x, ¬ nn.hiddenCell x → mem' x = mem x) ∧
      (∀ i, i ≤ nn.count → ∀ j, j < (nn.as i).cols →
        mem' ((nn.as i).addr 0 j)
          = actRow expf nn mem (fun k => mem ((nn.as 0).addr 0 k)) i j) := by
  have hsh' := hsh
  have hown' := hown
  obtain ⟨hrows, hlay⟩ := hsh
  obtain ⟨_, _, hdaa, hdap, _⟩ := hown
  obtain ⟨mem', hok, _, hfr, hv⟩ := forLoopE_inv nn.count
    (fun i s => do
      let s1 ← mat_dot (nn.as (i + 1)) (nn.as i) (nn.ws i) s
      let s2 ← mat_sum (nn.as (i + 1)) (nn.bs i) s1
      pure (mat_sig expf (nn.as (i + 1)) s2))
    (fun t s => t ≤ nn.count ∧
      (∀ x, (∀ i, i < t → ¬ (nn.as (i + 1)).owns x) → s x = mem x) ∧
      (∀ i, i ≤ t → ∀ j, j < (nn.as i).cols →
        s ((nn.as i).addr 0 j) = actRow expf nn mem (fun k => mem ((nn.as 0).addr 0 k)) i j))
    mem
    ⟨Nat.zero_le _, fun x _ => rfl, fun i hi j _ => by
      have : i = 0 := by omega
      subst this; rfl⟩
    (by
      intro t ht s ⟨_, ifr, iv⟩
      obtain ⟨s', e, f, v⟩ := layer_spec expf nn hsh' hown' t ht s
      obtain ⟨hwr, hwc, hbc, hbr⟩ := hlay t ht
      refine ⟨s', e, ht, ?_, ?_⟩
      · intro x hx
        rw [f x (hx t (Nat.lt_succ_self t))]
        exact ifr x (fun i hi => hx i (Nat.lt_succ_of_lt hi))
      · intro i hi j hj
        rcases Nat.lt_succ_iff_lt_or_eq.mp (Nat.lt_succ_of_le hi) with hlt | heq
        · have hlt' : i ≤ t := Nat.le_of_lt_succ hlt
          have hno : ¬ (nn.as (t + 1)).owns ((nn.as i).addr 0 j) :=
            Mat.disj_not_owns (hdaa i (by omega) (t + 1) ht (by omega))
              ⟨0, by rw [hrows i (by omega)]; exact Nat.one_pos, j, hj, rfl⟩
          rw [f _ hno]
          exact iv i hlt' j hj
        · subst heq
          rw [v j hj]
          show _ = sigmoidf expf (dotAcc (nn.as t).cols
            (actRow expf nn mem (fun k => mem ((nn.as 0).addr 0 k)) t)
            (fun k => MAT_AT mem (nn.ws t) k j) + MAT_AT mem (nn.bs t) 0 j)
          have hw : ∀ k, k < (nn.as t).cols → s ((nn.ws t).addr k j) = mem ((nn.ws t).addr k j) :=
            fun k hk => ifr _ (fun i hi => Mat.disj_not_owns
              (Mat.disj_symm (hdap (i + 1) (by omega) t ht).1)
              ⟨k, by omega, j, by omega, rfl⟩)
          have hb : s ((nn.bs t).addr 0 j) = mem ((nn.bs t).addr 0 j) :=
            ifr _ (fun i hi => Mat.disj_not_owns
              (Mat.disj_symm (hdap (i + 1) (by omega) t ht).2)
              ⟨0, by omega, j, by omega, rfl⟩)
          rw [hb, dotAcc_congr (nn.as t).cols _ _
            (actRow expf nn mem (fun k => mem ((nn.as 0).addr 0 k)) t)
            (fun k => MAT_AT mem (nn.ws t) k j)
            (fun k hk => iv t (Nat.le_refl t) k hk) hw]
          rfl)
  refine ⟨mem', hok, ?_, hv⟩
  intro x hx
  exact hfr x (fun i hi ho => hx ⟨i, hi, ho⟩)

end ForwardRun

/-! ## Cells of a well-formed network -/

theorem NN.ws_not_act (nn : NN) (hown : nn.owned) {l : Nat} (hl : l < nn.count) {x : Nat}
    (h : (nn.ws l).owns x) : ¬ nn.actCell x := by
  rintro ⟨i, hi, ho⟩
  exact Mat.disj_not_owns (hown.2.2.2.1 i hi l hl).1 ho h

theorem NN.bs_not_act (nn : NN) (hown : nn.owned) {l : Nat} (hl : l < nn.count) {x : Nat}
    (h : (nn.bs l).owns x) : ¬ nn.actCell x := by
  rintro ⟨i, hi, ho⟩
  exact Mat.disj_not_owns (hown.2.2.2.1 i hi l hl).2 ho h

theorem NN.hidden_act (nn : NN) {x : Nat} (h : nn.hiddenCell x) : nn.actCell x := by
  obtain ⟨i, hi, ho⟩ := h
  exact ⟨i + 1, hi, ho⟩

theorem NN.input_not_hidden (nn : NN) (hown : nn.owned) {x : Nat}
    (h : (nn.as 0).owns x) : ¬ nn.hiddenCell x := by
  rintro ⟨i, hi, ho⟩
  exact Mat.disj_not_owns (hown.2.2.1 0 (Nat.zero_le _) (i + 1) hi (by omega)) h ho

theorem NN.sameParams_of_frame {F : Type} (nn : NN) (hown : nn.owned) (m1 m2 : Mem F)
    (h : ∀ x, ¬ nn.actCell x → m1 x = m2 x) : nn.sameParams m1 m2 := by
  intro l hl
  exact ⟨fun j hj k hk => h _ (nn.ws_not_act hown hl ⟨j, hj, k, hk, rfl⟩),
    fun j hj k hk => h _ (nn.bs_not_act hown hl ⟨j, hj, k, hk, rfl⟩)⟩

/-! ## Claims on `nn_forward` -/

/-- In exact arithmetic (a field, no rounding): on a network that satisfies the shape
invariant and owns its matrices, `nn_forward` returns and for every layer `i < count` and
column `j`,
`activations[i+1][0][j] = sigmoid(sum over k of activations[i][0][k] * weights[i][k][j]
+ biases[i][0][j])`; the input row `activations[0]`, the weights and the biases are not
modified. -/
theorem nn_forward_layer_recurrence {F : Type} [Field F] (expf : F → F) (nn : NN)
    (hsh : nn.shapeOK) (hown : nn.owned) (mem : Mem F) :
    ∃ mem', nn_forward expf nn mem = .ok mem' ∧
      (∀ i, i < nn.count → ∀ j, j < (nn.as (i + 1)).cols →
        MAT_AT mem' (nn.as (i + 1)) 0 j
          = sigmoidf expf ((∑ k in Finset.range (nn.as i).cols,
              MAT_AT mem' (nn.as i) 0 k * MAT_AT mem' (nn.ws i) k j)
              + MAT_AT mem' (nn.bs i) 0 j)) ∧
      (∀ j, j < (nn.as 0).cols → MAT_AT mem' (nn.as 0) 0 j = MAT_AT mem (nn.as 0) 0 j) ∧
      nn.sameParams mem' mem := by
  obtain ⟨mem', hok, hfr, hv⟩ := nn_forward_spec expf nn hsh hown mem
  have hsame : nn.sameParams mem' mem :=
    nn.sameParams_of_frame hown mem' mem (fun x hx => hfr x (fun hh => hx (nn.hidden_act hh)))
  refine ⟨mem', hok, ?_, ?_, hsame⟩
  · intro i hi j hj
    obtain ⟨hwr, hwc, hbc, hbr⟩ := hsh.2 i hi
    show mem' ((nn.as (i + 1)).addr 0 j) = _
    rw [hv (i + 1) hi j hj]
    show sigmoidf expf (dotAcc (nn.as i).cols
      (actRow expf nn mem (fun k => mem ((nn.as 0).addr 0 k)) i)
      (fun k => MAT_AT mem (nn.ws i) k j) + MAT_AT mem (nn.bs i) 0 j) = _
    rw [dotAcc_eq_sum, (hsame i hi).2 0 (by omega) j (by omega)]
    congr 2
    apply Finset.sum_congr rfl
    intro k hk
    have hk' : k < (nn.as i).cols := Finset.mem_range.mp hk
    rw [(hsame i hi).1 k (by omega) j (by omega)]
    show _ = mem' ((nn.as i).addr 0 k) * _
    rw [hv i (Nat.le_of_lt hi) k hk']
  · intro j hj
    exact hfr _ (nn.input_not_hidden hown
      ⟨0, by rw [hsh.1 0 (Nat.zero_le _)]; exact Nat.one_pos, j, hj, rfl⟩)

/-- The recurrence in exact arithmetic, an instance: the {2, 2, 1} network over the
rationals. -/
theorem nn_forward_layer_recurrence_witness :
    ∃ mem', nn_forward exExp exNet exMemRat = .ok mem' ∧
      (∀ i, i < exNet.count → ∀ j, j < (exNet.as (i + 1)).cols →
        MAT_AT mem' (exNet.as (i + 1)) 0 j
          = sigmoidf exExp ((∑ k in Finset.range (exNet.as i).cols,
              MAT_AT mem' (exNet.as i) 0 k * MAT_AT mem' (exNet.ws i) k j)
              + MAT_AT mem' (exNet.bs i) 0 j)) ∧
      (∀ j, j < (exNet.as 0).cols →
        MAT_AT mem' (exNet.as 0) 0 j = MAT_AT exMemRat (exNet.as 0) 0 j) ∧
      exNet.sameParams mem' exMemRat :=
  nn_forward_layer_recurrence exExp exNet (by decide) (by decide) exMemRat

section ActRow

variable {F : Type} [Zero F] [One F] [Add F] [Mul F] [Neg F] [Div F]

/-- The rows of the recurrence depend on the memory only through the weights and biases,
and on the input row only through its in-range columns. -/
theorem actRow_congr (expf : F → F) (nn : NN) (hsh : nn.shapeOK) (m1 m2 : Mem F)
    (x1 x2 : Nat → F) (hp : nn.sameParams m1 m2)
    (hx : ∀ k, k < (nn.as 0).cols → x1 k = x2 k) :
    ∀ i, i ≤ nn.count → ∀ j, j < (nn.as i).cols →
      actRow expf nn m1 x1 i j = actRow expf nn m2 x2 i j := by
  intro i
  induction i with
  | zero => exact fun _ j hj => hx j hj
  | succ i ih =>
    intro hi j hj
    have hi' : i < nn.count := hi
    obtain ⟨hwr, hwc, hbc, hbr⟩ := hsh.2 i hi'
    show sigmoidf expf (dotAcc (nn.as i).cols (actRow expf nn m1 x1 i)
        (fun k => MAT_AT m1 (nn.ws i) k j) + MAT_AT m1 (nn.bs i) 0 j)
      = sigmoidf expf (dotAcc (nn.as i).cols (actRow expf nn m2 x2 i)
        (fun k => MAT_AT m2 (nn.ws i) k j) + MAT_AT m2 (nn.bs i) 0 j)
    rw [(hp i hi').2 0 (by omega) j (by omega),
      dotAcc_congr (nn.as i).cols _ _ (actRow expf nn m2 x2 i)
        (fun k => MAT_AT m2 (nn.ws i) k j)
        (fun k hk => ih (Nat.le_of_lt hi') k hk)
        (fun k hk => (hp i hi').1 k (by omega) j (by omega))]

end ActRow

/-- C9: on a network that satisfies the shape invariant and owns its matrices, a second
`nn_forward` right after the first, with the input row, weights and biases untouched in
between, returns the very memory the first one left: every activation matrix, the output
row included, keeps its value. -/
theorem nn_forward_idempotent {F : Type} [Zero F] [One F] [Add F] [Mul F] [Neg F] [Div F]
    (expf : F → F) (nn : NN) (hsh : nn.shapeOK) (hown : nn.owned) (mem : Mem F) :
    ∃ mem1, nn_forward expf nn mem = .ok mem1 ∧ nn_forward expf nn mem1 = .ok mem1 := by
  obtain ⟨mem1, hok1, hfr1, hv1⟩ := nn_forward_spec expf nn hsh hown mem
  obtain ⟨mem2, hok2, hfr2, hv2⟩ := nn_forward_spec expf nn hsh hown mem1
  have hsame : nn.sameParams mem1 mem :=
    nn.sameParams_of_frame hown mem1 mem (fun x hx => hfr1 x (fun hh => hx (nn.hidden_act hh)))
  have hin : ∀ k, k < (nn.as 0).cols → mem1 ((nn.as 0).addr 0 k) = mem ((nn.as 0).addr 0 k) :=
    fun k hk => hfr1 _ (nn.input_not_hidden hown
      ⟨0, by rw [hsh.1 0 (Nat.zero_le _)]; exact Nat.one_pos, k, hk, rfl⟩)
  have heq : mem2 = mem1 := by
    apply Mem.ext_cell
    intro x
    by_cases hx : nn.hiddenCell x
    · obtain ⟨i, hi, r, hr, j, hj, e⟩ := hx
      have hr0 : r = 0 := by
        have := hsh.1 (i + 1) hi
        omega
      subst hr0
      subst e
      rw [hv2 (i + 1) hi j hj, hv1 (i + 1) hi j hj]
      exact actRow_congr expf nn hsh mem1 mem _ _ hsame hin (i + 1) hi j hj
    · exact hfr2 x hx
  exact ⟨mem1, hok1, heq ▸ hok2⟩

/-- C9, an instance: the {2, 2, 1} network. -/
theorem nn_forward_idempotent_witness :
    ∃ mem1, nn_forward exExp exNet exMemRat = .ok mem1 ∧
      nn_forward exExp exNet mem1 = .ok mem1 :=
  nn_forward_idempotent exExp exNet (by decide) (by decide) exMemRat

theorem forLoop_inv {σ : Type} (n : Nat) (body : Nat → σ → σ) (I : Nat → σ → Prop) (s : σ)
    (h0 : I 0 s) (hstep : ∀ i, i < n → ∀ s, I i s → I (i + 1) (body i s)) :
    I n (forLoop n body s) := by
  induction n with
  | zero => exact h0
  | succ n ih =>
    exact hstep n (Nat.lt_succ_self n) _ (ih (fun i hi => hstep i (Nat.lt_succ_of_lt hi)))

theorem NN.as_mem_mats (nn : NN) {i : Nat} (hi : i ≤ nn.count) : nn.as i ∈ nn.mats := by
  unfold NN.mats
  simp only [List.mem_append, List.mem_map, List.mem_range]
  exact Or.inl (Or.inl ⟨i, Nat.lt_succ_of_le hi, rfl⟩)

theorem NN.ws_mem_mats (nn : NN) {i : Nat} (hi : i < nn.count) : nn.ws i ∈ nn.mats := by
  unfold NN.mats
  simp only [List.mem_append, List.mem_map, List.mem_range]
  exact Or.inl (Or.inr ⟨i, hi, rfl⟩)

theorem NN.bs_mem_mats (nn : NN) {i : Nat} (hi : i < nn.count) : nn.bs i ∈ nn.mats := by
  unfold NN.mats
  simp only [List.mem_append, List.mem_map, List.mem_range]
  exact Or.inr ⟨i, hi, rfl⟩

theorem NN.mem_mats_cases (nn : NN) {m : Mat} (h : m ∈ nn.mats) :
    (∃ i, i ≤ nn.count ∧ m = nn.as i) ∨ (∃ i, i < nn.count ∧ (m = nn.ws i ∨ m = nn.bs i)) := by
  unfold NN.mats at h
  simp only [List.mem_append, List.mem_map, List.mem_range] at h
  rcases h with (⟨i, hi, e⟩ | ⟨i, hi, e⟩) | ⟨i, hi, e⟩
  · exact Or.inl ⟨i, Nat.le_of_lt_succ hi, e.symm⟩
  · exact Or.inr ⟨i, hi, Or.inl e.symm⟩
  · exact Or.inr ⟨i, hi, Or.inr e.symm⟩

/-! ## `nn_learn` -/

section Learn

variable {F : Type} [Sub F] [Mul F]

/-- The double loop `MAT_AT(dest, j, k) -= MAT_AT(gm, j, k) * rate` over the elements of
`dest`, with `gm` of the same shape and apart from `dest`. -/
theorem descend_spec (dest gm : Mat) (rate : F) (mem : Mem F)
    (h1 : dest.rows = gm.rows) (h2 : dest.cols = gm.cols)
    (hs : dest.cols ≤ dest.stride) (hd : dest.disj gm) :
    (∀ x, ¬ dest.owns x →
      forLoop dest.rows (fun j s => forLoop dest.cols (fun k s =>
        MAT_SET s dest j k (MAT_AT s dest j k - MAT_AT s gm j k * rate)) s) mem x = mem x) ∧
    (∀ j, j < dest.rows → ∀ k, k < dest.cols →
      forLoop dest.rows (fun j s => forLoop dest.cols (fun k s =>
        MAT_SET s dest j k (MAT_AT s dest j k - MAT_AT s gm j k * rate)) s) mem (dest.addr j k)
        = mem (dest.addr j k) - mem (gm.addr j k) * rate) := by
  apply cellLoop_frame_val dest hs (fun j k s => s (dest.addr j k) - s (gm.addr j k) * rate)
  intro j k s s' hj hk hag
  show s (dest.addr j k) - s (gm.addr j k) * rate = s' (dest.addr j k) - s' (gm.addr j k) * rate
  rw [hag _ (fun _ => rfl),
    hag _ (fun ho => absurd ⟨j, h1 ▸ hj, k, h2 ▸ hk, rfl⟩ (Mat.disj_not_owns hd ho))]

/-- What `nn_learn` leaves in memory: the update on every weight and bias, and every
cell outside the weights and biases of `n` as it was. -/
theorem nn_learn_spec (n g : NN) (rate : F) (mem : Mem F)
    (hown : n.owned) (harch : n.sameArch g) (hap : n.apart g) :
    (∀ x, ¬ n.paramCell x → nn_learn n g rate mem x = mem x) ∧
    (∀ l, l < n.count →
      (∀ j, j < (n.ws l).rows → ∀ k, k < (n.ws l).cols →
        nn_learn n g rate mem ((n.ws l).addr j k)
          = mem ((n.ws l).addr j k) - mem ((g.ws l).addr j k) * rate) ∧
      (∀ j, j < (n.bs l).rows → ∀ k, k < (n.bs l).cols →
        nn_learn n g rate mem ((n.bs l).addr j k)
          = mem ((n.bs l).addr j k) - mem ((g.bs l).addr j k) * rate)) := by
  obtain ⟨hcnt, _, hpar⟩ := harch
  obtain ⟨_, hsp, _, _, hdpp⟩ := hown
  have key := forLoop_inv n.count
    (fun i s =>
      let s := forLoop (n.ws i).rows (fun j s =>
        forLoop (n.ws i).cols (fun k s =>
          MAT_SET s (n.ws i) j k (MAT_AT s (n.ws i) j k - MAT_AT s (g.ws i) j k * rate)) s) s
      forLoop (n.bs i).rows (fun j s =>
        forLoop (n.bs i).cols (fun k s =>
          MAT_SET s (n.bs i) j k (MAT_AT s (n.bs i) j k - MAT_AT s (g.bs i) j k * rate)) s) s)
    (fun t s => t ≤ n.count ∧
      (∀ x, (∀ l, l < t → ¬ (n.ws l).owns x ∧ ¬ (n.bs l).owns x) → s x = mem x) ∧
      (∀ l, l < t →
        (∀ j, j < (n.ws l).rows → ∀ k, k < (n.ws l).cols →
          s ((n.ws l).addr j k) = mem ((n.ws l).addr j k) - mem ((g.ws l).addr j k) * rate) ∧
        (∀ j, j < (n.bs l).rows → ∀ k, k < (n.bs l).cols →
          s ((n.bs l).addr j k) = mem ((n.bs l).addr j k) - mem ((g.bs l).addr j k) * rate)))
    mem ⟨Nat.zero_le _, fun x _ => rfl, fun l hl => absurd hl (Nat.not_lt_zero l)⟩
    (by
      intro t ht s ⟨_, ifr, iv⟩
      obtain ⟨hwr, hwc, hbr, hbc⟩ := hpar t ht
      have htg : t < g.count := hcnt ▸ ht
      obtain ⟨fw, vw⟩ := descend_spec (n.ws t) (g.ws t) rate s hwr hwc (hsp t ht).1
        (hap _ (n.ws_mem_mats ht) _ (g.ws_mem_mats htg))
      obtain ⟨fb, vb⟩ := descend_spec (n.bs t) (g.bs t) rate
        (forLoop (n.ws t).rows (fun j s =>
          forLoop (n.ws t).cols (fun k s =>
            MAT_SET s (n.ws t) j k (MAT_AT s (n.ws t) j k - MAT_AT s (g.ws t) j k * rate)) s) s)
        hbr hbc (hsp t ht).2 (hap _ (n.bs_mem_mats ht) _ (g.bs_mem_mats htg))
      have hwb : (n.ws t).disj (n.bs t) := (hdpp t ht t ht).1
      -- cells of earlier layers are cells of neither matrix of layer t
      have hearly : ∀ l, l < t → ∀ x, ((n.ws l).owns x ∨ (n.bs l).owns x) →
          ¬ (n.ws t).owns x ∧ ¬ (n.bs t).owns x := by
        intro l hl x hx
        have hlt : l < n.count := by omega
        have hne : l ≠ t := by omega
        rcases hx with hx | hx
        · exact ⟨Mat.disj_not_owns ((hdpp l hlt t ht).2 hne).1 hx,
            Mat.disj_not_owns (hdpp l hlt t ht).1 hx⟩
        · exact ⟨Mat.disj_not_owns (Mat.disj_symm (hdpp t ht l hlt).1) hx,
            Mat.disj_not_owns ((hdpp l hlt t ht).2 hne).2 hx⟩
      -- cells of g are cells of no weight or bias matrix of n
      have hgcell : ∀ m', m' ∈ g.mats → ∀ x, m'.owns x →
          ∀ l, l < n.count → ¬ (n.ws l).owns x ∧ ¬ (n.bs l).owns x := by
        intro m' hm' x hx l hl
        exact ⟨Mat.disj_not_owns (Mat.disj_symm (hap _ (n.ws_mem_mats hl) _ hm')) hx,
          Mat.disj_not_owns (Mat.disj_symm (hap _ (n.bs_mem_mats hl) _ hm')) hx⟩
      dsimp only
      refine ⟨ht, ?_, ?_⟩
      · intro x hx
        rw [fb x (hx t (Nat.lt_succ_self t)).2, fw x (hx t (Nat.lt_succ_self t)).1]
        exact ifr x (fun l hl => hx l (Nat.lt_succ_of_lt hl))
      · intro l hl
        rcases Nat.lt_succ_iff_lt_or_eq.mp hl with hlt | heq
        · constructor
          · intro j hj k hk
            have hno := hearly l hlt _ (Or.inl ⟨j, hj, k, hk, rfl⟩)
            rw [fb _ hno.2, fw _ hno.1]
            exact (iv l hlt).1 j hj k hk
          · intro j hj k hk
            have hno := hearly l hlt _ (Or.inr ⟨j, hj, k, hk, rfl⟩)
            rw [fb _ hno.2, fw _ hno.1]
            exact (iv l hlt).2 j hj k hk
        · subst heq
          constructor
          · intro j hj k hk
            have hw : (n.ws l).owns ((n.ws l).addr j k) := ⟨j, hj, k, hk, rfl⟩
            have hgw : (g.ws l).owns ((g.ws l).addr j k) := ⟨j, hwr ▸ hj, k, hwc ▸ hk, rfl⟩
            rw [fb _ (Mat.disj_not_owns hwb hw), vw j hj k hk,
              ifr _ (fun l' hl' => ⟨fun h => (hearly l' hl' _ (Or.inl h)).1 hw,
                fun h => (hearly l' hl' _ (Or.inr h)).1 hw⟩),
              ifr _ (fun l' hl' => hgcell _ (g.ws_mem_mats htg) _ hgw l' (by omega))]
          · intro j hj k hk
            have hb : (n.bs l).owns ((n.bs l).addr j k) := ⟨j, hj, k, hk, rfl⟩
            have hgb : (g.bs l).owns ((g.bs l).addr j k) := ⟨j, hbr ▸ hj, k, hbc ▸ hk, rfl⟩
            rw [vb j hj k hk, fw _ (Mat.disj_not_owns (Mat.disj_symm hwb) hb),
              fw _ (hgcell _ (g.bs_mem_mats htg) _ hgb l ht).1,
              ifr _ (fun l' hl' => ⟨fun h => (hearly l' hl' _ (Or.inl h)).2 hb,
                fun h => (hearly l' hl' _ (Or.inr h)).2 hb⟩),
              ifr _ (fun l' hl' => hgcell _ (g.bs_mem_mats htg) _ hgb l' (by omega))])
  obtain ⟨_, kfr, kv⟩ := key
  refine ⟨fun x hx => kfr x (fun l hl => ⟨fun h => hx ⟨l, hl, Or.inl h⟩,
    fun h => hx ⟨l, hl, Or.inr h⟩⟩), kv⟩

end Learn

/-- C6: for a network `n` that owns its matrices and a network `g` of identical
architecture stored apart from it, after `nn_learn(n, g, rate)` every weight is
`w - gw * rate` and every bias `b - gb * rate` (`gw`, `gb` the elements of `g` at the same
position), while every cell that is no weight or bias of `n` keeps its value; in
particular the activations of `n` and all of `g` are unchanged. -/
theorem nn_learn_steepest_descent {F : Type} [Sub F] [Mul F] (n g : NN) (rate : F)
    (mem : Mem F) (hown : n.owned) (harch : n.sameArch g) (hap : n.apart g) :
    (∀ i, i < n.count → ∀ j, j < (n.ws i).rows → ∀ k, k < (n.ws i).cols →
      MAT_AT (nn_learn n g rate mem) (n.ws i) j k
        = MAT_AT mem (n.ws i) j k - MAT_AT mem (g.ws i) j k * rate) ∧
    (∀ i, i < n.count → ∀ j, j < (n.bs i).rows → ∀ k, k < (n.bs i).cols →
      MAT_AT (nn_learn n g rate mem) (n.bs i) j k
        = MAT_AT mem (n.bs i) j k - MAT_AT mem (g.bs i) j k * rate) ∧
    (∀ x, ¬ n.paramCell x → nn_learn n g rate mem x = mem x) ∧
    (∀ i, i ≤ n.count → ∀ j, j < (n.as i).rows → ∀ k, k < (n.as i).cols →
      MAT_AT (nn_learn n g rate mem) (n.as i) j k = MAT_AT mem (n.as i) j k) ∧
    (∀ m, m ∈ g.mats → ∀ j, j < m.rows → ∀ k, k < m.cols →
      MAT_AT (nn_learn n g rate mem) m j k = MAT_AT mem m j k) := by
  obtain ⟨hfr, hv⟩ := nn_learn_spec n g rate mem hown harch hap
  refine ⟨fun i hi => (hv i hi).1, fun i hi => (hv i hi).2, hfr, ?_, ?_⟩
  · intro i hi j hj k hk
    apply hfr
    rintro ⟨l, hl, h | h⟩
    · exact n.ws_not_act hown hl h ⟨i, hi, j, hj, k, hk, rfl⟩
    · exact n.bs_not_act hown hl h ⟨i, hi, j, hj, k, hk, rfl⟩
  · intro m hm j hj k hk
    apply hfr
    rintro ⟨l, hl, h | h⟩
    · exact Mat.disj_not_owns (hap _ (n.ws_mem_mats hl) _ hm) h ⟨j, hj, k, hk, rfl⟩
    · exact Mat.disj_not_owns (hap _ (n.bs_mem_mats hl) _ hm) h ⟨j, hj, k, hk, rfl⟩

/-- C6, an instance: two {2, 2, 1} networks over the integers, rate 3. -/
theorem nn_learn_steepest_descent_witness :
    (∀ i, i < exNet.count → ∀ j, j < (exNet.ws i).rows → ∀ k, k < (exNet.ws i).cols →
      MAT_AT (nn_learn exNet exGrad 3 exMemInt) (exNet.ws i) j k
        = MAT_AT exMemInt (exNet.ws i) j k - MAT_AT exMemInt (exGrad.ws i) j k * 3) ∧
    (∀ i, i < exNet.count → ∀ j, j < (exNet.bs i).rows → ∀ k, k < (exNet.bs i).cols →
      MAT_AT (nn_learn exNet exGrad 3 exMemInt) (exNet.bs i) j k
        = MAT_AT exMemInt (exNet.bs i) j k - MAT_AT exMemInt (exGrad.bs i) j k * 3) ∧
    (∀ x, ¬ exNet.paramCell x → nn_learn exNet exGrad 3 exMemInt x = exMemInt x) ∧
    (∀ i, i ≤ exNet.count → ∀ j, j < (exNet.as i).rows → ∀ k, k < (exNet.as i).cols →
      MAT_AT (nn_learn exNet exGrad 3 exMemInt) (exNet.as i) j k
        = MAT_AT exMemInt (exNet.as i) j k) ∧
    (∀ m, m ∈ exGrad.mats → ∀ j, j < m.rows → ∀ k, k < m.cols →
      MAT_AT (nn_learn exNet exGrad 3 exMemInt) m j k = MAT_AT exMemInt m j k) :=
  nn_learn_steepest_descent exNet exGrad 3 exMemInt (by decide) (by decide) (by decide)

/-! ## Allocation -/

theorem NN_MALLOC_ok (a : Alloc) (size : Nat) (h : a.brk + size ≤ a.cap) :
    NN_MALLOC a size = (some a.brk, { brk := a.brk + size, cap := a.cap }) := by
  simp only [NN_MALLOC, h, if_true]

theorem mat_alloc_ok (rows cols : Nat) (a : Alloc) (h : a.brk + rows * cols ≤ a.cap) :
    mat_alloc rows cols a
      = .ok ({ rows := rows, cols := cols, stride := cols, es := a.brk },
             { brk := a.brk + rows * cols, cap := a.cap }) := by
  simp only [mat_alloc, NN_MALLOC_ok a _ h]

theorem layerCells_mono (arch : List Nat) {t u : Nat} (h : t ≤ u) :
    layerCells arch t ≤ layerCells arch u := by
  induction u with
  | zero =>
    have : t = 0 := by omega
    subst this; exact Nat.le_refl _
  | succ u ih =>
    rcases Nat.lt_succ_iff_lt_or_eq.mp (Nat.lt_succ_of_le h) with hlt | heq
    · exact Nat.le_trans (ih (Nat.le_of_lt_succ hlt)) (by simp only [layerCells]; omega)
    · subst heq; exact Nat.le_refl _

/-- One iteration of the loop of `nn_alloc`, with room for the three blocks. -/
theorem nn_alloc_step (arch : List Nat) (t : Nat) (nn : NN) (al : Alloc)
    (hroom : al.brk + ((nn.as t).cols * arch.getD (t + 1) 0 + 1 * arch.getD (t + 1) 0
      + 1 * arch.getD (t + 1) 0) ≤ al.cap) :
    (do
      let i := t + 1
      let w ← mat_alloc (nn.as (i - 1)).cols (arch.getD i 0) al
      let nn1 : NN := { nn with ws := Function.update nn.ws (i - 1) w.1 }
      let b ← mat_alloc 1 (arch.getD i 0) w.2
      let nn2 : NN := { nn1 with bs := Function.update nn1.bs (i - 1) b.1 }
      let m ← mat_alloc 1 (arch.getD i 0) b.2
      let nn3 : NN := { nn2 with as := Function.update nn2.as i m.1 }
      pure (nn3, m.2) : Except Fault (NN × Alloc))
    = .ok ({ count := nn.count
             ws := Function.update nn.ws t
               { rows := (nn.as t).cols, cols := arch.getD (t + 1) 0,
                 stride := arch.getD (t + 1) 0, es := al.brk }
             bs := Function.update nn.bs t
               { rows := 1, cols := arch.getD (t + 1) 0, stride := arch.getD (t + 1) 0,
                 es := al.brk + (nn.as t).cols * arch.getD (t + 1) 0 }
             as := Function.update nn.as (t + 1)
               { rows := 1, cols := arch.getD (t + 1) 0, stride := arch.getD (t + 1) 0,
                 es := al.brk + (nn.as t).cols * arch.getD (t + 1) 0
                   + 1 * arch.getD (t + 1) 0 } },
           { brk := al.brk + (nn.as t).cols * arch.getD (t + 1) 0 + 1 * arch.getD (t + 1) 0
               + 1 * arch.getD (t + 1) 0,
             cap := al.cap }) := by
  simp only [Nat.add_sub_cancel]
  rw [mat_alloc_ok _ _ al (by omega)]
  simp only [bind, Except.bind]
  rw [mat_alloc_ok _ _ _ (by simp only; omega)]
  simp only [bind, Except.bind]
  rw [mat_alloc_ok _ _ _ (by simp only; omega)]
  rfl

/-- With room for every block, `nn_alloc` returns the network whose headers are the
blocks in allocation order, and the allocator moved past the last block. -/
theorem nn_alloc_layout (arch : List Nat) (a : Alloc) (hL : 1 ≤ arch.length)
    (hroom : a.brk + nn_alloc_cells arch ≤ a.cap) :
    ∃ nn, nn_alloc arch arch.length a
        = .ok (nn, { brk := layerBase arch a (arch.length - 1), cap := a.cap }) ∧
      nn.count = arch.length - 1 ∧
      (∀ i, i ≤ arch.length - 1 → nn.as i = asAt arch a i) ∧
      (∀ i, i < arch.length - 1 → nn.ws i = wsAt arch a i ∧ nn.bs i = bsAt arch a i) := by
  unfold nn_alloc_cells at hroom
  have hpos : arch.length > 0 := hL
  obtain ⟨st, hst, hI⟩ := forLoopE_inv (arch.length - 1)
    (fun t (st : NN × Alloc) => (do
      let i := t + 1
      let nn := st.1
      let w ← mat_alloc (nn.as (i - 1)).cols (arch.getD i 0) st.2
      let nn := { nn with ws := Function.update nn.ws (i - 1) w.1 }
      let b ← mat_alloc 1 (arch.getD i 0) w.2
      let nn := { nn with bs := Function.update nn.bs (i - 1) b.1 }
      let m ← mat_alloc 1 (arch.getD i 0) b.2
      let nn := { nn with as := Function.update nn.as i m.1 }
      pure (nn, m.2) : Except Fault (NN × Alloc)))
    (fun t st => t ≤ arch.length - 1 ∧ st.1.count = arch.length - 1 ∧
      st.2 = { brk := layerBase arch a t, cap := a.cap } ∧
      (∀ i, i ≤ t → st.1.as i = asAt arch a i) ∧
      (∀ i, i < t → st.1.ws i = wsAt arch a i ∧ st.1.bs i = bsAt arch a i))
    (({ count := arch.length - 1, ws := fun _ => default, bs := fun _ => default,
        as := Function.update (fun _ => default) 0
          { rows := 1, cols := arch.getD 0 0, stride := arch.getD 0 0,
            es := a.brk + (arch.length - 1) + (arch.length - 1) + (arch.length - 1 + 1) } } : NN),
      { brk := a.brk + (arch.length - 1) + (arch.length - 1) + (arch.length - 1 + 1)
          + 1 * arch.getD 0 0, cap := a.cap })
    ⟨Nat.zero_le _, rfl, rfl, fun i hi => by
        have : i = 0 := by omega
        subst this
        simp only [Function.update_same, asAt, allocBase],
      fun i hi => absurd hi (Nat.not_lt_zero i)⟩
    (by
      rintro t ht ⟨nn, al⟩ ⟨_, hc, hal, hacts, hpar⟩
      simp only at hc hal hacts hpar
      subst hal
      have hcols : (nn.as t).cols = arch.getD t 0 := by
        rw [hacts t (Nat.le_refl t)]
        cases t <;> rfl
      have hmono := layerCells_mono arch (Nat.succ_le_of_lt ht)
      simp only [layerCells] at hmono
      refine ⟨_, nn_alloc_step arch t nn _ (by
        simp only [hcols, layerBase, allocBase]; omega), ht, hc, ?_, ?_, ?_⟩
      · simp only [hcols, layerBase, layerCells, Alloc.mk.injEq, and_true]
        omega
      · intro i hi
        rcases Nat.lt_succ_iff_lt_or_eq.mp (Nat.lt_succ_of_le hi) with hlt | heq
        · have hne : i ≠ t + 1 := by omega
          simp only [Function.update_noteq hne]
          exact hacts i (Nat.le_of_lt_succ hlt)
        · subst heq
          simp only [Function.update_same, asAt, hcols]
      · intro i hi
        rcases Nat.lt_succ_iff_lt_or_eq.mp hi with hlt | heq
        · have hne : i ≠ t := by omega
          simp only [Function.update_noteq hne]
          exact hpar i hlt
        · subst heq
          simp only [Function.update_same, hcols, wsAt, bsAt, and_self])
  obtain ⟨_, hc, hal, hacts, hpar⟩ := hI
  refine ⟨st.1, ?_, hc, hacts, hpar⟩
  rw [← hal]
  unfold nn_alloc
  simp only [hpos, not_true_eq_false, if_false]
  rw [NN_MALLOC_ok a _ (by omega)]
  simp only
  rw [NN_MALLOC_ok _ _ (by simp only; omega)]
  simp only
  rw [NN_MALLOC_ok _ _ (by simp only; omega)]
  simp only
  rw [mat_alloc_ok _ _ _ (by simp only; omega)]
  exact hst

/-- With room for every block, `nn_alloc` returns a network whose count and shapes follow
the architecture, every matrix with stride equal to cols. -/
theorem nn_alloc_spec (arch : List Nat) (a : Alloc) (hL : 1 ≤ arch.length)
    (hroom : a.brk + nn_alloc_cells arch ≤ a.cap) :
    ∃ nn a', nn_alloc arch arch.length a = .ok (nn, a') ∧ nn.count = arch.length - 1 ∧
      (∀ i, i ≤ arch.length - 1 → (nn.as i).rows = 1 ∧ (nn.as i).cols = arch.getD i 0 ∧
        (nn.as i).stride = arch.getD i 0) ∧
      (∀ i, i < arch.length - 1 →
        (nn.ws i).rows = arch.getD i 0 ∧ (nn.ws i).cols = arch.getD (i + 1) 0 ∧
        (nn.ws i).stride = arch.getD (i + 1) 0 ∧
        (nn.bs i).rows = 1 ∧ (nn.bs i).cols = arch.getD (i + 1) 0 ∧
        (nn.bs i).stride = arch.getD (i + 1) 0) := by
  obtain ⟨nn, hok, hc, hacts, hpar⟩ := nn_alloc_layout arch a hL hroom
  refine ⟨nn, _, hok, hc, ?_, ?_⟩
  · intro i hi
    rw [hacts i hi]
    cases i <;> exact ⟨rfl, rfl, rfl⟩
  · intro i hi
    rw [(hpar i hi).1, (hpar i hi).2]
    exact ⟨rfl, rfl, rfl, rfl, rfl, rfl⟩

/-- C7: for every architecture `arch` of length `L >= 1`, on an allocator with room for
the blocks, `nn_alloc(arch, L)` returns a network with `count = L - 1`, `activations[i]`
of shape 1 x `arch[i]` for `i` in 0..count, `weights[i]` of shape `arch[i]` x `arch[i+1]`
and `biases[i]` of shape 1 x `arch[i+1]` for `i < count`, hence the shape invariant
`weights[i].cols == biases[i].cols == activations[i+1].cols`,
`weights[i].rows == activations[i].cols`; and `nn_alloc` with `L == 0` fails its
assertion. -/
theorem nn_alloc_shapes (arch : List Nat) (a : Alloc) (hL : 1 ≤ arch.length)
    (hroom : a.brk + nn_alloc_cells arch ≤ a.cap) :
    (∃ nn a', nn_alloc arch arch.length a = .ok (nn, a') ∧ nn.count = arch.length - 1 ∧
      (∀ i, i ≤ nn.count → (nn.as i).rows = 1 ∧ (nn.as i).cols = arch.getD i 0) ∧
      (∀ i, i < nn.count →
        (nn.ws i).rows = arch.getD i 0 ∧ (nn.ws i).cols = arch.getD (i + 1) 0 ∧
        (nn.bs i).rows = 1 ∧ (nn.bs i).cols = arch.getD (i + 1) 0) ∧
      (∀ i, i < nn.count →
        (nn.ws i).cols = (nn.bs i).cols ∧ (nn.bs i).cols = (nn.as (i + 1)).cols ∧
        (nn.ws i).rows = (nn.as i).cols) ∧
      nn.shapeOK) ∧
    (∀ arch0 a0, nn_alloc arch0 0 a0 = .error Fault.assertion) := by
  constructor
  · obtain ⟨nn, a', hok, hc, hact, hpar⟩ := nn_alloc_spec arch a hL hroom
    rw [← hc] at hact hpar
    refine ⟨nn, a', hok, hc, fun i hi => ⟨(hact i hi).1, (hact i hi).2.1⟩, ?_, ?_, ?_, ?_⟩
    · intro i hi
      obtain ⟨h1, h2, _, h4, h5, _⟩ := hpar i hi
      exact ⟨h1, h2, h4, h5⟩
    · intro i hi
      obtain ⟨h1, h2, _, _, h5, _⟩ := hpar i hi
      have ha := hact i (Nat.le_of_lt hi)
      have ha1 := hact (i + 1) hi
      exact ⟨h2.trans h5.symm, h5.trans ha1.2.1.symm, h1.trans ha.2.1.symm⟩
    · intro i hi
      exact (hact i hi).1
    · intro i hi
      obtain ⟨h1, h2, _, h4, h5, _⟩ := hpar i hi
      have ha := hact i (Nat.le_of_lt hi)
      have ha1 := hact (i + 1) hi
      exact ⟨h1.trans ha.2.1.symm, h2.trans h5.symm, h5.trans ha1.2.1.symm, h4⟩
  · intro arch0 a0
    rfl

/-- C7, an instance: the architecture {2, 2, 1} on an allocator with 100 free cells. -/
theorem nn_alloc_shapes_witness :
    (∃ nn a', nn_alloc exArch exArch.length exAlloc = .ok (nn, a') ∧
      nn.count = exArch.length - 1 ∧
      (∀ i, i ≤ nn.count → (nn.as i).rows = 1 ∧ (nn.as i).cols = exArch.getD i 0) ∧
      (∀ i, i < nn.count →
        (nn.ws i).rows = exArch.getD i 0 ∧ (nn.ws i).cols = exArch.getD (i + 1) 0 ∧
        (nn.bs i).rows = 1 ∧ (nn.bs i).cols = exArch.getD (i + 1) 0) ∧
      (∀ i, i < nn.count →
        (nn.ws i).cols = (nn.bs i).cols ∧ (nn.bs i).cols = (nn.as (i + 1)).cols ∧
        (nn.ws i).rows = (nn.as i).cols) ∧
      nn.shapeOK) ∧
    (∀ arch0 a0, nn_alloc arch0 0 a0 = .error Fault.assertion) :=
  nn_alloc_shapes exArch exAlloc (by decide) (by decide)

/-! ## `nn_cost` -/

theorem mat_row_addr (m : Mat) (r j : Nat) : (mat_row m r).addr 0 j = m.addr r j := by
  simp only [mat_row, Mat.addr]; omega

theorem Mat.disj_row {m v : Mat} (h : m.disj v) {r : Nat} (hr : r < v.rows) :
    m.disj (mat_row v r) := by
  intro i hi j hj i' hi' j' hj'
  have hi0 : i' = 0 := by
    have : (mat_row v r).rows = 1 := rfl
    omega
  subst hi0
  rw [mat_row_addr]
  exact h i hi j hj r hr j' hj'

theorem NN.data_not_act (nn : NN) {ti tout : Mat} (hda : nn.dataApart ti tout) {x : Nat}
    (h : ti.owns x ∨ tout.owns x) : ¬ nn.actCell x := by
  rintro ⟨i, hi, ho⟩
  rcases h with h | h
  · exact Mat.disj_not_owns (hda _ (nn.as_mem_mats hi)).1 ho h
  · exact Mat.disj_not_owns (hda _ (nn.as_mem_mats hi)).2 ho h

section Cost

variable {F : Type} [Zero F] [One F] [Add F] [Mul F] [Neg F] [Div F]

/-- With sample `t` copied into the input row of a memory that holds the parameters and
the dataset of `mem`, `nn_forward` returns and the output row is `netOut` of `mem`. -/
theorem forward_on_sample (expf : F → F) (nn : NN) (hsh : nn.shapeOK) (hown : nn.owned)
    (ti : Mat) (hc : ti.cols = (NN_INPUT nn).cols) (mem m1 : Mem F) (t : Nat)
    (hp : nn.sameParams m1 mem)
    (hin : ∀ k, k < ti.cols → MAT_AT m1 (NN_INPUT nn) 0 k = MAT_AT mem ti t k) :
    ∃ m2, nn_forward expf nn m1 = .ok m2 ∧ (∀ x, ¬ nn.hiddenCell x → m2 x = m1 x) ∧
      ∀ j, j < (NN_OUTPUT nn).cols → MAT_AT m2 (NN_OUTPUT nn) 0 j = netOut expf nn ti mem t j := by
  obtain ⟨m2, hok, hfr, hv⟩ := nn_forward_spec expf nn hsh hown m1
  refine ⟨m2, hok, hfr, ?_⟩
  intro j hj
  show m2 ((nn.as nn.count).addr 0 j) = _
  rw [hv nn.count (Nat.le_refl _) j hj]
  exact actRow_congr expf nn hsh m1 mem _ _ hp (fun k hk => hin k (hc ▸ hk)) nn.count
    (Nat.le_refl _) j hj

variable [Sub F] [NatCast F]

/-- On a well-formed network with a well-formed dataset `nn_cost` returns `costVal` of
the memory it started with and changes no cell outside the activation rows. -/
theorem nn_cost_spec (expf : F → F) (nn : NN) (hsh : nn.shapeOK) (hown : nn.owned)
    (ti tout : Mat) (hds : nn.dataShape ti tout) (hda : nn.dataApart ti tout) (mem : Mem F) :
    ∃ mem', nn_cost expf nn ti tout mem = .ok (costVal expf nn ti tout mem, mem') ∧
      ∀ x, ¬ nn.actCell x → mem' x = mem x := by
  obtain ⟨hr, hci, hco⟩ := hds
  have h0le : 0 ≤ nn.count := Nat.zero_le _
  obtain ⟨cs, hok, hI⟩ := forLoopE_inv ti.rows
    (fun i (cs : F × Mem F) => (do
      let x := mat_row ti i
      let y := mat_row tout i
      let s ← mat_copy (NN_INPUT nn) x cs.2
      let s ← nn_forward expf nn s
      let q := tout.cols
      pure (forLoop q (fun j c =>
        let d := MAT_AT s (NN_OUTPUT nn) 0 j - MAT_AT s y 0 j
        c + d * d) cs.1, s) : Except (Mem F) (F × Mem F)))
    (fun t cs => t ≤ ti.rows ∧ (∀ x, ¬ nn.actCell x → cs.2 x = mem x) ∧
      cs.1 = sqErrAcc t tout.cols (netOut expf nn ti mem) (fun i j => MAT_AT mem tout i j))
    (0, mem) ⟨Nat.zero_le _, fun x _ => rfl, rfl⟩
    (by
      rintro t ht ⟨c, s⟩ ⟨_, ifr, ic⟩
      simp only at ifr ic
      have hin0 : (NN_INPUT nn).rows = 1 := hsh.1 0 h0le
      obtain ⟨s1, e1, f1, v1⟩ := mat_copy_spec (NN_INPUT nn) (mat_row ti t) s
        hin0 hci.symm (hown.1 0 h0le) (Mat.disj_row (hda _ (nn.as_mem_mats h0le)).1 ht)
      have hp1 : nn.sameParams s1 mem := nn.sameParams_of_frame hown s1 mem (fun x hx => by
        rw [f1 x (fun ho => hx ⟨0, h0le, ho⟩)]
        exact ifr x hx)
      have hin1 : ∀ k, k < ti.cols → MAT_AT s1 (NN_INPUT nn) 0 k = MAT_AT mem ti t k := by
        intro k hk
        show s1 ((NN_INPUT nn).addr 0 k) = _
        rw [v1 0 (by omega) k (hci ▸ hk), mat_row_addr]
        exact ifr _ (nn.data_not_act hda (Or.inl ⟨t, ht, k, hk, rfl⟩))
      obtain ⟨s2, e2, f2, v2⟩ := forward_on_sample expf nn hsh hown ti hci mem s1 t hp1 hin1
      have hfr2 : ∀ x, ¬ nn.actCell x → s2 x = mem x := by
        intro x hx
        rw [f2 x (fun hh => hx (nn.hidden_act hh)), f1 x (fun ho => hx ⟨0, h0le, ho⟩)]
        exact ifr x hx
      refine ⟨(forLoop tout.cols (fun j c =>
          let d := MAT_AT s2 (NN_OUTPUT nn) 0 j - MAT_AT s2 (mat_row tout t) 0 j
          c + d * d) c, s2), ?_, ht, hfr2, ?_⟩
      · simp only [e1, bind, Except.bind, e2]
        rfl
      · show forLoop tout.cols _ c = _
        rw [ic]
        show _ = forLoop tout.cols _ (sqErrAcc t tout.cols _ _)
        apply forLoop_congr
        intro j hj acc
        show acc + (MAT_AT s2 (NN_OUTPUT nn) 0 j - MAT_AT s2 (mat_row tout t) 0 j)
            * (MAT_AT s2 (NN_OUTPUT nn) 0 j - MAT_AT s2 (mat_row tout t) 0 j) = _
        have e : MAT_AT s2 (mat_row tout t) 0 j = MAT_AT mem tout t j := by
          show s2 ((mat_row tout t).addr 0 j) = _
          rw [mat_row_addr]
          exact hfr2 _ (nn.data_not_act hda (Or.inr ⟨t, hr ▸ ht, j, hj, rfl⟩))
        rw [v2 j (hco ▸ hj), e])
  obtain ⟨_, hfr, hc⟩ := hI
  refine ⟨cs.2, ?_, hfr⟩
  unfold nn_cost
  rw [if_neg (not_not.mpr hr), if_neg (not_not.mpr hco)]
  simp only [bind, Except.bind, pure, Except.pure] at hok ⊢
  rw [hok]
  simp only [hc]
  rfl

end Cost

theorem forLoop_add_eq_sum {F : Type} [AddCommMonoid F] (q : Nat) (f : Nat → F) (c : F) :
    forLoop q (fun j c => c + f j) c = c + ∑ j in Finset.range q, f j := by
  induction q with
  | zero => simp only [forLoop, Finset.range_zero, Finset.sum_empty, add_zero]
  | succ q ih =>
    simp only [forLoop]
    rw [ih, Finset.sum_range_succ, add_assoc]

/-- Over a commutative ring the accumulated squared error is the double sum of the
squares. -/
theorem sqErrAcc_eq_sum {F : Type} [CommRing F] (n q : Nat) (out tgt : Nat → Nat → F) :
    sqErrAcc n q out tgt
      = ∑ i in Finset.range n, ∑ j in Finset.range q, (out i j - tgt i j) ^ 2 := by
  induction n with
  | zero => rfl
  | succ n ih =>
    rw [Finset.sum_range_succ, ← ih]
    show forLoop q _ (sqErrAcc n q out tgt) = _
    rw [forLoop_add_eq_sum q (fun j => (out n j - tgt n j) * (out n j - tgt n j))]
    congr 1
    apply Finset.sum_congr rfl
    intro j _
    ring

/-! ## Claims on `nn_cost` -/

/-- In exact arithmetic (a field, no rounding): for a well-formed network and dataset
with `n = ti.rows = to.rows >= 1`, `nn_cost` returns the sum over samples `i < n` and output columns `j < to.cols` of
`(F(ti row i)[j] - to[i][j])^2`, divided by `n` only (not by the number of columns);
`F(ti row i)` is the output row `nn_forward` leaves whenever `activations[0]` holds row
`i` of `ti` and the weights and biases are those of the memory `nn_cost` started with. -/
theorem nn_cost_sum_over_samples {F : Type} [Field F] (expf : F → F) (nn : NN)
    (hsh : nn.shapeOK) (hown : nn.owned) (ti tout : Mat) (hds : nn.dataShape ti tout)
    (hda : nn.dataApart ti tout) (mem : Mem F) (_hn : 1 ≤ ti.rows) :
    ∃ mem', nn_cost expf nn ti tout mem
        = .ok ((∑ i in Finset.range ti.rows, ∑ j in Finset.range tout.cols,
            (netOut expf nn ti mem i j - MAT_AT mem tout i j) ^ 2) / (ti.rows : F), mem') ∧
      (∀ i, i < ti.rows → ∀ m1 : Mem F, nn.sameParams m1 mem →
        (∀ k, k < ti.cols → MAT_AT m1 (NN_INPUT nn) 0 k = MAT_AT mem ti i k) →
        ∃ m2, nn_forward expf nn m1 = .ok m2 ∧
          ∀ j, j < tout.cols → MAT_AT m2 (NN_OUTPUT nn) 0 j = netOut expf nn ti mem i j) := by
  obtain ⟨mem', hok, _⟩ := nn_cost_spec expf nn hsh hown ti tout hds hda mem
  refine ⟨mem', ?_, ?_⟩
  · rw [hok, costVal, sqErrAcc_eq_sum]
  · intro i _ m1 hp hin
    obtain ⟨m2, e2, _, v2⟩ := forward_on_sample expf nn hsh hown ti hds.2.1 mem m1 i hp hin
    exact ⟨m2, e2, fun j hj => v2 j (hds.2.2 ▸ hj)⟩

/-- The cost in exact arithmetic, an instance: the {2, 2, 1} network on a table of 4
samples over the rationals. -/
theorem nn_cost_sum_over_samples_witness :
    ∃ mem', nn_cost exExp exNet exTi exTo exMemRat
        = .ok ((∑ i in Finset.range exTi.rows, ∑ j in Finset.range exTo.cols,
            (netOut exExp exNet exTi exMemRat i j - MAT_AT exMemRat exTo i j) ^ 2)
              / (exTi.rows : Rat), mem') ∧
      (∀ i, i < exTi.rows → ∀ m1 : Mem Rat, exNet.sameParams m1 exMemRat →
        (∀ k, k < exTi.cols → MAT_AT m1 (NN_INPUT exNet) 0 k = MAT_AT exMemRat exTi i k) →
        ∃ m2, nn_forward exExp exNet m1 = .ok m2 ∧
          ∀ j, j < exTo.cols →
            MAT_AT m2 (NN_OUTPUT exNet) 0 j = netOut exExp exNet exTi exMemRat i j) :=
  nn_cost_sum_over_samples exExp exNet (by decide) (by decide) exTi exTo (by decide)
    (by decide) exMemRat (by decide)

/-- In exact arithmetic (an ordered field, no rounding, 0 / 0 = 0): for a well-formed
network and dataset `nn_cost` returns a value `c >= 0`, and if
`c == 0` then for every sample row `i` and output column `j` the output `nn_forward`
leaves, whenever `activations[0]` holds row `i` of `ti` and the weights and biases are
those of the memory `nn_cost` started with, equals `to[i][j]`. -/
theorem nn_cost_nonneg_and_zero {F : Type} [LinearOrderedField F] (expf : F → F) (nn : NN)
    (hsh : nn.shapeOK) (hown : nn.owned) (ti tout : Mat) (hds : nn.dataShape ti tout)
    (hda : nn.dataApart ti tout) (mem : Mem F) :
    ∃ c mem', nn_cost expf nn ti tout mem = .ok (c, mem') ∧ 0 ≤ c ∧
      (c = 0 → ∀ i, i < ti.rows → ∀ j, j < tout.cols → ∀ m1 : Mem F,
        nn.sameParams m1 mem →
        (∀ k, k < ti.cols → MAT_AT m1 (NN_INPUT nn) 0 k = MAT_AT mem ti i k) →
        ∃ m2, nn_forward expf nn m1 = .ok m2 ∧
          MAT_AT m2 (NN_OUTPUT nn) 0 j = MAT_AT mem tout i j) := by
  obtain ⟨mem', hok, _⟩ := nn_cost_spec expf nn hsh hown ti tout hds hda mem
  have hsq : ∀ i, i ∈ Finset.range ti.rows → (0 : F) ≤ ∑ j in Finset.range tout.cols,
      (netOut expf nn ti mem i j - MAT_AT mem tout i j) ^ 2 :=
    fun i _ => Finset.sum_nonneg (fun j _ => sq_nonneg _)
  refine ⟨_, mem', hok, ?_, ?_⟩
  · rw [costVal, sqErrAcc_eq_sum]
    exact div_nonneg (Finset.sum_nonneg hsq) (Nat.cast_nonneg _)
  · intro hc i hi j hj m1 hp hin
    obtain ⟨m2, e2, _, v2⟩ := forward_on_sample expf nn hsh hown ti hds.2.1 mem m1 i hp hin
    refine ⟨m2, e2, ?_⟩
    rw [v2 j (hds.2.2 ▸ hj)]
    rw [costVal, sqErrAcc_eq_sum, div_eq_zero_iff] at hc
    rcases hc with hs | hz
    · have h1 := (Finset.sum_eq_zero_iff_of_nonneg hsq).mp hs i (Finset.mem_range.mpr hi)
      have h2 := (Finset.sum_eq_zero_iff_of_nonneg (fun j _ => sq_nonneg _)).mp h1 j
        (Finset.mem_range.mpr hj)
      exact sub_eq_zero.mp ((pow_eq_zero_iff (two_ne_zero)).mp h2)
    · have : ti.rows = 0 := Nat.cast_eq_zero.mp hz
      omega

/-- The sign of the cost in exact arithmetic, an instance: the {2, 2, 1} network on a
table of 4 samples over the rationals. -/
theorem nn_cost_nonneg_and_zero_witness :
    ∃ c mem', nn_cost exExp exNet exTi exTo exMemRat = .ok (c, mem') ∧ 0 ≤ c ∧
      (c = 0 → ∀ i, i < exTi.rows → ∀ j, j < exTo.cols → ∀ m1 : Mem Rat,
        exNet.sameParams m1 exMemRat →
        (∀ k, k < exTi.cols → MAT_AT m1 (NN_INPUT exNet) 0 k = MAT_AT exMemRat exTi i k) →
        ∃ m2, nn_forward exExp exNet m1 = .ok m2 ∧
          MAT_AT m2 (NN_OUTPUT exNet) 0 j = MAT_AT exMemRat exTo i j) :=
  nn_cost_nonneg_and_zero exExp exNet (by decide) (by decide) exTi exTo (by decide)
    (by decide) exMemRat

/-! ## `nn_finite_diff` -/

section WritesLemmas

variable {F : Type}

/-- Two stretches in sequence write the union of their target cells. -/
theorem Writes.seq {mem : Mem F} {act G : Nat → Prop} {good : Nat → F → Prop}
    {T1 T2 : Nat → Prop} {f h : Mem F → Except (Mem F) (Mem F)}
    (hf : Writes mem act G good T1 f) (hh : Writes mem act G good T2 h)
    (hT1 : ∀ x, T1 x → G x ∧ ¬ act x) :
    Writes mem act G good (fun x => T1 x ∨ T2 x) (fun s => f s >>= h) := by
  intro s hs
  obtain ⟨s1, e1, f1, g1⟩ := hf s hs
  obtain ⟨s2, e2, f2, g2⟩ := hh s1 (fun x ha hg => by
    rw [f1 x ha (fun ht => hg (hT1 x ht).1)]
    exact hs x ha hg)
  refine ⟨s2, ?_, ?_, ?_⟩
  · show (f s >>= h) = _
    rw [e1]
    exact e2
  · intro x ha ht
    rw [f2 x ha (fun h2 => ht (Or.inr h2)), f1 x ha (fun h1 => ht (Or.inl h1))]
  · intro x ht
    by_cases h2 : T2 x
    · exact g2 x h2
    · rcases ht with h1 | h2'
      · rw [f2 x (hT1 x h1).2 h2]
        exact g1 x h1
      · exact absurd h2' h2

/-- A loop writes the union of the target cells of its iterations. -/
theorem Writes.loop {mem : Mem F} {act G : Nat → Prop} {good : Nat → F → Prop}
    (n : Nat) (T : Nat → Nat → Prop) (body : Nat → Mem F → Except (Mem F) (Mem F))
    (hb : ∀ t, t < n → Writes mem act G good (T t) (body t))
    (hT : ∀ t, t < n → ∀ x, T t x → G x ∧ ¬ act x) :
    Writes mem act G good (fun x => ∃ t, t < n ∧ T t x) (fun s => forLoopE n body s) := by
  induction n with
  | zero =>
    intro s _
    exact ⟨s, rfl, fun x _ _ => rfl, fun x ⟨t, ht, _⟩ => absurd ht (Nat.not_lt_zero t)⟩
  | succ n ih =>
    have ih' := ih (fun t ht => hb t (Nat.lt_succ_of_lt ht))
      (fun t ht => hT t (Nat.lt_succ_of_lt ht))
    have hseq := Writes.seq ih' (hb n (Nat.lt_succ_self n))
      (fun x ⟨t, ht, hx⟩ => hT t (Nat.lt_succ_of_lt ht) x hx)
    intro s hs
    obtain ⟨s', e, fr, gd⟩ := hseq s hs
    refine ⟨s', ?_, ?_, ?_⟩
    · show forLoopE (n + 1) body s = _
      simp only [forLoopE]
      have e' : (forLoopE n body s >>= body n) = Except.ok s' := e
      cases hres : forLoopE n body s with
      | error err => rw [hres] at e'; exact absurd e' (by intro h; cases h)
      | ok v => rw [hres] at e'; exact e'
    · intro x ha ht
      apply fr x ha
      rintro (⟨t, ht', hx⟩ | hx)
      · exact ht ⟨t, Nat.lt_succ_of_lt ht', hx⟩
      · exact ht ⟨n, Nat.lt_succ_self n, hx⟩
    · rintro x ⟨t, ht, hx⟩
      apply gd x
      rcases Nat.lt_succ_iff_lt_or_eq.mp ht with hlt | heq
      · exact Or.inl ⟨t, hlt, hx⟩
      · exact Or.inr (heq ▸ hx)

end WritesLemmas

section CostFrame

variable {F : Type} [Zero F] [One F] [Add F] [Sub F] [Mul F] [Neg F] [Div F] [NatCast F]

/-- The cost depends on the memory only through the weights, the biases and the in-range
elements of the dataset views. -/
theorem costVal_congr (expf : F → F) (nn : NN) (hsh : nn.shapeOK) (ti tout : Mat)
    (hds : nn.dataShape ti tout) (m1 m2 : Mem F) (hp : nn.sameParams m1 m2)
    (hti : ∀ i, i < ti.rows → ∀ k, k < ti.cols → m1 (ti.addr i k) = m2 (ti.addr i k))
    (hto : ∀ i, i < tout.rows → ∀ j, j < tout.cols → m1 (tout.addr i j) = m2 (tout.addr i j)) :
    costVal expf nn ti tout m1 = costVal expf nn ti tout m2 := by
  obtain ⟨hr, hci, hco⟩ := hds
  unfold costVal sqErrAcc
  congr 1
  apply forLoop_congr
  intro i hi c
  apply forLoop_congr
  intro j hj c
  have e1 : netOut expf nn ti m1 i j = netOut expf nn ti m2 i j :=
    actRow_congr expf nn hsh m1 m2 _ _ hp (fun k hk => hti i hi k (hci ▸ hk)) nn.count
      (Nat.le_refl _) j (hco ▸ hj)
  have e2 : MAT_AT m1 tout i j = MAT_AT m2 tout i j := hto i (hr ▸ hi) j hj
  simp only [e1, e2]

/-- In a training setup the cost is the same for two memories that agree outside the
activations of `n` and the weights and biases of `g`. -/
theorem costVal_frame (expf : F → F) (n g : NN) (ti tout : Mat)
    (hset : TrainingSetup n g ti tout) (m1 m2 : Mem F)
    (h : ∀ x, ¬ n.actCell x → ¬ g.paramCell x → m1 x = m2 x) :
    costVal expf n ti tout m1 = costVal expf n ti tout m2 := by
  obtain ⟨hsh, hown, _, harch, hap, hds, hda, hgda⟩ := hset
  have hnotG_of_n : ∀ m, m ∈ n.mats → ∀ x, m.owns x → ¬ g.paramCell x := by
    rintro m hm x hx ⟨l, hl, ho | ho⟩
    · exact Mat.disj_not_owns (hap m hm _ (g.ws_mem_mats hl)) hx ho
    · exact Mat.disj_not_owns (hap m hm _ (g.bs_mem_mats hl)) hx ho
  have hnotG_of_data : ∀ x, (ti.owns x ∨ tout.owns x) → ¬ g.paramCell x := by
    rintro x hx ⟨l, hl, ho | ho⟩
    · rcases hx with hx | hx
      · exact Mat.disj_not_owns (hgda _ (g.ws_mem_mats hl)).1 ho hx
      · exact Mat.disj_not_owns (hgda _ (g.ws_mem_mats hl)).2 ho hx
    · rcases hx with hx | hx
      · exact Mat.disj_not_owns (hgda _ (g.bs_mem_mats hl)).1 ho hx
      · exact Mat.disj_not_owns (hgda _ (g.bs_mem_mats hl)).2 ho hx
  apply costVal_congr expf n hsh ti tout hds m1 m2
  · intro l hl
    constructor
    · intro j hj k hk
      have ho : (n.ws l).owns ((n.ws l).addr j k) := ⟨j, hj, k, hk, rfl⟩
      exact h _ (n.ws_not_act hown hl ho) (hnotG_of_n _ (n.ws_mem_mats hl) _ ho)
    · intro j hj k hk
      have ho : (n.bs l).owns ((n.bs l).addr j k) := ⟨j, hj, k, hk, rfl⟩
      exact h _ (n.bs_not_act hown hl ho) (hnotG_of_n _ (n.bs_mem_mats hl) _ ho)
  · intro i hi k hk
    have ho : ti.owns (ti.addr i k) := ⟨i, hi, k, hk, rfl⟩
    exact h _ (n.data_not_act hda (Or.inl ho)) (hnotG_of_data _ (Or.inl ho))
  · intro i hi j hj
    have ho : tout.owns (tout.addr i j) := ⟨i, hi, j, hj, rfl⟩
    exact h _ (n.data_not_act hda (Or.inr ho)) (hnotG_of_data _ (Or.inr ho))

/-- One probe of `nn_finite_diff`: save the element, raise it by `eps`, evaluate the
cost, store the difference quotient in the gradient network, restore the element. -/
theorem probe_spec (expf : F → F) (n g : NN) (eps : F) (ti tout : Mat)
    (hset : TrainingSetup n g ti tout) (mem : Mem F) (good : Nat → F → Prop)
    (pm gm : Mat) (j k : Nat)
    (hw : ¬ n.actCell (pm.addr j k) ∧ ¬ g.paramCell (pm.addr j k))
    (hγ : g.paramCell (gm.addr j k) ∧ ¬ n.actCell (gm.addr j k))
    (hgood : good (gm.addr j k) (fdVal expf n eps ti tout mem pm j k)) :
    Writes mem n.actCell g.paramCell good (fun x => x = gm.addr j k)
      (fun s => do
        let saved := MAT_AT s pm j k
        let s := MAT_SET s pm j k (MAT_AT s pm j k + eps)
        let c1 ← nn_cost expf n ti tout s
        let s := MAT_SET c1.2 gm j k ((c1.1 - costVal expf n ti tout mem) / eps)
        pure (MAT_SET s pm j k saved)) := by
  intro s hs
  obtain ⟨s2, e2, f2⟩ := nn_cost_spec expf n hset.1 hset.2.1 ti tout hset.2.2.2.2.2.1
    hset.2.2.2.2.2.2.1 (MAT_SET s pm j k (MAT_AT s pm j k + eps))
  have hne : gm.addr j k ≠ pm.addr j k := fun e => hw.2 (e ▸ hγ.1)
  have hcost : costVal expf n ti tout (MAT_SET s pm j k (MAT_AT s pm j k + eps))
      = costVal expf n ti tout (MAT_SET mem pm j k (MAT_AT mem pm j k + eps)) := by
    apply costVal_frame expf n g ti tout hset
    intro x ha hg
    have hsw : s (pm.addr j k) = mem (pm.addr j k) := hs _ hw.1 hw.2
    by_cases hx : x = pm.addr j k
    · subst hx
      show (s.set _ _) _ = (mem.set _ _) _
      rw [Mem.set_same, Mem.set_same]
      show s (pm.addr j k) + eps = mem (pm.addr j k) + eps
      rw [hsw]
    · show (s.set _ _) _ = (mem.set _ _) _
      rw [Mem.set_noteq _ _ hx, Mem.set_noteq _ _ hx]
      exact hs x ha hg
  refine ⟨MAT_SET (MAT_SET s2 gm j k
    ((costVal expf n ti tout (MAT_SET s pm j k (MAT_AT s pm j k + eps))
      - costVal expf n ti tout mem) / eps)) pm j k (MAT_AT s pm j k), ?_, ?_, ?_⟩
  · simp only [e2, bind, Except.bind]
    rfl
  · intro x ha hx
    show ((s2.set _ _).set _ _) x = s x
    by_cases hxw : x = pm.addr j k
    · subst hxw
      rw [Mem.set_same]
      rfl
    · rw [Mem.set_noteq _ _ hxw, Mem.set_noteq _ _ hx, f2 x ha]
      show (s.set _ _) x = s x
      rw [Mem.set_noteq _ _ hxw]
  · intro x hx
    subst hx
    show good _ (((s2.set _ _).set _ _) (gm.addr j k))
    rw [Mem.set_noteq _ _ hne, Mem.set_same, hcost]
    exact hgood

end CostFrame

section FiniteDiff

variable {F : Type} [Zero F] [One F] [Add F] [Sub F] [Mul F] [Neg F] [Div F] [NatCast F]

/-- The double loop of probes over the elements of one parameter matrix `pm` of `n`, the
quotients going to the matrix `gm` of `g`. -/
theorem probe_matrix (expf : F → F) (n g : NN) (eps : F) (ti tout : Mat)
    (hset : TrainingSetup n g ti tout) (mem : Mem F) (good : Nat → F → Prop) (pm gm : Mat)
    (hpm : ∀ j, j < pm.rows → ∀ k, k < pm.cols →
      ¬ n.actCell (pm.addr j k) ∧ ¬ g.paramCell (pm.addr j k))
    (hgm : ∀ j, j < pm.rows → ∀ k, k < pm.cols →
      (g.paramCell (gm.addr j k) ∧ ¬ n.actCell (gm.addr j k)) ∧
      good (gm.addr j k) (fdVal expf n eps ti tout mem pm j k)) :
    Writes mem n.actCell g.paramCell good
      (fun x => ∃ j, j < pm.rows ∧ ∃ k, k < pm.cols ∧ x = gm.addr j k)
      (fun s => forLoopE pm.rows (fun j s =>
        forLoopE pm.cols (fun k s => do
          let saved := MAT_AT s pm j k
          let s := MAT_SET s pm j k (MAT_AT s pm j k + eps)
          let c1 ← nn_cost expf n ti tout s
          let s := MAT_SET c1.2 gm j k ((c1.1 - costVal expf n ti tout mem) / eps)
          pure (MAT_SET s pm j k saved)) s) s) := by
  apply Writes.loop pm.rows (fun j x => ∃ k, k < pm.cols ∧ x = gm.addr j k)
  · intro j hj
    apply Writes.loop pm.cols (fun k x => x = gm.addr j k)
    · intro k hk
      exact probe_spec expf n g eps ti tout hset mem good pm gm j k (hpm j hj k hk)
        (hgm j hj k hk).1 (hgm j hj k hk).2
    · intro k hk x hx
      subst hx
      exact (hgm j hj k hk).1
  · rintro j hj x ⟨k, hk, hx⟩
    subst hx
    exact (hgm j hj k hk).1

/-- What `nn_finite_diff` leaves in memory in a training setup: every cell outside the
activations of `n` and the weights and biases of `g` as it was, and in every weight and
bias element of `g` the forward difference for its position. -/
theorem nn_finite_diff_spec (expf : F → F) (n g : NN) (eps : F) (ti tout : Mat)
    (hset : TrainingSetup n g ti tout) (mem : Mem F) :
    ∃ mem', nn_finite_diff expf n g eps ti tout mem = .ok mem' ∧
      (∀ x, ¬ n.actCell x → ¬ g.paramCell x → mem' x = mem x) ∧
      (∀ i, i < n.count →
        (∀ j, j < (n.ws i).rows → ∀ k, k < (n.ws i).cols →
          fdGood expf n g eps ti tout mem ((g.ws i).addr j k) (mem' ((g.ws i).addr j k))) ∧
        (∀ j, j < (n.bs i).rows → ∀ k, k < (n.bs i).cols →
          fdGood expf n g eps ti tout mem ((g.bs i).addr j k) (mem' ((g.bs i).addr j k)))) := by
  have hset' := hset
  obtain ⟨hsh, hown, hgown, harch, hap, hds, hda, hgda⟩ := hset
  obtain ⟨hcnt, _, hpar⟩ := harch
  -- cells of the matrices of n are no weight or bias cells of g
  have hnotG : ∀ m, m ∈ n.mats → ∀ x, m.owns x → ¬ g.paramCell x := by
    rintro m hm x hx ⟨l, hl, ho | ho⟩
    · exact Mat.disj_not_owns (hap m hm _ (g.ws_mem_mats hl)) hx ho
    · exact Mat.disj_not_owns (hap m hm _ (g.bs_mem_mats hl)) hx ho
  -- cells of the matrices of g are no activation cells of n
  have hnotA : ∀ m, m ∈ g.mats → ∀ x, m.owns x → ¬ n.actCell x := by
    rintro m hm x hx ⟨l, hl, ho⟩
    exact Mat.disj_not_owns (hap _ (n.as_mem_mats hl) m hm) ho hx
  have hlayer : ∀ i, i < n.count →
      Writes mem n.actCell g.paramCell (fdGood expf n g eps ti tout mem)
        (fun x => (∃ j, j < (n.ws i).rows ∧ ∃ k, k < (n.ws i).cols ∧ x = (g.ws i).addr j k) ∨
          (∃ j, j < (n.bs i).rows ∧ ∃ k, k < (n.bs i).cols ∧ x = (g.bs i).addr j k))
        (fun s => (fun s => forLoopE (n.ws i).rows (fun j s =>
            forLoopE (n.ws i).cols (fun k s => do
              let saved := MAT_AT s (n.ws i) j k
              let s := MAT_SET s (n.ws i) j k (MAT_AT s (n.ws i) j k + eps)
              let c1 ← nn_cost expf n ti tout s
              let s := MAT_SET c1.2 (g.ws i) j k ((c1.1 - costVal expf n ti tout mem) / eps)
              pure (MAT_SET s (n.ws i) j k saved)) s) s) s >>=
          (fun s => forLoopE (n.bs i).rows (fun j s =>
            forLoopE (n.bs i).cols (fun k s => do
              let saved := MAT_AT s (n.bs i) j k
              let s := MAT_SET s (n.bs i) j k (MAT_AT s (n.bs i) j k + eps)
              let c1 ← nn_cost expf n ti tout s
              let s := MAT_SET c1.2 (g.bs i) j k ((c1.1 - costVal expf n ti tout mem) / eps)
              pure (MAT_SET s (n.bs i) j k saved)) s) s)) := by
    intro i hi
    obtain ⟨hwr, hwc, hbr, hbc⟩ := hpar i hi
    have hig : i < g.count := hcnt ▸ hi
    have hgw : ∀ j, j < (n.ws i).rows → ∀ k, k < (n.ws i).cols →
        (g.paramCell ((g.ws i).addr j k) ∧ ¬ n.actCell ((g.ws i).addr j k)) ∧
        fdGood expf n g eps ti tout mem ((g.ws i).addr j k)
          (fdVal expf n eps ti tout mem (n.ws i) j k) := by
      intro j hj k hk
      have ho : (g.ws i).owns ((g.ws i).addr j k) := ⟨j, hwr ▸ hj, k, hwc ▸ hk, rfl⟩
      exact ⟨⟨⟨i, hig, Or.inl ho⟩, hnotA _ (g.ws_mem_mats hig) _ ho⟩,
        ⟨i, hi, j, k, Or.inl ⟨hj, hk, rfl, rfl⟩⟩⟩
    have hgb : ∀ j, j < (n.bs i).rows → ∀ k, k < (n.bs i).cols →
        (g.paramCell ((g.bs i).addr j k) ∧ ¬ n.actCell ((g.bs i).addr j k)) ∧
        fdGood expf n g eps ti tout mem ((g.bs i).addr j k)
          (fdVal expf n eps ti tout mem (n.bs i) j k) := by
      intro j hj k hk
      have ho : (g.bs i).owns ((g.bs i).addr j k) := ⟨j, hbr ▸ hj, k, hbc ▸ hk, rfl⟩
      exact ⟨⟨⟨i, hig, Or.inr ho⟩, hnotA _ (g.bs_mem_mats hig) _ ho⟩,
        ⟨i, hi, j, k, Or.inr ⟨hj, hk, rfl, rfl⟩⟩⟩
    apply Writes.seq
    · exact probe_matrix expf n g eps ti tout hset' mem _ (n.ws i) (g.ws i)
        (fun j hj k hk => ⟨n.ws_not_act hown hi ⟨j, hj, k, hk, rfl⟩,
          hnotG _ (n.ws_mem_mats hi) _ ⟨j, hj, k, hk, rfl⟩⟩) hgw
    · exact probe_matrix expf n g eps ti tout hset' mem _ (n.bs i) (g.bs i)
        (fun j hj k hk => ⟨n.bs_not_act hown hi ⟨j, hj, k, hk, rfl⟩,
          hnotG _ (n.bs_mem_mats hi) _ ⟨j, hj, k, hk, rfl⟩⟩) hgb
    · rintro x ⟨j, hj, k, hk, hx⟩
      subst hx
      exact (hgw j hj k hk).1
  have hall := Writes.loop n.count _ _ hlayer (by
    rintro i hi x (⟨j, hj, k, hk, hx⟩ | ⟨j, hj, k, hk, hx⟩)
    · subst hx
      obtain ⟨hwr, hwc, _, _⟩ := hpar i hi
      have ho : (g.ws i).owns ((g.ws i).addr j k) := ⟨j, hwr ▸ hj, k, hwc ▸ hk, rfl⟩
      exact ⟨⟨i, hcnt ▸ hi, Or.inl ho⟩, hnotA _ (g.ws_mem_mats (hcnt ▸ hi)) _ ho⟩
    · subst hx
      obtain ⟨_, _, hbr, hbc⟩ := hpar i hi
      have ho : (g.bs i).owns ((g.bs i).addr j k) := ⟨j, hbr ▸ hj, k, hbc ▸ hk, rfl⟩
      exact ⟨⟨i, hcnt ▸ hi, Or.inr ho⟩, hnotA _ (g.bs_mem_mats (hcnt ▸ hi)) _ ho⟩)
  obtain ⟨m0, e0, f0⟩ := nn_cost_spec expf n hsh hown ti tout hds hda mem
  obtain ⟨mem', e1, f1, g1⟩ := hall m0 (fun x ha _ => f0 x ha)
  refine ⟨mem', ?_, ?_, ?_⟩
  · unfold nn_finite_diff
    rw [e0]
    exact e1
  · intro x ha hg
    rw [f1 x ha ?_, f0 x ha]
    rintro ⟨i, hi, ⟨j, hj, k, hk, hx⟩ | ⟨j, hj, k, hk, hx⟩⟩
    · obtain ⟨hwr, hwc, _, _⟩ := hpar i hi
      exact hg ⟨i, hcnt ▸ hi, Or.inl ⟨j, hwr ▸ hj, k, hwc ▸ hk, hx⟩⟩
    · obtain ⟨_, _, hbr, hbc⟩ := hpar i hi
      exact hg ⟨i, hcnt ▸ hi, Or.inr ⟨j, hbr ▸ hj, k, hbc ▸ hk, hx⟩⟩
  · intro i hi
    exact ⟨fun j hj k hk => g1 _ ⟨i, hi, Or.inl ⟨j, hj, k, hk, rfl⟩⟩,
      fun j hj k hk => g1 _ ⟨i, hi, Or.inr ⟨j, hj, k, hk, rfl⟩⟩⟩

end FiniteDiff

section FiniteDiffClaims

variable {F : Type} [Zero F] [One F] [Add F] [Sub F] [Mul F] [Neg F] [Div F] [NatCast F]

/-- The forward difference that belongs at a weight cell of `g` is that of its own
position: no other weight or bias element of `g` lives in the same cell. -/
theorem fdGood_ws (expf : F → F) (n g : NN) (eps : F) (ti tout : Mat)
    (hset : TrainingSetup n g ti tout) (mem : Mem F) (i j k : Nat) (hi : i < n.count)
    (hj : j < (n.ws i).rows) (hk : k < (n.ws i).cols) (v : F)
    (h : fdGood expf n g eps ti tout mem ((g.ws i).addr j k) v) :
    v = fdVal expf n eps ti tout mem (n.ws i) j k := by
  obtain ⟨_, _, hgown, ⟨hcnt, _, hpar⟩, _, _, _, _⟩ := hset
  obtain ⟨_, hgs, _, _, hgd⟩ := hgown
  obtain ⟨hwr, hwc, _, _⟩ := hpar i hi
  have hig : i < g.count := hcnt ▸ hi
  obtain ⟨i', hi', j', k', ⟨hj', hk', e, hv⟩ | ⟨hj', hk', e, hv⟩⟩ := h
  · obtain ⟨hwr', hwc', _, _⟩ := hpar i' hi'
    have hig' : i' < g.count := hcnt ▸ hi'
    by_cases hii : i = i'
    · subst hii
      obtain ⟨ej, ek⟩ := (g.ws i).addr_inj (hgs i hig).1 (hwc ▸ hk) (hwc ▸ hk') e
      rw [hv, ej, ek]
    · exact absurd e (((hgd i hig i' hig').2 hii).1 j (hwr ▸ hj) k (hwc ▸ hk) j' (hwr' ▸ hj')
        k' (hwc' ▸ hk'))
  · obtain ⟨_, _, hbr', hbc'⟩ := hpar i' hi'
    have hig' : i' < g.count := hcnt ▸ hi'
    exact absurd e ((hgd i hig i' hig').1 j (hwr ▸ hj) k (hwc ▸ hk) j' (hbr' ▸ hj')
      k' (hbc' ▸ hk'))

/-- The forward difference that belongs at a bias cell of `g` is that of its own
position. -/
theorem fdGood_bs (expf : F → F) (n g : NN) (eps : F) (ti tout : Mat)
    (hset : TrainingSetup n g ti tout) (mem : Mem F) (i j k : Nat) (hi : i < n.count)
    (hj : j < (n.bs i).rows) (hk : k < (n.bs i).cols) (v : F)
    (h : fdGood expf n g eps ti tout mem ((g.bs i).addr j k) v) :
    v = fdVal expf n eps ti tout mem (n.bs i) j k := by
  obtain ⟨_, _, hgown, ⟨hcnt, _, hpar⟩, _, _, _, _⟩ := hset
  obtain ⟨_, hgs, _, _, hgd⟩ := hgown
  obtain ⟨_, _, hbr, hbc⟩ := hpar i hi
  have hig : i < g.count := hcnt ▸ hi
  obtain ⟨i', hi', j', k', ⟨hj', hk', e, hv⟩ | ⟨hj', hk', e, hv⟩⟩ := h
  · obtain ⟨hwr', hwc', _, _⟩ := hpar i' hi'
    have hig' : i' < g.count := hcnt ▸ hi'
    exact absurd e.symm ((hgd i' hig' i hig).1 j' (hwr' ▸ hj') k' (hwc' ▸ hk') j (hbr ▸ hj)
      k (hbc ▸ hk))
  · obtain ⟨_, _, hbr', hbc'⟩ := hpar i' hi'
    have hig' : i' < g.count := hcnt ▸ hi'
    by_cases hii : i = i'
    · subst hii
      obtain ⟨ej, ek⟩ := (g.bs i).addr_inj (hgs i hig).2 (hbc ▸ hk) (hbc ▸ hk') e
      rw [hv, ej, ek]
    · exact absurd e (((hgd i hig i' hig').2 hii).2 j (hbr ▸ hj) k (hbc ▸ hk) j' (hbr' ▸ hj')
        k' (hbc' ▸ hk'))

/-- The forward difference of a parameter of `n` does not depend on what the weights and
biases of `g` hold. -/
theorem fdVal_frame (expf : F → F) (n g : NN) (eps : F) (ti tout : Mat)
    (hset : TrainingSetup n g ti tout) (mem memB : Mem F)
    (hB : ∀ x, ¬ g.paramCell x → memB x = mem x) (pm : Mat) (j k : Nat)
    (hw : ¬ g.paramCell (pm.addr j k)) :
    fdVal expf n eps ti tout memB pm j k = fdVal expf n eps ti tout mem pm j k := by
  unfold fdVal
  rw [costVal_frame expf n g ti tout hset memB mem (fun x _ hg => hB x hg),
    costVal_frame expf n g ti tout hset
      (MAT_SET memB pm j k (MAT_AT memB pm j k + eps))
      (MAT_SET mem pm j k (MAT_AT mem pm j k + eps)) (fun x _ hg => by
        show (memB.set _ _) x = (mem.set _ _) x
        by_cases hx : x = pm.addr j k
        · subst hx
          rw [Mem.set_same, Mem.set_same]
          show memB (pm.addr j k) + eps = mem (pm.addr j k) + eps
          rw [hB _ hw]
        · rw [Mem.set_noteq _ _ hx, Mem.set_noteq _ _ hx]
          exact hB x hg)]

end FiniteDiffClaims

/-! ## Claims on `nn_finite_diff` -/

/-- C4: in a training setup (`n` and `g` well formed, of identical architecture, stored
apart from each other and from the dataset) `nn_finite_diff(n, g, eps, ti, to)` returns
and every weight position (i, j, k) of `g`, and likewise every bias position, holds
`(c1 - c0) / eps`, where `c0` is what `nn_cost` returns on the memory the call started
with and `c1` what it returns on that memory with only the one parameter raised by
`eps`; every weight and bias of `g` is overwritten, and the values do not depend on what
`g` held before. -/
theorem nn_finite_diff_forward_differences {F : Type} [Zero F] [One F] [Add F] [Sub F]
    [Mul F] [Neg F] [Div F] [NatCast F] (expf : F → F) (n g : NN) (eps : F) (ti tout : Mat)
    (hset : TrainingSetup n g ti tout) (mem : Mem F) :
    ∃ c0 m0 mem', nn_cost expf n ti tout mem = .ok (c0, m0) ∧
      nn_finite_diff expf n g eps ti tout mem = .ok mem' ∧
      (∀ i, i < n.count → ∀ j, j < (n.ws i).rows → ∀ k, k < (n.ws i).cols →
        ∃ c1 m1, nn_cost expf n ti tout
            (MAT_SET mem (n.ws i) j k (MAT_AT mem (n.ws i) j k + eps)) = .ok (c1, m1) ∧
          MAT_AT mem' (g.ws i) j k = (c1 - c0) / eps) ∧
      (∀ i, i < n.count → ∀ j, j < (n.bs i).rows → ∀ k, k < (n.bs i).cols →
        ∃ c1 m1, nn_cost expf n ti tout
            (MAT_SET mem (n.bs i) j k (MAT_AT mem (n.bs i) j k + eps)) = .ok (c1, m1) ∧
          MAT_AT mem' (g.bs i) j k = (c1 - c0) / eps) ∧
      (∀ memB : Mem F, (∀ x, ¬ g.paramCell x → memB x = mem x) →
        ∃ memB', nn_finite_diff expf n g eps ti tout memB = .ok memB' ∧
          ∀ x, g.paramCell x → memB' x = mem' x) := by
  have hset' := hset
  obtain ⟨hsh, hown, _, ⟨hcnt, _, hpar⟩, hap, hds, hda, _⟩ := hset
  obtain ⟨m0, e0, _⟩ := nn_cost_spec expf n hsh hown ti tout hds hda mem
  obtain ⟨mem', e1, _, g1⟩ := nn_finite_diff_spec expf n g eps ti tout hset' mem
  have hnotG : ∀ m, m ∈ n.mats → ∀ x, m.owns x → ¬ g.paramCell x := by
    rintro m hm x hx ⟨l, hl, ho | ho⟩
    · exact Mat.disj_not_owns (hap m hm _ (g.ws_mem_mats hl)) hx ho
    · exact Mat.disj_not_owns (hap m hm _ (g.bs_mem_mats hl)) hx ho
  refine ⟨_, m0, mem', e0, e1, ?_, ?_, ?_⟩
  · intro i hi j hj k hk
    obtain ⟨m1, e, _⟩ := nn_cost_spec expf n hsh hown ti tout hds hda
      (MAT_SET mem (n.ws i) j k (MAT_AT mem (n.ws i) j k + eps))
    exact ⟨_, m1, e, fdGood_ws expf n g eps ti tout hset' mem i j k hi hj hk _
      ((g1 i hi).1 j hj k hk)⟩
  · intro i hi j hj k hk
    obtain ⟨m1, e, _⟩ := nn_cost_spec expf n hsh hown ti tout hds hda
      (MAT_SET mem (n.bs i) j k (MAT_AT mem (n.bs i) j k + eps))
    exact ⟨_, m1, e, fdGood_bs expf n g eps ti tout hset' mem i j k hi hj hk _
      ((g1 i hi).2 j hj k hk)⟩
  · intro memB hB
    obtain ⟨memB', eB, _, gB⟩ := nn_finite_diff_spec expf n g eps ti tout hset' memB
    refine ⟨memB', eB, ?_⟩
    rintro x ⟨i, hig, ⟨j, hj, k, hk, hx⟩ | ⟨j, hj, k, hk, hx⟩⟩
    · have hi : i < n.count := hcnt ▸ hig
      obtain ⟨hwr, hwc, _, _⟩ := hpar i hi
      have hj' : j < (n.ws i).rows := hwr ▸ hj
      have hk' : k < (n.ws i).cols := hwc ▸ hk
      subst hx
      rw [fdGood_ws expf n g eps ti tout hset' memB i j k hi hj' hk' _ ((gB i hi).1 j hj' k hk'),
        fdGood_ws expf n g eps ti tout hset' mem i j k hi hj' hk' _ ((g1 i hi).1 j hj' k hk')]
      exact fdVal_frame expf n g eps ti tout hset' mem memB hB (n.ws i) j k
        (hnotG _ (n.ws_mem_mats hi) _ ⟨j, hj', k, hk', rfl⟩)
    · have hi : i < n.count := hcnt ▸ hig
      obtain ⟨_, _, hbr, hbc⟩ := hpar i hi
      have hj' : j < (n.bs i).rows := hbr ▸ hj
      have hk' : k < (n.bs i).cols := hbc ▸ hk
      subst hx
      rw [fdGood_bs expf n g eps ti tout hset' memB i j k hi hj' hk' _ ((gB i hi).2 j hj' k hk'),
        fdGood_bs expf n g eps ti tout hset' mem i j k hi hj' hk' _ ((g1 i hi).2 j hj' k hk')]
      exact fdVal_frame expf n g eps ti tout hset' mem memB hB (n.bs i) j k
        (hnotG _ (n.bs_mem_mats hi) _ ⟨j, hj', k, hk', rfl⟩)

/-- C4, an instance: two {2, 2, 1} networks and a table of 4 samples, `eps = 1/10`. -/
theorem nn_finite_diff_forward_differences_witness :
    ∃ c0 m0 mem', nn_cost exExp exNet exTi exTo exMemRat = .ok (c0, m0) ∧
      nn_finite_diff exExp exNet exGrad (1 / 10) exTi exTo exMemRat = .ok mem' ∧
      (∀ i, i < exNet.count → ∀ j, j < (exNet.ws i).rows → ∀ k, k < (exNet.ws i).cols →
        ∃ c1 m1, nn_cost exExp exNet exTi exTo
            (MAT_SET exMemRat (exNet.ws i) j k (MAT_AT exMemRat (exNet.ws i) j k + 1 / 10))
              = .ok (c1, m1) ∧
          MAT_AT mem' (exGrad.ws i) j k = (c1 - c0) / (1 / 10)) ∧
      (∀ i, i < exNet.count → ∀ j, j < (exNet.bs i).rows → ∀ k, k < (exNet.bs i).cols →
        ∃ c1 m1, nn_cost exExp exNet exTi exTo
            (MAT_SET exMemRat (exNet.bs i) j k (MAT_AT exMemRat (exNet.bs i) j k + 1 / 10))
              = .ok (c1, m1) ∧
          MAT_AT mem' (exGrad.bs i) j k = (c1 - c0) / (1 / 10)) ∧
      (∀ memB : Mem Rat, (∀ x, ¬ exGrad.paramCell x → memB x = exMemRat x) →
        ∃ memB', nn_finite_diff exExp exNet exGrad (1 / 10) exTi exTo memB = .ok memB' ∧
          ∀ x, exGrad.paramCell x → memB' x = mem' x) :=
  nn_finite_diff_forward_differences exExp exNet exGrad (1 / 10) exTi exTo (by decide)
    exMemRat

/-- C5: in a training setup `nn_finite_diff(n, g, eps, ti, to)` returns and every weight
element and every bias element of `n` equals its value before the call; only cells of
the activations of `n` and of the weights and biases of `g` may differ. -/
theorem nn_finite_diff_restores_parameters {F : Type} [Zero F] [One F] [Add F] [Sub F]
    [Mul F] [Neg F] [Div F] [NatCast F] (expf : F → F) (n g : NN) (eps : F) (ti tout : Mat)
    (hset : TrainingSetup n g ti tout) (mem : Mem F) :
    ∃ mem', nn_finite_diff expf n g eps ti tout mem = .ok mem' ∧
      (∀ i, i < n.count →
        (∀ j, j < (n.ws i).rows → ∀ k, k < (n.ws i).cols →
          MAT_AT mem' (n.ws i) j k = MAT_AT mem (n.ws i) j k) ∧
        (∀ j, j < (n.bs i).rows → ∀ k, k < (n.bs i).cols →
          MAT_AT mem' (n.bs i) j k = MAT_AT mem (n.bs i) j k)) ∧
      (∀ x, ¬ n.actCell x → ¬ g.paramCell x → mem' x = mem x) := by
  obtain ⟨mem', e1, f1, _⟩ := nn_finite_diff_spec expf n g eps ti tout hset mem
  obtain ⟨_, hown, _, _, hap, _, _, _⟩ := hset
  have hnotG : ∀ m, m ∈ n.mats → ∀ x, m.owns x → ¬ g.paramCell x := by
    rintro m hm x hx ⟨l, hl, ho | ho⟩
    · exact Mat.disj_not_owns (hap m hm _ (g.ws_mem_mats hl)) hx ho
    · exact Mat.disj_not_owns (hap m hm _ (g.bs_mem_mats hl)) hx ho
  refine ⟨mem', e1, ?_, f1⟩
  intro i hi
  constructor
  · intro j hj k hk
    have ho : (n.ws i).owns ((n.ws i).addr j k) := ⟨j, hj, k, hk, rfl⟩
    exact f1 _ (n.ws_not_act hown hi ho) (hnotG _ (n.ws_mem_mats hi) _ ho)
  · intro j hj k hk
    have ho : (n.bs i).owns ((n.bs i).addr j k) := ⟨j, hj, k, hk, rfl⟩
    exact f1 _ (n.bs_not_act hown hi ho) (hnotG _ (n.bs_mem_mats hi) _ ho)

/-- C5, an instance: two {2, 2, 1} networks and a table of 4 samples, `eps = 1/10`. -/
theorem nn_finite_diff_restores_parameters_witness :
    ∃ mem', nn_finite_diff exExp exNet exGrad (1 / 10) exTi exTo exMemRat = .ok mem' ∧
      (∀ i, i < exNet.count →
        (∀ j, j < (exNet.ws i).rows → ∀ k, k < (exNet.ws i).cols →
          MAT_AT mem' (exNet.ws i) j k = MAT_AT exMemRat (exNet.ws i) j k) ∧
        (∀ j, j < (exNet.bs i).rows → ∀ k, k < (exNet.bs i).cols →
          MAT_AT mem' (exNet.bs i) j k = MAT_AT exMemRat (exNet.bs i) j k)) ∧
      (∀ x, ¬ exNet.actCell x → ¬ exGrad.paramCell x → mem' x = exMemRat x) :=
  nn_finite_diff_restores_parameters exExp exNet exGrad (1 / 10) exTi exTo (by decide)
    exMemRat

/-! ## Ownership of an allocated network -/

/-- A matrix with stride equal to cols whose block ends at or before the start of another
shares no cell with it. -/
theorem Mat.disj_of_block (m1 m2 : Mat) (hs : m1.stride = m1.cols)
    (h : m1.es + m1.rows * m1.cols ≤ m2.es) : m1.disj m2 := by
  intro i hi j hj i' _ j' _ e
  unfold Mat.addr at e
  rw [hs] at e
  have h1 : (i + 1) * m1.cols ≤ m1.rows * m1.cols := Nat.mul_le_mul_right _ hi
  rw [Nat.add_mul, Nat.one_mul] at h1
  omega

theorem allocSeq_as (arch : List Nat) (a : Alloc) (i : Nat) :
    allocSeq arch a (3 * i) = asAt arch a i := by
  have h1 : 3 * i % 3 = 0 := by omega
  have h2 : 3 * i / 3 = i := by omega
  simp only [allocSeq, h1, h2, if_true]

theorem allocSeq_ws (arch : List Nat) (a : Alloc) (i : Nat) :
    allocSeq arch a (3 * i + 1) = wsAt arch a i := by
  have h1 : (3 * i + 1) % 3 = 1 := by omega
  have h2 : (3 * i + 1) / 3 = i := by omega
  simp only [allocSeq, h1, h2, if_true, one_ne_zero, if_false]

theorem allocSeq_bs (arch : List Nat) (a : Alloc) (i : Nat) :
    allocSeq arch a (3 * i + 2) = bsAt arch a i := by
  have h1 : (3 * i + 2) % 3 = 2 := by omega
  have h2 : (3 * i + 2) / 3 = i := by omega
  simp only [allocSeq, h1, h2]
  rfl

theorem allocSeq_cases (r : Nat) :
    (∃ i, r = 3 * i) ∨ (∃ i, r = 3 * i + 1) ∨ (∃ i, r = 3 * i + 2) := by
  have h := Nat.div_add_mod r 3
  have hlt : r % 3 < 3 := Nat.mod_lt r (by decide)
  rcases Nat.lt_or_ge (r % 3) 1 with h0 | h1
  · exact Or.inl ⟨r / 3, by omega⟩
  · rcases Nat.lt_or_ge (r % 3) 2 with h1' | h2
    · exact Or.inr (Or.inl ⟨r / 3, by omega⟩)
    · exact Or.inr (Or.inr ⟨r / 3, by omega⟩)

/-- Every block has stride equal to cols and ends where the next one starts. -/
theorem allocSeq_next (arch : List Nat) (a : Alloc) (r : Nat) :
    (allocSeq arch a r).stride = (allocSeq arch a r).cols ∧
    (allocSeq arch a r).es + (allocSeq arch a r).rows * (allocSeq arch a r).cols
      = (allocSeq arch a (r + 1)).es := by
  rcases allocSeq_cases r with ⟨i, rfl⟩ | ⟨i, rfl⟩ | ⟨i, rfl⟩
  · rw [allocSeq_as, allocSeq_ws]
    cases i with
    | zero => exact ⟨rfl, by simp only [asAt, wsAt, layerBase, layerCells]; omega⟩
    | succ i => exact ⟨rfl, by simp only [asAt, wsAt, layerBase, layerCells]; omega⟩
  · rw [allocSeq_ws, show 3 * i + 1 + 1 = 3 * i + 2 from rfl, allocSeq_bs]
    exact ⟨rfl, rfl⟩
  · rw [allocSeq_bs, show 3 * i + 2 + 1 = 3 * (i + 1) by omega, allocSeq_as]
    exact ⟨rfl, rfl⟩

theorem allocSeq_mono (arch : List Nat) (a : Alloc) {r r' : Nat} (h : r ≤ r') :
    (allocSeq arch a r).es ≤ (allocSeq arch a r').es := by
  induction r' with
  | zero =>
    have : r = 0 := by omega
    subst this; exact Nat.le_refl _
  | succ r' ih =>
    rcases Nat.lt_succ_iff_lt_or_eq.mp (Nat.lt_succ_of_le h) with hlt | heq
    · have := ih (Nat.le_of_lt_succ hlt)
      have := (allocSeq_next arch a r').2
      omega
    · subst heq; exact Nat.le_refl _

/-- Two different blocks of the allocation order share no cell. -/
theorem allocSeq_disj (arch : List Nat) (a : Alloc) {r r' : Nat} (h : r ≠ r') :
    (allocSeq arch a r).disj (allocSeq arch a r') := by
  have key : ∀ r r', r < r' → (allocSeq arch a r).disj (allocSeq arch a r') := by
    intro r r' hlt
    apply Mat.disj_of_block _ _ (allocSeq_next arch a r).1
    rw [(allocSeq_next arch a r).2]
    exact allocSeq_mono arch a hlt
  rcases Nat.lt_or_gt_of_ne h with hlt | hgt
  · exact key r r' hlt
  · exact Mat.disj_symm (key r' r hgt)

/-- Every cell of a block lies between the start of the first block and the start of
any later block. -/
theorem allocSeq_range (arch : List Nat) (a : Alloc) {r r' : Nat} (h : r < r') {x : Nat}
    (hx : (allocSeq arch a r).owns x) :
    allocBase arch a ≤ x ∧ x < (allocSeq arch a r').es := by
  obtain ⟨i, hi, j, hj, e⟩ := hx
  obtain ⟨hs, hn⟩ := allocSeq_next arch a r
  have h0 : (allocSeq arch a 0).es ≤ (allocSeq arch a r).es := allocSeq_mono arch a (Nat.zero_le r)
  have h1 : (allocSeq arch a (r + 1)).es ≤ (allocSeq arch a r').es := allocSeq_mono arch a h
  have hb : (allocSeq arch a 0).es = allocBase arch a := rfl
  have h2 : (i + 1) * (allocSeq arch a r).cols ≤ (allocSeq arch a r).rows * (allocSeq arch a r).cols :=
    Nat.mul_le_mul_right _ hi
  rw [Nat.add_mul, Nat.one_mul] at h2
  unfold Mat.addr at e
  rw [hs] at e
  omega

theorem layerBase_last (arch : List Nat) (a : Alloc) :
    layerBase arch a (arch.length - 1) = a.brk + nn_alloc_cells arch := by
  simp only [layerBase, allocBase, nn_alloc_cells]
  omega

/-- The network `nn_alloc` returns satisfies the shape invariant and owns its matrices,
and all its cells lie in the stretch the allocator handed out during the call. -/
theorem nn_alloc_owned (arch : List Nat) (a : Alloc) (hL : 1 ≤ arch.length)
    (hroom : a.brk + nn_alloc_cells arch ≤ a.cap) :
    ∃ nn, nn_alloc arch arch.length a
        = .ok (nn, { brk := a.brk + nn_alloc_cells arch, cap := a.cap }) ∧
      nn.count = arch.length - 1 ∧
      (∀ i, i ≤ nn.count → (nn.as i).rows = 1 ∧ (nn.as i).cols = arch.getD i 0) ∧
      (∀ i, i < nn.count →
        (nn.ws i).rows = arch.getD i 0 ∧ (nn.ws i).cols = arch.getD (i + 1) 0 ∧
        (nn.bs i).rows = 1 ∧ (nn.bs i).cols = arch.getD (i + 1) 0) ∧
      nn.shapeOK ∧ nn.owned ∧
      (∀ m, m ∈ nn.mats → ∀ x, m.owns x → a.brk ≤ x ∧ x < a.brk + nn_alloc_cells arch) := by
  obtain ⟨nn, hok, hc, hacts, hpar⟩ := nn_alloc_layout arch a hL hroom
  rw [layerBase_last] at hok
  rw [← hc] at hacts hpar
  have has : ∀ i, i ≤ nn.count → nn.as i = allocSeq arch a (3 * i) :=
    fun i hi => (hacts i hi).trans (allocSeq_as arch a i).symm
  have hws : ∀ i, i < nn.count → nn.ws i = allocSeq arch a (3 * i + 1) :=
    fun i hi => (hpar i hi).1.trans (allocSeq_ws arch a i).symm
  have hbs : ∀ i, i < nn.count → nn.bs i = allocSeq arch a (3 * i + 2) :=
    fun i hi => (hpar i hi).2.trans (allocSeq_bs arch a i).symm
  have hshA : ∀ i, i ≤ nn.count → (nn.as i).rows = 1 ∧ (nn.as i).cols = arch.getD i 0 := by
    intro i hi
    rw [hacts i hi]
    cases i <;> exact ⟨rfl, rfl⟩
  have hshP : ∀ i, i < nn.count →
      (nn.ws i).rows = arch.getD i 0 ∧ (nn.ws i).cols = arch.getD (i + 1) 0 ∧
      (nn.bs i).rows = 1 ∧ (nn.bs i).cols = arch.getD (i + 1) 0 := by
    intro i hi
    rw [(hpar i hi).1, (hpar i hi).2]
    exact ⟨rfl, rfl, rfl, rfl⟩
  refine ⟨nn, hok, hc, hshA, hshP, ⟨fun i hi => (hshA i hi).1, ?_⟩, ⟨?_, ?_, ?_, ?_, ?_⟩, ?_⟩
  · intro i hi
    obtain ⟨h1, h2, h3, h4⟩ := hshP i hi
    exact ⟨h1.trans (hshA i (Nat.le_of_lt hi)).2.symm, h2.trans h4.symm,
      h4.trans (hshA (i + 1) hi).2.symm, h3⟩
  · intro i hi
    rw [has i hi]
    exact Nat.le_of_eq (allocSeq_next arch a _).1.symm
  · intro i hi
    rw [hws i hi, hbs i hi]
    exact ⟨Nat.le_of_eq (allocSeq_next arch a _).1.symm,
      Nat.le_of_eq (allocSeq_next arch a _).1.symm⟩
  · intro i hi j hj hne
    rw [has i hi, has j hj]
    exact allocSeq_disj arch a (by omega)
  · intro i hi j hj
    rw [has i hi, hws j hj, hbs j hj]
    exact ⟨allocSeq_disj arch a (by omega), allocSeq_disj arch a (by omega)⟩
  · intro i hi j hj
    rw [hws i hi, hws j hj, hbs i hi, hbs j hj]
    exact ⟨allocSeq_disj arch a (by omega),
      fun hne => ⟨allocSeq_disj arch a (by omega), allocSeq_disj arch a (by omega)⟩⟩
  · intro m hm x hx
    have hend : (allocSeq arch a (3 * nn.count + 1)).es = a.brk + nn_alloc_cells arch := by
      rw [allocSeq_ws, hc]
      exact layerBase_last arch a
    have hb : a.brk ≤ allocBase arch a := by
      unfold allocBase; omega
    rcases nn.mem_mats_cases hm with ⟨i, hi, e⟩ | ⟨i, hi, e | e⟩
    · rw [e, has i hi] at hx
      have := allocSeq_range arch a (show 3 * i < 3 * nn.count + 1 by omega) hx
      omega
    · rw [e, hws i hi] at hx
      have := allocSeq_range arch a (show 3 * i + 1 < 3 * nn.count + 1 by omega) hx
      omega
    · rw [e, hbs i hi] at hx
      have := allocSeq_range arch a (show 3 * i + 2 < 3 * nn.count + 1 by omega) hx
      omega

theorem Mat.disj_of_owns {m1 m2 : Mat} (h : ∀ x, m1.owns x → ¬ m2.owns x) : m1.disj m2 :=
  fun i hi j hj i' hi' j' hj' e => h _ ⟨i, hi, j, hj, rfl⟩ ⟨i', hi', j', hj', e⟩

/-- The setting of the demonstration program: the live network and the gradient network
come from two calls of `nn_alloc` with the same architecture, and the dataset views
(as many input rows as output rows, of the widths of the first and last layer) lie outside
the stretch the two calls take from the allocator. This is a training setup. -/
theorem training_setup_of_alloc (arch : List Nat) (a : Alloc) (ti tout : Mat)
    (hL : 1 ≤ arch.length)
    (hroom : a.brk + (nn_alloc_cells arch + nn_alloc_cells arch) ≤ a.cap)
    (hrows : ti.rows = tout.rows) (hti : ti.cols = arch.getD 0 0)
    (hto : tout.cols = arch.getD (arch.length - 1) 0)
    (hdata : ∀ x, ti.owns x ∨ tout.owns x →
      x < a.brk ∨ a.brk + (nn_alloc_cells arch + nn_alloc_cells arch) ≤ x) :
    ∃ n a1 g a2, nn_alloc arch arch.length a = .ok (n, a1) ∧
      nn_alloc arch arch.length a1 = .ok (g, a2) ∧ TrainingSetup n g ti tout := by
  obtain ⟨n, hn, hnc, hnA, hnP, hnsh, hnown, hnr⟩ := nn_alloc_owned arch a hL (by omega)
  obtain ⟨g, hg, hgc, hgA, hgP, _, hgown, hgr⟩ := nn_alloc_owned arch
    { brk := a.brk + nn_alloc_cells arch, cap := a.cap } hL (by simp only; omega)
  simp only at hgr
  refine ⟨n, _, g, _, hn, hg, hnsh, hnown, hgown, ⟨hnc.trans hgc.symm, ?_, ?_⟩, ?_, ?_, ?_, ?_⟩
  · intro i hi
    have hi' : i ≤ g.count := by omega
    exact ⟨(hnA i hi).1.trans (hgA i hi').1.symm, (hnA i hi).2.trans (hgA i hi').2.symm⟩
  · intro i hi
    have hi' : i < g.count := by omega
    obtain ⟨h1, h2, h3, h4⟩ := hnP i hi
    obtain ⟨k1, k2, k3, k4⟩ := hgP i hi'
    exact ⟨h1.trans k1.symm, h2.trans k2.symm, h3.trans k3.symm, h4.trans k4.symm⟩
  · intro m hm m' hm'
    apply Mat.disj_of_owns
    intro x hx hx'
    have := hnr m hm x hx
    have := hgr m' hm' x hx'
    omega
  · exact ⟨hrows, hti.trans (hnA 0 (Nat.zero_le _)).2.symm,
      by rw [hto, ← hnc]; exact (hnA n.count (Nat.le_refl _)).2.symm⟩
  · intro m hm
    constructor
    · apply Mat.disj_of_owns
      intro x hx hx'
      have := hnr m hm x hx
      have := hdata x (Or.inl hx')
      omega
    · apply Mat.disj_of_owns
      intro x hx hx'
      have := hnr m hm x hx
      have := hdata x (Or.inr hx')
      omega
  · intro m hm
    constructor
    · apply Mat.disj_of_owns
      intro x hx hx'
      have := hgr m hm x hx
      have := hdata x (Or.inl hx')
      omega
    · apply Mat.disj_of_owns
      intro x hx hx'
      have := hgr m hm x hx
      have := hdata x (Or.inr hx')
      omega

/-! ## Claims on views, `mat_sum`, `mat_copy` and the assertions -/

/-- C11: for a row-major buffer at `buf` of `n` rows of width `w = p + q`, the input view
(rows `n`, cols `p`, stride `w`, offset 0) and the output view (rows `n`, cols `q`,
stride `w`, offset `p`) satisfy for every `i < n`: `mat_row(input, i)` is a 1 x `p` matrix
whose element (0, j) is `buffer[i*w + j]`, and `mat_row(output, i)` is a 1 x `q` matrix
whose element (0, j) is `buffer[i*w + p + j]`; and for every view `m`, whatever its
stride, `mat_row(m, r)[0][j] == m[r][j]`. -/
theorem dataset_views_align {F : Type} (mem : Mem F) (buf n p q i : Nat) (_hi : i < n) :
    ((mat_row (inputView buf n p q) i).rows = 1 ∧ (mat_row (inputView buf n p q) i).cols = p ∧
      ∀ j, j < p →
        MAT_AT mem (mat_row (inputView buf n p q) i) 0 j = mem (buf + (i * (p + q) + j))) ∧
    ((mat_row (outputView buf n p q) i).rows = 1 ∧
      (mat_row (outputView buf n p q) i).cols = q ∧
      ∀ j, j < q →
        MAT_AT mem (mat_row (outputView buf n p q) i) 0 j
          = mem (buf + (i * (p + q) + p + j))) ∧
    (∀ (m : Mat) (r j : Nat), MAT_AT mem (mat_row m r) 0 j = MAT_AT mem m r j) := by
  have hrow : ∀ (m : Mat) (r j : Nat), MAT_AT mem (mat_row m r) 0 j = MAT_AT mem m r j := by
    intro m r j
    unfold MAT_AT
    rw [mat_row_addr]
  refine ⟨⟨rfl, rfl, ?_⟩, ⟨rfl, rfl, ?_⟩, hrow⟩
  · intro j _
    rw [hrow]
    rfl
  · intro j _
    rw [hrow]
    show mem (buf + p + (i * (p + q) + j)) = mem (buf + (i * (p + q) + p + j))
    congr 1
    omega

/-- C11, an instance: row 3 of the table of `nn.c` (4 rows, 2 inputs and 1 output). -/
theorem dataset_views_align_witness :
    ((mat_row (inputView 30 4 2 1) 3).rows = 1 ∧ (mat_row (inputView 30 4 2 1) 3).cols = 2 ∧
      ∀ j, j < 2 →
        MAT_AT exMemInt (mat_row (inputView 30 4 2 1) 3) 0 j
          = exMemInt (30 + (3 * (2 + 1) + j))) ∧
    ((mat_row (outputView 30 4 2 1) 3).rows = 1 ∧
      (mat_row (outputView 30 4 2 1) 3).cols = 1 ∧
      ∀ j, j < 1 →
        MAT_AT exMemInt (mat_row (outputView 30 4 2 1) 3) 0 j
          = exMemInt (30 + (3 * (2 + 1) + 2 + j))) ∧
    (∀ (m : Mat) (r j : Nat), MAT_AT exMemInt (mat_row m r) 0 j = MAT_AT exMemInt m r j) :=
  dataset_views_align exMemInt 30 4 2 1 3 (by decide)

/-- C12: for matrices `dest` and `a` of identical shape, `dest` with stride at least cols
and sharing no cell with `a`, `mat_sum(dest, a)` returns, every `dest[i][j]` is its old
value plus `a[i][j]` and `a` is unchanged (as is every cell outside `dest`); and from an
all-zero `dest` a second `mat_sum(dest, a)` leaves `dest[i][j] = 2 * a[i][j]`. -/
theorem mat_sum_twice_doubles {F : Type} [Semiring F] (dest a : Mat) (mem : Mem F)
    (h1 : dest.rows = a.rows) (h2 : dest.cols = a.cols) (hs : dest.cols ≤ dest.stride)
    (hda : dest.disj a) :
    ∃ mem1, mat_sum dest a mem = .ok mem1 ∧
      (∀ i, i < dest.rows → ∀ j, j < dest.cols →
        MAT_AT mem1 dest i j = MAT_AT mem dest i j + MAT_AT mem a i j) ∧
      (∀ i, i < a.rows → ∀ j, j < a.cols → MAT_AT mem1 a i j = MAT_AT mem a i j) ∧
      (∀ x, ¬ dest.owns x → mem1 x = mem x) ∧
      ((∀ i, i < dest.rows → ∀ j, j < dest.cols → MAT_AT mem dest i j = 0) →
        ∃ mem2, mat_sum dest a mem1 = .ok mem2 ∧
          ∀ i, i < dest.rows → ∀ j, j < dest.cols →
            MAT_AT mem2 dest i j = 2 * MAT_AT mem a i j) := by
  obtain ⟨mem1, e1, f1, v1⟩ := mat_sum_spec dest a mem h1 h2 hs hda
  obtain ⟨mem2, e2, _, v2⟩ := mat_sum_spec dest a mem1 h1 h2 hs hda
  have ha : ∀ i, i < a.rows → ∀ j, j < a.cols → MAT_AT mem1 a i j = MAT_AT mem a i j :=
    fun i hi j hj => f1 _ (Mat.disj_not_owns (Mat.disj_symm hda) ⟨i, hi, j, hj, rfl⟩)
  refine ⟨mem1, e1, v1, ha, f1, ?_⟩
  intro hz
  refine ⟨mem2, e2, ?_⟩
  intro i hi j hj
  show mem2 (dest.addr i j) = _
  rw [v2 i hi j hj, v1 i hi j hj]
  have e0 : mem (dest.addr i j) = 0 := hz i hi j hj
  have ea : mem1 (a.addr i j) = mem (a.addr i j) := ha i (h1 ▸ hi) j (h2 ▸ hj)
  rw [e0, ea, zero_add, two_mul]
  rfl

/-- C12, an instance: two 2x2 matrices over the integers. -/
theorem mat_sum_twice_doubles_witness :
    ∃ mem1, mat_sum exDest exA exMemInt = .ok mem1 ∧
      (∀ i, i < exDest.rows → ∀ j, j < exDest.cols →
        MAT_AT mem1 exDest i j = MAT_AT exMemInt exDest i j + MAT_AT exMemInt exA i j) ∧
      (∀ i, i < exA.rows → ∀ j, j < exA.cols → MAT_AT mem1 exA i j = MAT_AT exMemInt exA i j) ∧
      (∀ x, ¬ exDest.owns x → mem1 x = exMemInt x) ∧
      ((∀ i, i < exDest.rows → ∀ j, j < exDest.cols → MAT_AT exMemInt exDest i j = 0) →
        ∃ mem2, mat_sum exDest exA mem1 = .ok mem2 ∧
          ∀ i, i < exDest.rows → ∀ j, j < exDest.cols →
            MAT_AT mem2 exDest i j = 2 * MAT_AT exMemInt exA i j) :=
  mat_sum_twice_doubles exDest exA exMemInt (by decide) (by decide) (by decide) (by decide)

/-- C13: for matrices `dest` and `src` with identical rows and cols (strides may differ),
`dest` with stride at least cols and sharing no cell with `src`, `mat_copy(dest, src)`
returns, every in-range element satisfies `dest[i][j] == src[i][j]`, `src` is unchanged,
and every cell outside the rows x cols view of `dest`, those of its backing buffer
included, is unchanged. -/
theorem mat_copy_deep_copies {F : Type} (dest src : Mat) (mem : Mem F)
    (h1 : dest.rows = src.rows) (h2 : dest.cols = src.cols) (hs : dest.cols ≤ dest.stride)
    (hd : dest.disj src) :
    ∃ mem', mat_copy dest src mem = .ok mem' ∧
      (∀ i, i < dest.rows → ∀ j, j < dest.cols →
        MAT_AT mem' dest i j = MAT_AT mem src i j ∧
        MAT_AT mem' dest i j = MAT_AT mem' src i j) ∧
      (∀ i, i < src.rows → ∀ j, j < src.cols → MAT_AT mem' src i j = MAT_AT mem src i j) ∧
      (∀ x, ¬ dest.owns x → mem' x = mem x) := by
  obtain ⟨mem', e, f, v⟩ := mat_copy_spec dest src mem h1 h2 hs hd
  have hsrc : ∀ i, i < src.rows → ∀ j, j < src.cols → MAT_AT mem' src i j = MAT_AT mem src i j :=
    fun i hi j hj => f _ (Mat.disj_not_owns (Mat.disj_symm hd) ⟨i, hi, j, hj, rfl⟩)
  refine ⟨mem', e, ?_, hsrc, f⟩
  intro i hi j hj
  have e1 : MAT_AT mem' dest i j = MAT_AT mem src i j := v i hi j hj
  exact ⟨e1, e1.trans (hsrc i (h1 ▸ hi) j (h2 ▸ hj)).symm⟩

/-- C13, an instance: copying a row of the strided view into a row of another stride. -/
theorem mat_copy_deep_copies_witness :
    ∃ mem', mat_copy (mat_row exA 1) (mat_row exView 2) exMemInt = .ok mem' ∧
      (∀ i, i < (mat_row exA 1).rows → ∀ j, j < (mat_row exA 1).cols →
        MAT_AT mem' (mat_row exA 1) i j = MAT_AT exMemInt (mat_row exView 2) i j ∧
        MAT_AT mem' (mat_row exA 1) i j = MAT_AT mem' (mat_row exView 2) i j) ∧
      (∀ i, i < (mat_row exView 2).rows → ∀ j, j < (mat_row exView 2).cols →
        MAT_AT mem' (mat_row exView 2) i j = MAT_AT exMemInt (mat_row exView 2) i j) ∧
      (∀ x, ¬ (mat_row exA 1).owns x → mem' x = exMemInt x) :=
  mat_copy_deep_copies (mat_row exA 1) (mat_row exView 2) exMemInt (by decide) (by decide)
    (by decide) (by decide)

/-- C14: `mat_dot(dest, a, b)` aborts on an assertion if and only if
`a.cols != b.rows` or `dest.rows != a.rows` or `dest.cols != b.cols`; `mat_sum(dest, a)`
and `mat_copy(dest, src)` abort if and only if the two matrices differ in rows or in
cols; and when one of them aborts the memory is the one the call started with, so no
element of `dest` has been modified. -/
theorem shape_violation_aborts_iff {F : Type} [Zero F] [Add F] [Mul F]
    (dest a b src : Mat) (mem : Mem F) :
    (((∃ e, mat_dot dest a b mem = .error e) ↔
        (a.cols ≠ b.rows ∨ dest.rows ≠ a.rows ∨ dest.cols ≠ b.cols)) ∧
      ∀ e, mat_dot dest a b mem = .error e → e = mem) ∧
    (((∃ e, mat_sum dest a mem = .error e) ↔ (dest.rows ≠ a.rows ∨ dest.cols ≠ a.cols)) ∧
      ∀ e, mat_sum dest a mem = .error e → e = mem) ∧
    (((∃ e, mat_copy dest src mem = .error e) ↔
        (dest.rows ≠ src.rows ∨ dest.cols ≠ src.cols)) ∧
      ∀ e, mat_copy dest src mem = .error e → e = mem) := by
  refine ⟨?_, ?_, ?_⟩
  · unfold mat_dot
    by_cases h1 : a.cols = b.rows <;> by_cases h2 : dest.rows = a.rows <;>
      by_cases h3 : dest.cols = b.cols <;>
      simp [h1, h2, h3]
  · unfold mat_sum
    by_cases h1 : dest.rows = a.rows <;> by_cases h2 : dest.cols = a.cols <;>
      simp [h1, h2]
  · unfold mat_copy
    by_cases h1 : dest.rows = src.rows <;> by_cases h2 : dest.cols = src.cols <;>
      simp [h1, h2]

/-! ## Runs that cannot abort

The assertions compare rows and cols only, so whether a run aborts is decided by the
headers and not by the contents of memory or by which cells the matrices share. -/

section Returns

variable {F : Type}

theorem mat_dot_returns [Zero F] [Add F] [Mul F] (dest a b : Mat) (mem : Mem F)
    (h1 : a.cols = b.rows) (h2 : dest.rows = a.rows) (h3 : dest.cols = b.cols) :
    ∃ mem', mat_dot dest a b mem = .ok mem' := by
  unfold mat_dot
  rw [if_neg (not_not.mpr h1), if_neg (not_not.mpr h2), if_neg (not_not.mpr h3)]
  exact ⟨_, rfl⟩

theorem mat_sum_returns [Add F] (dest a : Mat) (mem : Mem F)
    (h1 : dest.rows = a.rows) (h2 : dest.cols = a.cols) :
    ∃ mem', mat_sum dest a mem = .ok mem' := by
  unfold mat_sum
  rw [if_neg (not_not.mpr h1), if_neg (not_not.mpr h2)]
  exact ⟨_, rfl⟩

theorem mat_copy_returns (dest src : Mat) (mem : Mem F)
    (h1 : dest.rows = src.rows) (h2 : dest.cols = src.cols) :
    ∃ mem', mat_copy dest src mem = .ok mem' := by
  unfold mat_copy
  rw [if_neg (not_not.mpr h1), if_neg (not_not.mpr h2)]
  exact ⟨_, rfl⟩

variable [Zero F] [One F] [Add F] [Mul F] [Neg F] [Div F]

/-- On a network that satisfies the shape invariant `nn_forward` returns from every
memory. -/
theorem nn_forward_returns (expf : F → F) (nn : NN) (hsh : nn.shapeOK) (mem : Mem F) :
    ∃ mem', nn_forward expf nn mem = .ok mem' := by
  obtain ⟨hrows, hlay⟩ := hsh
  obtain ⟨mem', hok, _⟩ := forLoopE_inv nn.count
    (fun i s => do
      let s1 ← mat_dot (nn.as (i + 1)) (nn.as i) (nn.ws i) s
      let s2 ← mat_sum (nn.as (i + 1)) (nn.bs i) s1
      pure (mat_sig expf (nn.as (i + 1)) s2))
    (fun _ _ => True) mem trivial
    (by
      intro i hi s _
      obtain ⟨hwr, hwc, hbc, hbr⟩ := hlay i hi
      have hr1 : (nn.as (i + 1)).rows = 1 := hrows (i + 1) hi
      have hr0 : (nn.as i).rows = 1 := hrows i (Nat.le_of_lt hi)
      obtain ⟨s1, e1⟩ := mat_dot_returns (nn.as (i + 1)) (nn.as i) (nn.ws i) s
        hwr.symm (hr1.trans hr0.symm) (hbc.symm.trans hwc.symm)
      obtain ⟨s2, e2⟩ := mat_sum_returns (nn.as (i + 1)) (nn.bs i) s1
        (hr1.trans hbr.symm) hbc.symm
      refine ⟨mat_sig expf (nn.as (i + 1)) s2, ?_, trivial⟩
      simp only [e1, e2, bind, Except.bind]
      rfl)
  exact ⟨mem', hok⟩

variable [Sub F] [NatCast F]

/-- On a network that satisfies the shape invariant, with a dataset of fitting shape,
`nn_cost` returns from every memory. -/
theorem nn_cost_returns (expf : F → F) (nn : NN) (hsh : nn.shapeOK) (ti tout : Mat)
    (hds : nn.dataShape ti tout) (mem : Mem F) :
    ∃ c mem', nn_cost expf nn ti tout mem = .ok (c, mem') := by
  obtain ⟨hr, hci, hco⟩ := hds
  obtain ⟨cs, hok, _⟩ := forLoopE_inv ti.rows
    (fun i (cs : F × Mem F) => (do
      let x := mat_row ti i
      let y := mat_row tout i
      let s ← mat_copy (NN_INPUT nn) x cs.2
      let s ← nn_forward expf nn s
      let q := tout.cols
      pure (forLoop q (fun j c =>
        let d := MAT_AT s (NN_OUTPUT nn) 0 j - MAT_AT s y 0 j
        c + d * d) cs.1, s) : Except (Mem F) (F × Mem F)))
    (fun _ _ => True) (0, mem) trivial
    (by
      rintro t _ ⟨c, s⟩ _
      obtain ⟨s1, e1⟩ := mat_copy_returns (NN_INPUT nn) (mat_row ti t) s
        (hsh.1 0 (Nat.zero_le _)) hci.symm
      obtain ⟨s2, e2⟩ := nn_forward_returns expf nn hsh s1
      refine ⟨(forLoop tout.cols (fun j c =>
          let d := MAT_AT s2 (NN_OUTPUT nn) 0 j - MAT_AT s2 (mat_row tout t) 0 j
          c + d * d) c, s2), ?_, trivial⟩
      simp only [e1, bind, Except.bind, e2]
      rfl)
  refine ⟨cs.1 / (ti.rows : F), cs.2, ?_⟩
  unfold nn_cost
  rw [if_neg (not_not.mpr hr), if_neg (not_not.mpr hco)]
  simp only [bind, Except.bind, pure, Except.pure] at hok ⊢
  rw [hok]

/-- With a sample to copy and an input view of the wrong width, `nn_cost` aborts in the
assertion of `mat_copy`, before any cell is written. -/
theorem nn_cost_aborts (expf : F → F) (nn : NN) (ti tout : Mat) (mem : Mem F)
    (hr : ti.rows = tout.rows) (hco : tout.cols = (NN_OUTPUT nn).cols)
    (hn : 1 ≤ ti.rows) (hci : ti.cols ≠ (NN_INPUT nn).cols) :
    nn_cost expf nn ti tout mem = .error mem := by
  have hloop : ∀ n, 1 ≤ n → forLoopE n
      (fun i (cs : F × Mem F) => (do
        let x := mat_row ti i
        let y := mat_row tout i
        let s ← mat_copy (NN_INPUT nn) x cs.2
        let s ← nn_forward expf nn s
        let q := tout.cols
        pure (forLoop q (fun j c =>
          let d := MAT_AT s (NN_OUTPUT nn) 0 j - MAT_AT s y 0 j
          c + d * d) cs.1, s) : Except (Mem F) (F × Mem F)))
      (0, mem) = .error mem := by
    intro n hn
    induction n with
    | zero => omega
    | succ n ih =>
      rcases Nat.eq_zero_or_pos n with h0 | hpos
      · subst h0
        have hcopy : mat_copy (NN_INPUT nn) (mat_row ti 0) mem = .error mem := by
          unfold mat_copy
          by_cases h1 : (NN_INPUT nn).rows = (mat_row ti 0).rows
          · rw [if_neg (not_not.mpr h1), if_pos (fun h => hci h.symm)]
          · rw [if_pos h1]
        simp only [forLoopE, hcopy, bind, Except.bind]
      · simp only [forLoopE, ih hpos]
  unfold nn_cost
  rw [if_neg (not_not.mpr hr), if_neg (not_not.mpr hco)]
  have h := hloop ti.rows hn
  simp only [bind, Except.bind, pure, Except.pure] at h ⊢
  rw [h]

end Returns

/-! ## Claims on the preconditions of `nn_cost` and on `mat_alloc` -/

/-- C15, as stated, fails: the {2, 2, 1} network satisfies the shape invariant, the dataset
has `ti.rows == to.rows` and `to.cols == NN_OUTPUT(nn).cols`, but the input view has one
column where the network takes two, and `nn_cost` aborts in the assertion of `mat_copy`
on the first sample. -/
theorem nn_cost_two_preconditions_counterexample :
    exNet.shapeOK ∧ exBadTi.rows = exTo.rows ∧ exTo.cols = (NN_OUTPUT exNet).cols ∧
      nn_cost exExp exNet exBadTi exTo exMemRat = .error exMemRat ∧
      ¬ ∃ r, nn_cost exExp exNet exBadTi exTo exMemRat = .ok r := by
  have h : nn_cost exExp exNet exBadTi exTo exMemRat = .error exMemRat := rfl
  refine ⟨by decide, by decide, by decide, h, ?_⟩
  rintro ⟨r, hr⟩
  rw [h] at hr
  cases hr

/-- C15, amended: the preconditions of `nn_cost` are `ti.rows == to.rows`,
`to.cols == NN_OUTPUT(nn).cols` and `ti.cols == NN_INPUT(nn).cols`. For every network
that satisfies the shape invariant and every dataset that meets the three, `nn_cost`
returns a value and no assertion fails, those inside `mat_copy`, `mat_dot` and `mat_sum`
included; with the first two only, at least one sample and an input view of another
width, it aborts in the assertion of `mat_copy`. -/
theorem nn_cost_three_preconditions {F : Type} [Zero F] [One F] [Add F] [Sub F] [Mul F]
    [Neg F] [Div F] [NatCast F] (expf : F → F) (nn : NN) (hsh : nn.shapeOK) (ti tout : Mat)
    (hr : ti.rows = tout.rows) (hco : tout.cols = (NN_OUTPUT nn).cols) (mem : Mem F) :
    (ti.cols = (NN_INPUT nn).cols → ∃ c mem', nn_cost expf nn ti tout mem = .ok (c, mem')) ∧
    (1 ≤ ti.rows → ti.cols ≠ (NN_INPUT nn).cols →
      nn_cost expf nn ti tout mem = .error mem) :=
  ⟨fun hci => nn_cost_returns expf nn hsh ti tout ⟨hr, hci, hco⟩ mem,
    fun hn hci => nn_cost_aborts expf nn ti tout mem hr hco hn hci⟩

/-- C15 amended, an instance: the {2, 2, 1} network on a table of 4 samples. -/
theorem nn_cost_three_preconditions_witness :
    (exTi.cols = (NN_INPUT exNet).cols →
      ∃ c mem', nn_cost exExp exNet exTi exTo exMemRat = .ok (c, mem')) ∧
    (1 ≤ exTi.rows → exTi.cols ≠ (NN_INPUT exNet).cols →
      nn_cost exExp exNet exTi exTo exMemRat = .error exMemRat) :=
  nn_cost_three_preconditions exExp exNet (by decide) exTi exTo (by decide) (by decide)
    exMemRat

/-- C16, as stated, fails: on an allocator whose next free cell is 7, `mat_alloc(1, 1)`
succeeds and returns a 1x1 matrix with stride 1, and in a memory whose cell 7 holds 7 its
element (0, 0) is 7, not 0: the block is handed out as it is. -/
theorem mat_alloc_zero_counterexample :
    mat_alloc 1 1 exAllocUsed
        = .ok ({ rows := 1, cols := 1, stride := 1, es := 7 }, { brk := 8, cap := 100 }) ∧
      MAT_AT exMemInt { rows := 1, cols := 1, stride := 1, es := 7 } 0 0 = 7 ∧
      MAT_AT exMemInt { rows := 1, cols := 1, stride := 1, es := 7 } 0 0 ≠ 0 := by
  refine ⟨rfl, rfl, ?_⟩
  show ((7 : Nat) : Int) ≠ 0
  decide

/-- C16, amended: for every rows and cols for which allocation succeeds,
`mat_alloc(rows, cols)` returns a matrix with the given rows and cols and
`stride == cols` over the block the allocator hands out; the call writes no cell, so
every element (i, j) holds whatever the cell `i * cols + j` of the block held before. -/
theorem mat_alloc_uninitialized {F : Type} (rows cols : Nat) (a : Alloc)
    (hroom : a.brk + rows * cols ≤ a.cap) :
    ∃ m a', mat_alloc rows cols a = .ok (m, a') ∧
      m.rows = rows ∧ m.cols = cols ∧ m.stride = cols ∧ m.es = a.brk ∧
      a'.brk = a.brk + rows * cols ∧
      ∀ (mem : Mem F) (i j : Nat), MAT_AT mem m i j = mem (a.brk + (i * cols + j)) :=
  ⟨_, _, mat_alloc_ok rows cols a hroom, rfl, rfl, rfl, rfl, rfl, fun _ _ _ => rfl⟩

/-- C16 amended, an instance: a 2x3 matrix on an allocator whose next free cell is 7. -/
theorem mat_alloc_uninitialized_witness :
    ∃ m a', mat_alloc 2 3 exAllocUsed = .ok (m, a') ∧
      m.rows = 2 ∧ m.cols = 3 ∧ m.stride = 3 ∧ m.es = exAllocUsed.brk ∧
      a'.brk = exAllocUsed.brk + 2 * 3 ∧
      ∀ (mem : Mem Int) (i j : Nat), MAT_AT mem m i j = mem (exAllocUsed.brk + (i * 3 + j)) :=
  mat_alloc_uninitialized 2 3 exAllocUsed (by decide)

/-! ## `mat_rand` and `nn_rand` -/

section RandLoops

variable {F : Type}

/-- A row of stores of values drawn from the stream is a row of stores of the values at
consecutive positions of the stream. -/
theorem randRow_eq (rnd : Nat → Nat) (f : Nat → F) (m : Mat) (i : Nat) (s : Mem F)
    (k C : Nat) :
    forLoop C (fun j (st : Mem F × Nat) => (MAT_SET st.1 m i j (f (rnd st.2)), st.2 + 1)) (s, k)
      = (forLoop C (fun j s' => MAT_SET s' m i j (f (rnd (k + j)))) s, k + C) := by
  induction C with
  | zero => rfl
  | succ C ih =>
    simp only [forLoop, ih]
    rfl

theorem randRows_eq (rnd : Nat → Nat) (f : Nat → F) (m : Mat) (s : Mem F) (k R : Nat) :
    forLoop R (fun i (st : Mem F × Nat) =>
        forLoop m.cols (fun j (st : Mem F × Nat) =>
          (MAT_SET st.1 m i j (f (rnd st.2)), st.2 + 1)) st) (s, k)
      = (forLoop R (fun i s' =>
          forLoop m.cols (fun j s'' => MAT_SET s'' m i j (f (rnd (k + i * m.cols + j)))) s') s,
         k + R * m.cols) := by
  induction R with
  | zero => simp only [forLoop, Nat.zero_mul, Nat.add_zero]
  | succ R ih =>
    simp only [forLoop, ih, randRow_eq]
    congr 1
    rw [Nat.succ_mul, Nat.add_assoc]

variable [NatCast F] [Div F] [Mul F] [Sub F] [Add F]

/-- What `mat_rand` does: it makes rows * cols calls of `rand()`, changes no cell outside
the matrix, and element (i, j) gets the value computed from call `i * cols + j`. -/
theorem mat_rand_spec (RAND_MAX : Nat) (rnd : Nat → Nat) (m : Mat) (hs : m.cols ≤ m.stride)
    (low high : F) (mem : Mem F) (k : Nat) :
    (mat_rand RAND_MAX rnd m low high (mem, k)).2 = k + m.rows * m.cols ∧
    (∀ x, ¬ m.owns x → (mat_rand RAND_MAX rnd m low high (mem, k)).1 x = mem x) ∧
    (∀ i, i < m.rows → ∀ j, j < m.cols →
      (mat_rand RAND_MAX rnd m low high (mem, k)).1 (m.addr i j)
        = rand_float RAND_MAX (rnd (k + i * m.cols + j)) * (high - low) + low) := by
  have h := randRows_eq rnd (fun r => rand_float RAND_MAX r * (high - low) + low) m mem k m.rows
  unfold mat_rand
  rw [h]
  refine ⟨rfl, ?_⟩
  exact cellLoop_frame_val m hs
    (fun i j _ => rand_float RAND_MAX (rnd (k + i * m.cols + j)) * (high - low) + low)
    (fun _ _ _ _ _ _ _ => rfl) mem

end RandLoops

/-- The value `rand_float() * (high - low) + low` for a result `r <= RAND_MAX` of `rand()`
lies in the closed interval from `low` to `high`, and reaches `high` exactly when
`r == RAND_MAX`. -/
theorem rand_value_bounds {F : Type} [LinearOrderedField F] (RAND_MAX r : Nat)
    (hRM : 0 < RAND_MAX) (hr : r ≤ RAND_MAX) (low high : F) (hlh : low < high) :
    low ≤ rand_float RAND_MAX r * (high - low) + low ∧
    rand_float RAND_MAX r * (high - low) + low ≤ high ∧
    (rand_float RAND_MAX r * (high - low) + low < high ↔ r < RAND_MAX) := by
  have hRM' : (0 : F) < (RAND_MAX : F) := Nat.cast_pos.mpr hRM
  have hd : (0 : F) < high - low := sub_pos.mpr hlh
  have h0 : (0 : F) ≤ rand_float RAND_MAX r := div_nonneg (Nat.cast_nonneg r) (le_of_lt hRM')
  have h1 : rand_float RAND_MAX r ≤ (1 : F) := by
    unfold rand_float
    rw [div_le_one hRM']
    exact Nat.cast_le.mpr hr
  have hlt : rand_float RAND_MAX r < (1 : F) ↔ r < RAND_MAX := by
    unfold rand_float
    rw [div_lt_one hRM']
    exact Nat.cast_lt
  refine ⟨?_, ?_, ?_⟩
  · have := mul_nonneg h0 (le_of_lt hd)
    linarith
  · have := mul_le_mul_of_nonneg_right h1 (le_of_lt hd)
    linarith
  · rw [← hlt]
    constructor
    · intro h
      by_contra hge
      have h1' : rand_float RAND_MAX r = (1 : F) := le_antisymm h1 (not_lt.mp hge)
      rw [h1'] at h
      linarith
    · intro h
      have := mul_lt_mul_of_pos_right h hd
      linarith

/-- After `nn_rand` on a network that owns its matrices every weight and every bias
satisfies a property that holds of every value drawn by `mat_rand`. -/
theorem nn_rand_all {F : Type} [NatCast F] [Div F] [Mul F] [Sub F] [Add F]
    (RAND_MAX : Nat) (rnd : Nat → Nat) (nn : NN) (hown : nn.owned) (low high : F)
    (P : F → Prop) (hP : ∀ r, P (rand_float RAND_MAX (rnd r) * (high - low) + low))
    (st : Mem F × Nat) :
    ∀ l, l < nn.count →
      (∀ j, j < (nn.ws l).rows → ∀ k, k < (nn.ws l).cols →
        P (MAT_AT (nn_rand RAND_MAX rnd nn low high st).1 (nn.ws l) j k)) ∧
      (∀ j, j < (nn.bs l).rows → ∀ k, k < (nn.bs l).cols →
        P (MAT_AT (nn_rand RAND_MAX rnd nn low high st).1 (nn.bs l) j k)) := by
  obtain ⟨_, hsp, _, _, hdpp⟩ := hown
  have key := forLoop_inv nn.count
    (fun i (st : Mem F × Nat) =>
      let st := mat_rand RAND_MAX rnd (nn.ws i) low high st
      mat_rand RAND_MAX rnd (nn.bs i) low high st)
    (fun t st => t ≤ nn.count ∧ ∀ l, l < t →
      (∀ j, j < (nn.ws l).rows → ∀ k, k < (nn.ws l).cols → P (st.1 ((nn.ws l).addr j k))) ∧
      (∀ j, j < (nn.bs l).rows → ∀ k, k < (nn.bs l).cols → P (st.1 ((nn.bs l).addr j k))))
    st ⟨Nat.zero_le _, fun l hl => absurd hl (Nat.not_lt_zero l)⟩
    (by
      rintro t ht ⟨s, c⟩ ⟨_, iv⟩
      obtain ⟨c1, f1, v1⟩ := mat_rand_spec RAND_MAX rnd (nn.ws t) (hsp t ht).1 low high s c
      obtain ⟨_, f2, v2⟩ := mat_rand_spec RAND_MAX rnd (nn.bs t) (hsp t ht).2 low high
        (mat_rand RAND_MAX rnd (nn.ws t) low high (s, c)).1
        (mat_rand RAND_MAX rnd (nn.ws t) low high (s, c)).2
      have hwb : (nn.ws t).disj (nn.bs t) := (hdpp t ht t ht).1
      refine ⟨ht, ?_⟩
      intro l hl
      dsimp only
      rcases Nat.lt_succ_iff_lt_or_eq.mp hl with hlt | heq
      · have hlc : l < nn.count := by omega
        have hne : l ≠ t := by omega
        constructor
        · intro j hj k hk
          have ho : (nn.ws l).owns ((nn.ws l).addr j k) := ⟨j, hj, k, hk, rfl⟩
          rw [f2 _ (Mat.disj_not_owns (hdpp l hlc t ht).1 ho),
            f1 _ (Mat.disj_not_owns ((hdpp l hlc t ht).2 hne).1 ho)]
          exact (iv l hlt).1 j hj k hk
        · intro j hj k hk
          have ho : (nn.bs l).owns ((nn.bs l).addr j k) := ⟨j, hj, k, hk, rfl⟩
          rw [f2 _ (Mat.disj_not_owns ((hdpp l hlc t ht).2 hne).2 ho),
            f1 _ (Mat.disj_not_owns (Mat.disj_symm (hdpp t ht l hlc).1) ho)]
          exact (iv l hlt).2 j hj k hk
      · subst heq
        constructor
        · intro j hj k hk
          have ho : (nn.ws l).owns ((nn.ws l).addr j k) := ⟨j, hj, k, hk, rfl⟩
          rw [f2 _ (Mat.disj_not_owns hwb ho), v1 j hj k hk]
          exact hP _
        · intro j hj k hk
          rw [v2 j hj k hk]
          exact hP _)
  exact key.2

/-! ## Claim on `mat_rand` -/

/-- C17, as stated, fails: with `RAND_MAX = 0x7FFF`, `low = 0 < high = 1` and `rand()`
returning `RAND_MAX`, the value `rand_float() * (high - low) + low` that `mat_rand` writes
is `high` itself, so it is not below `high`. -/
theorem mat_rand_half_open_counterexample :
    (0 : Rat) < 1 ∧ exRndMax 0 ≤ 32767 ∧
      rand_float 32767 (exRndMax 0) * ((1 : Rat) - 0) + 0 = 1 ∧
      MAT_AT (mat_rand 32767 exRndMax exCell (0 : Rat) 1 (exMemRat, 0)).1 exCell 0 0 = 1 ∧
      ¬ (MAT_AT (mat_rand 32767 exRndMax exCell (0 : Rat) 1 (exMemRat, 0)).1 exCell 0 0 < 1) := by
  have hv : rand_float 32767 (exRndMax 0) * ((1 : Rat) - 0) + 0 = 1 := by
    norm_num [rand_float, exRndMax]
  have hm : MAT_AT (mat_rand 32767 exRndMax exCell (0 : Rat) 1 (exMemRat, 0)).1 exCell 0 0
      = rand_float 32767 (exRndMax 0) * ((1 : Rat) - 0) + 0 := rfl
  refine ⟨by decide, by decide, hv, hm.trans hv, ?_⟩
  rw [hm, hv]
  exact lt_irrefl 1

/-- In exact arithmetic (an ordered field, no rounding) `mat_rand` (and `nn_rand` on
every weight and bias) sets every element to a value in the closed interval from `low`
to `high`. For `low < high` and every result
`r` of `rand()` with `0 <= r <= RAND_MAX` the value `rand_float() * (high - low) + low`
satisfies `low <= v <= high`, and `v < high` exactly when `r < RAND_MAX`; so after
`mat_rand(m, low, high)` every in-range element of `m`, and after `nn_rand(nn, low, high)`
every weight and bias of `nn`, lies between `low` and `high`, both ends included. -/
theorem mat_rand_closed_interval {F : Type} [LinearOrderedField F] (RAND_MAX : Nat)
    (rnd : Nat → Nat) (hRM : 0 < RAND_MAX) (hrnd : ∀ k, rnd k ≤ RAND_MAX) (low high : F)
    (hlh : low < high) (m : Mat) (hs : m.cols ≤ m.stride) (nn : NN) (hown : nn.owned)
    (st : Mem F × Nat) :
    (∀ r, r ≤ RAND_MAX →
      low ≤ rand_float RAND_MAX r * (high - low) + low ∧
      rand_float RAND_MAX r * (high - low) + low ≤ high ∧
      (rand_float RAND_MAX r * (high - low) + low < high ↔ r < RAND_MAX)) ∧
    (∀ i, i < m.rows → ∀ j, j < m.cols →
      low ≤ MAT_AT (mat_rand RAND_MAX rnd m low high st).1 m i j ∧
      MAT_AT (mat_rand RAND_MAX rnd m low high st).1 m i j ≤ high) ∧
    (∀ l, l < nn.count →
      (∀ j, j < (nn.ws l).rows → ∀ k, k < (nn.ws l).cols →
        low ≤ MAT_AT (nn_rand RAND_MAX rnd nn low high st).1 (nn.ws l) j k ∧
        MAT_AT (nn_rand RAND_MAX rnd nn low high st).1 (nn.ws l) j k ≤ high) ∧
      (∀ j, j < (nn.bs l).rows → ∀ k, k < (nn.bs l).cols →
        low ≤ MAT_AT (nn_rand RAND_MAX rnd nn low high st).1 (nn.bs l) j k ∧
        MAT_AT (nn_rand RAND_MAX rnd nn low high st).1 (nn.bs l) j k ≤ high)) := by
  have hb := fun r (hr : r ≤ RAND_MAX) => rand_value_bounds RAND_MAX r hRM hr low high hlh
  refine ⟨hb, ?_, ?_⟩
  · intro i hi j hj
    obtain ⟨s, c⟩ := st
    obtain ⟨_, _, v⟩ := mat_rand_spec RAND_MAX rnd m hs low high s c
    show low ≤ (mat_rand RAND_MAX rnd m low high (s, c)).1 (m.addr i j) ∧
      (mat_rand RAND_MAX rnd m low high (s, c)).1 (m.addr i j) ≤ high
    rw [v i hi j hj]
    exact ⟨(hb _ (hrnd _)).1, (hb _ (hrnd _)).2.1⟩
  · exact nn_rand_all RAND_MAX rnd nn hown low high (fun v => low ≤ v ∧ v ≤ high)
      (fun r => ⟨(hb _ (hrnd r)).1, (hb _ (hrnd r)).2.1⟩) st

/-- The closed interval in exact arithmetic, an instance: `RAND_MAX = 0x7FFF`, the
interval from 0 to 1, the strided
4x2 view and the {2, 2, 1} network. -/
theorem mat_rand_closed_interval_witness :
    (∀ r, r ≤ 32767 →
      (0 : Rat) ≤ rand_float 32767 r * (1 - 0) + 0 ∧
      rand_float 32767 r * ((1 : Rat) - 0) + 0 ≤ 1 ∧
      (rand_float 32767 r * ((1 : Rat) - 0) + 0 < 1 ↔ r < 32767)) ∧
    (∀ i, i < exView.rows → ∀ j, j < exView.cols →
      0 ≤ MAT_AT (mat_rand 32767 exRnd exView (0 : Rat) 1 (exMemRat, 0)).1 exView i j ∧
      MAT_AT (mat_rand 32767 exRnd exView (0 : Rat) 1 (exMemRat, 0)).1 exView i j ≤ 1) ∧
    (∀ l, l < exNet.count →
      (∀ j, j < (exNet.ws l).rows → ∀ k, k < (exNet.ws l).cols →
        0 ≤ MAT_AT (nn_rand 32767 exRnd exNet (0 : Rat) 1 (exMemRat, 0)).1 (exNet.ws l) j k ∧
        MAT_AT (nn_rand 32767 exRnd exNet (0 : Rat) 1 (exMemRat, 0)).1 (exNet.ws l) j k ≤ 1) ∧
      (∀ j, j < (exNet.bs l).rows → ∀ k, k < (exNet.bs l).cols →
        0 ≤ MAT_AT (nn_rand 32767 exRnd exNet (0 : Rat) 1 (exMemRat, 0)).1 (exNet.bs l) j k ∧
        MAT_AT (nn_rand 32767 exRnd exNet (0 : Rat) 1 (exMemRat, 0)).1 (exNet.bs l) j k ≤ 1)) :=
  mat_rand_closed_interval 32767 exRnd (by decide)
    (fun k => Nat.le_of_lt_succ (Nat.mod_lt _ (by decide))) 0 1 (by decide) exView
    (by decide) exNet (by decide) (exMemRat, 0)

/-! ## The sigmoid in exact arithmetic -/

/-- In exact arithmetic (an ordered field, no rounding), with `expf` the exponential
(positive, increasing, `expf 0 = 1`), the function `sigmoidf(x) = 1 / (1 + expf(-x))`
satisfies `0 < sigmoidf(x) < 1` for every `x`, it is monotonically increasing, and
`sigmoidf(0) == 0.5`; consequently after `mat_sig(m)` every in-range element of a matrix
`m` (stride at least cols) lies strictly between 0 and 1. -/
theorem sigmoidf_unit_interval {F : Type} [LinearOrderedField F] (expf : F → F)
    (hpos : ∀ x, 0 < expf x) (hmono : ∀ x y, x ≤ y → expf x ≤ expf y) (h0 : expf 0 = 1)
    (m : Mat) (hs : m.cols ≤ m.stride) (mem : Mem F) :
    (∀ x, 0 < sigmoidf expf x ∧ sigmoidf expf x < 1) ∧
    (∀ x y, x ≤ y → sigmoidf expf x ≤ sigmoidf expf y) ∧
    sigmoidf expf 0 = 1 / 2 ∧
    (∀ i, i < m.rows → ∀ j, j < m.cols →
      0 < MAT_AT (mat_sig expf m mem) m i j ∧ MAT_AT (mat_sig expf m mem) m i j < 1) := by
  have hrange : ∀ x, 0 < sigmoidf expf x ∧ sigmoidf expf x < 1 := by
    intro x
    have he := hpos (-x)
    have hden : (0 : F) < 1 + expf (-x) := by linarith
    unfold sigmoidf
    exact ⟨one_div_pos.mpr hden, (div_lt_one hden).mpr (by linarith)⟩
  refine ⟨hrange, ?_, ?_, ?_⟩
  · intro x y hxy
    have he := hmono (-y) (-x) (neg_le_neg hxy)
    have hden : (0 : F) < 1 + expf (-y) := by
      have := hpos (-y)
      linarith
    unfold sigmoidf
    exact one_div_le_one_div_of_le hden (by linarith)
  · unfold sigmoidf
    rw [neg_zero, h0]
    norm_num
  · intro i hi j hj
    show 0 < mat_sig expf m mem (m.addr i j) ∧ mat_sig expf m mem (m.addr i j) < 1
    rw [(mat_sig_spec expf m mem hs).2 i hi j hj]
    exact hrange _

/-- The sigmoid in exact arithmetic, an instance: the real exponential and the strided
4x2 view over the reals. -/
theorem sigmoidf_unit_interval_witness :
    (∀ x : Real, 0 < sigmoidf Real.exp x ∧ sigmoidf Real.exp x < 1) ∧
    (∀ x y : Real, x ≤ y → sigmoidf Real.exp x ≤ sigmoidf Real.exp y) ∧
    sigmoidf Real.exp 0 = 1 / 2 ∧
    (∀ i, i < exView.rows → ∀ j, j < exView.cols →
      0 < MAT_AT (mat_sig Real.exp exView { cell := fun _ => (0 : Real) }) exView i j ∧
      MAT_AT (mat_sig Real.exp exView { cell := fun _ => (0 : Real) }) exView i j < 1) :=
  sigmoidf_unit_interval Real.exp Real.exp_pos (fun _ _ h => Real.exp_le_exp.mpr h)
    Real.exp_zero exView (by decide) { cell := fun _ => (0 : Real) }

/-! ## Claim on what the cost depends on -/

section CostDependence

variable {F : Type} [Zero F] [One F] [Add F] [Mul F] [Neg F] [Div F]

/-- The rows of the recurrence agree for two networks of identical architecture that hold
equal weights and biases, each in its own memory. -/
theorem actRow_congr_two (expf : F → F) (n1 n2 : NN) (hsh : n1.shapeOK)
    (harch : n1.sameArch n2) (m1 m2 : Mem F) (x1 x2 : Nat → F)
    (hp : n1.equalParams n2 m1 m2) (hx : ∀ k, k < (n1.as 0).cols → x1 k = x2 k) :
    ∀ i, i ≤ n1.count → ∀ j, j < (n1.as i).cols →
      actRow expf n1 m1 x1 i j = actRow expf n2 m2 x2 i j := by
  intro i
  induction i with
  | zero => exact fun _ j hj => hx j hj
  | succ i ih =>
    intro hi j hj
    have hi' : i < n1.count := hi
    obtain ⟨hwr, hwc, hbc, hbr⟩ := hsh.2 i hi'
    have hcols : (n1.as i).cols = (n2.as i).cols := (harch.2.1 i (Nat.le_of_lt hi')).2
    show sigmoidf expf (dotAcc (n1.as i).cols (actRow expf n1 m1 x1 i)
        (fun k => MAT_AT m1 (n1.ws i) k j) + MAT_AT m1 (n1.bs i) 0 j)
      = sigmoidf expf (dotAcc (n2.as i).cols (actRow expf n2 m2 x2 i)
        (fun k => MAT_AT m2 (n2.ws i) k j) + MAT_AT m2 (n2.bs i) 0 j)
    rw [← hcols, (hp i hi').2 0 (by omega) j (by omega),
      dotAcc_congr (n1.as i).cols _ _ (actRow expf n2 m2 x2 i)
        (fun k => MAT_AT m2 (n2.ws i) k j)
        (fun k hk => ih (Nat.le_of_lt hi') k hk)
        (fun k hk => (hp i hi').1 k (by omega) j (by omega))]

variable [Sub F] [NatCast F]

theorem costVal_congr_two (expf : F → F) (n1 n2 : NN) (hsh : n1.shapeOK)
    (harch : n1.sameArch n2) (ti tout : Mat) (hds : n1.dataShape ti tout) (m1 m2 : Mem F)
    (hp : n1.equalParams n2 m1 m2) (hti : ti.sameIn m1 m2) (hto : tout.sameIn m1 m2) :
    costVal expf n1 ti tout m1 = costVal expf n2 ti tout m2 := by
  obtain ⟨hr, hci, hco⟩ := hds
  unfold costVal sqErrAcc
  congr 1
  apply forLoop_congr
  intro i hi c
  apply forLoop_congr
  intro j hj c
  have e1 : netOut expf n1 ti m1 i j = netOut expf n2 ti m2 i j := by
    unfold netOut
    rw [← harch.1]
    exact actRow_congr_two expf n1 n2 hsh harch m1 m2 _ _ hp
      (fun k hk => hti i hi k (hci ▸ hk)) n1.count (Nat.le_refl _) j (hco ▸ hj)
  have e2 : MAT_AT m1 tout i j = MAT_AT m2 tout i j := hto i (hr ▸ hi) j hj
  simp only [e1, e2]

end CostDependence

/-- C19: for two networks of equal architecture that hold equal weights and equal biases,
each well formed in its own memory with whatever contents in its activations, and the
same dataset `(ti, to)` meeting the shape requirements of `nn_cost` and stored apart from
both, the two calls of `nn_cost` return and their values are equal. -/
theorem nn_cost_ignores_activations {F : Type} [Zero F] [One F] [Add F] [Sub F] [Mul F]
    [Neg F] [Div F] [NatCast F] (expf : F → F) (n1 n2 : NN) (ti tout : Mat) (m1 m2 : Mem F)
    (hsh1 : n1.shapeOK) (hown1 : n1.owned) (hsh2 : n2.shapeOK) (hown2 : n2.owned)
    (harch : n1.sameArch n2) (hds : n1.dataShape ti tout)
    (hda1 : n1.dataApart ti tout) (hda2 : n2.dataApart ti tout)
    (hp : n1.equalParams n2 m1 m2) (hti : ti.sameIn m1 m2) (hto : tout.sameIn m1 m2) :
    ∃ c m1' m2', nn_cost expf n1 ti tout m1 = .ok (c, m1') ∧
      nn_cost expf n2 ti tout m2 = .ok (c, m2') := by
  have hds2 : n2.dataShape ti tout := by
    obtain ⟨hr, hci, hco⟩ := hds
    refine ⟨hr, hci.trans (harch.2.1 0 (Nat.zero_le _)).2, ?_⟩
    show tout.cols = (n2.as n2.count).cols
    rw [← harch.1, ← (harch.2.1 n1.count (Nat.le_refl _)).2]
    exact hco
  obtain ⟨m1', e1, _⟩ := nn_cost_spec expf n1 hsh1 hown1 ti tout hds hda1 m1
  obtain ⟨m2', e2, _⟩ := nn_cost_spec expf n2 hsh2 hown2 ti tout hds2 hda2 m2
  refine ⟨_, m1', m2', e1, ?_⟩
  rw [e2, costVal_congr_two expf n1 n2 hsh1 harch ti tout hds m1 m2 hp hti hto]

/-- C19, an instance: the {2, 2, 1} network in one memory and a copy of its weights and
biases at other addresses in another memory, with other activation contents. -/
theorem nn_cost_ignores_activations_witness :
    ∃ c m1' m2', nn_cost exExpInt exNet exTi exTo exMemInt = .ok (c, m1') ∧
      nn_cost exExpInt exGrad exTi exTo exMemIntShift = .ok (c, m2') :=
  nn_cost_ignores_activations exExpInt exNet exGrad exTi exTo exMemInt exMemIntShift
    (by decide) (by decide) (by decide) (by decide) (by decide) (by decide) (by decide)
    (by decide) (by decide) (by decide) (by decide)

/-! ## Claim on the assertions of `nn_forward` -/

section FiniteDiffReturns

variable {F : Type} [Zero F] [One F] [Add F] [Sub F] [Mul F] [Neg F] [Div F] [NatCast F]

/-- The double loop of probes over one parameter matrix returns whenever `nn_cost`
does. -/
theorem probes_return (expf : F → F) (n : NN) (hsh : n.shapeOK) (ti tout : Mat)
    (hds : n.dataShape ti tout) (eps c : F) (pm gm : Mat) (s : Mem F) :
    ∃ s', forLoopE pm.rows (fun j s =>
        forLoopE pm.cols (fun k s => do
          let saved := MAT_AT s pm j k
          let s := MAT_SET s pm j k (MAT_AT s pm j k + eps)
          let c1 ← nn_cost expf n ti tout s
          let s := MAT_SET c1.2 gm j k ((c1.1 - c) / eps)
          pure (MAT_SET s pm j k saved)) s) s = .ok s' := by
  obtain ⟨s', h, _⟩ := forLoopE_inv pm.rows
    (fun j s =>
      forLoopE pm.cols (fun k s => do
        let saved := MAT_AT s pm j k
        let s := MAT_SET s pm j k (MAT_AT s pm j k + eps)
        let c1 ← nn_cost expf n ti tout s
        let s := MAT_SET c1.2 gm j k ((c1.1 - c) / eps)
        pure (MAT_SET s pm j k saved)) s)
    (fun _ _ => True) s trivial
    (by
      intro j _ s _
      obtain ⟨s', h, _⟩ := forLoopE_inv pm.cols
        (fun k s => (do
          let saved := MAT_AT s pm j k
          let s := MAT_SET s pm j k (MAT_AT s pm j k + eps)
          let c1 ← nn_cost expf n ti tout s
          let s := MAT_SET c1.2 gm j k ((c1.1 - c) / eps)
          pure (MAT_SET s pm j k saved) : Except (Mem F) (Mem F)))
        (fun _ _ => True) s trivial
        (by
          intro k _ s _
          obtain ⟨c1, m1, e⟩ := nn_cost_returns expf n hsh ti tout hds
            (MAT_SET s pm j k (MAT_AT s pm j k + eps))
          refine ⟨MAT_SET (MAT_SET m1 gm j k ((c1 - c) / eps)) pm j k (MAT_AT s pm j k), ?_,
            trivial⟩
          simp only [e, bind, Except.bind]
          rfl)
      exact ⟨s', h, trivial⟩)
  exact ⟨s', h⟩

/-- On a network that satisfies the shape invariant, with a dataset of fitting shape,
`nn_finite_diff` returns from every memory, whatever the gradient network. -/
theorem nn_finite_diff_returns (expf : F → F) (n g : NN) (hsh : n.shapeOK) (eps : F)
    (ti tout : Mat) (hds : n.dataShape ti tout) (mem : Mem F) :
    ∃ mem', nn_finite_diff expf n g eps ti tout mem = .ok mem' := by
  obtain ⟨c0, m0, e0⟩ := nn_cost_returns expf n hsh ti tout hds mem
  obtain ⟨mem', h, _⟩ := forLoopE_inv n.count
    (fun i s => (do
      let s ← forLoopE (n.ws i).rows (fun j s =>
        forLoopE (n.ws i).cols (fun k s => do
          let saved := MAT_AT s (n.ws i) j k
          let s := MAT_SET s (n.ws i) j k (MAT_AT s (n.ws i) j k + eps)
          let c1 ← nn_cost expf n ti tout s
          let s := MAT_SET c1.2 (g.ws i) j k ((c1.1 - c0) / eps)
          pure (MAT_SET s (n.ws i) j k saved)) s) s
      forLoopE (n.bs i).rows (fun j s =>
        forLoopE (n.bs i).cols (fun k s => do
          let saved := MAT_AT s (n.bs i) j k
          let s := MAT_SET s (n.bs i) j k (MAT_AT s (n.bs i) j k + eps)
          let c1 ← nn_cost expf n ti tout s
          let s := MAT_SET c1.2 (g.bs i) j k ((c1.1 - c0) / eps)
          pure (MAT_SET s (n.bs i) j k saved)) s) s : Except (Mem F) (Mem F)))
    (fun _ _ => True) m0 trivial
    (by
      intro i _ s _
      obtain ⟨s1, e1⟩ := probes_return expf n hsh ti tout hds eps c0 (n.ws i) (g.ws i) s
      obtain ⟨s2, e2⟩ := probes_return expf n hsh ti tout hds eps c0 (n.bs i) (g.bs i) s1
      refine ⟨s2, ?_, trivial⟩
      show (forLoopE (n.ws i).rows _ s >>= fun s => forLoopE (n.bs i).rows _ s) = _
      rw [e1]
      exact e2)
  refine ⟨mem', ?_⟩
  unfold nn_finite_diff
  rw [e0]
  exact h

/-- A sequence of fitting calls on a network that satisfies the shape invariant
returns. -/
theorem runCalls_returns (expf : F → F) (RAND_MAX : Nat) (rnd : Nat → Nat) (nn : NN)
    (hsh : nn.shapeOK) (calls : List (Call F)) (hfits : ∀ c, c ∈ calls → c.fits nn)
    (st : Mem F × Nat) :
    ∃ st', runCalls expf RAND_MAX rnd nn calls st = .ok st' := by
  induction calls generalizing st with
  | nil => exact ⟨st, rfl⟩
  | cons c cs ih =>
    have hc : c.fits nn := hfits c (List.mem_cons_self c cs)
    have hstep : ∃ st1, runCall expf RAND_MAX rnd nn c st = .ok st1 := by
      cases c with
      | rand low high => exact ⟨_, rfl⟩
      | forward =>
        obtain ⟨s, e⟩ := nn_forward_returns expf nn hsh st.1
        exact ⟨(s, st.2), by simp only [runCall, e]⟩
      | learn g rate => exact ⟨_, rfl⟩
      | finite_diff g eps ti tout =>
        obtain ⟨s, e⟩ := nn_finite_diff_returns expf nn g hsh eps ti tout hc.2 st.1
        exact ⟨(s, st.2), by simp only [runCall, e]⟩
    obtain ⟨st1, e1⟩ := hstep
    obtain ⟨st', e'⟩ := ih (fun c' hc' => hfits c' (List.mem_cons_of_mem c hc')) st1
    exact ⟨st', by simp only [runCalls, e1, e']⟩

end FiniteDiffReturns
/-! ## Shapes of an allocated network, whatever the allocator -/

theorem forLoopE_ok_inv {ε σ : Type} (n : Nat) (body : Nat → σ → Except ε σ)
    (I : Nat → σ → Prop) (s s' : σ) (h0 : I 0 s)
    (hstep : ∀ i, i < n → ∀ s s1, I i s → body i s = .ok s1 → I (i + 1) s1)
    (h : forLoopE n body s = .ok s') : I n s' := by
  induction n generalizing s' with
  | zero =>
    simp only [forLoopE, Except.ok.injEq] at h
    subst h; exact h0
  | succ n ih =>
    simp only [forLoopE] at h
    cases e : forLoopE n body s with
    | error x => rw [e] at h; cases h
    | ok s1 =>
      rw [e] at h
      exact hstep n (Nat.lt_succ_self n) s1 s'
        (ih s1 (fun i hi => hstep i (Nat.lt_succ_of_lt hi)) e) h

/-- A matrix `mat_alloc` returns has the rows and cols asked for. -/
theorem mat_alloc_shape (rows cols : Nat) (a a' : Alloc) (m : Mat)
    (h : mat_alloc rows cols a = .ok (m, a')) : m.rows = rows ∧ m.cols = cols := by
  unfold mat_alloc at h
  split at h
  · simp only [Except.ok.injEq, Prod.mk.injEq] at h
    obtain ⟨hm, _⟩ := h
    subst hm
    exact ⟨rfl, rfl⟩
  · cases h

/-- One iteration of the loop of `nn_alloc` that returns keeps the count and the
headers set so far, and sets the three headers of layer `t + 1` to the shapes of the
architecture. -/
theorem nn_alloc_step_shape (arch : List Nat) (t : Nat) (st s1 : NN × Alloc)
    (h : (do
      let i := t + 1
      let nn := st.1
      let w ← mat_alloc (nn.as (i - 1)).cols (arch.getD i 0) st.2
      let nn : NN := { nn with ws := Function.update nn.ws (i - 1) w.1 }
      let b ← mat_alloc 1 (arch.getD i 0) w.2
      let nn : NN := { nn with bs := Function.update nn.bs (i - 1) b.1 }
      let m ← mat_alloc 1 (arch.getD i 0) b.2
      let nn : NN := { nn with as := Function.update nn.as i m.1 }
      pure (nn, m.2) : Except Fault (NN × Alloc)) = .ok s1) :
    s1.1.count = st.1.count ∧
    (∀ i, i ≠ t + 1 → s1.1.as i = st.1.as i) ∧
    (∀ i, i ≠ t → s1.1.ws i = st.1.ws i ∧ s1.1.bs i = st.1.bs i) ∧
    (s1.1.as (t + 1)).rows = 1 ∧ (s1.1.as (t + 1)).cols = arch.getD (t + 1) 0 ∧
    (s1.1.ws t).rows = (st.1.as t).cols ∧ (s1.1.ws t).cols = arch.getD (t + 1) 0 ∧
    (s1.1.bs t).rows = 1 ∧ (s1.1.bs t).cols = arch.getD (t + 1) 0 := by
  simp only [Nat.add_sub_cancel] at h
  cases ew : mat_alloc (st.1.as t).cols (arch.getD (t + 1) 0) st.2 with
  | error x => rw [ew] at h; cases h
  | ok w =>
    rw [ew] at h
    simp only [bind, Except.bind] at h
    cases eb : mat_alloc 1 (arch.getD (t + 1) 0) w.2 with
    | error x => rw [eb] at h; cases h
    | ok b =>
      rw [eb] at h
      simp only [bind, Except.bind] at h
      cases em : mat_alloc 1 (arch.getD (t + 1) 0) b.2 with
      | error x => rw [em] at h; cases h
      | ok m =>
        rw [em] at h
        simp only [pure, Except.pure, Except.ok.injEq] at h
        subst h
        have hw := mat_alloc_shape _ _ _ w.2 w.1 ew
        have hb := mat_alloc_shape _ _ _ b.2 b.1 eb
        have hm := mat_alloc_shape _ _ _ m.2 m.1 em
        refine ⟨rfl, ?_, ?_, ?_, ?_, ?_, ?_, ?_, ?_⟩
        · intro i hi
          exact Function.update_noteq hi _ _
        · intro i hi
          exact ⟨Function.update_noteq hi _ _, Function.update_noteq hi _ _⟩
        · simp only [Function.update_same]; exact hm.1
        · simp only [Function.update_same]; exact hm.2
        · simp only [Function.update_same]; exact hw.1
        · simp only [Function.update_same]; exact hw.2
        · simp only [Function.update_same]; exact hb.1
        · simp only [Function.update_same]; exact hb.2

/-- Whenever `nn_alloc` returns a network, it has the count and the shapes of the
architecture: no assumption on the allocator. -/
theorem nn_alloc_ok_shapes (arch : List Nat) (arch_count : Nat) (a a' : Alloc) (nn : NN)
    (h : nn_alloc arch arch_count a = .ok (nn, a')) :
    nn.count = arch_count - 1 ∧
    (∀ i, i ≤ arch_count - 1 → (nn.as i).rows = 1 ∧ (nn.as i).cols = arch.getD i 0) ∧
    (∀ i, i < arch_count - 1 →
      (nn.ws i).rows = arch.getD i 0 ∧ (nn.ws i).cols = arch.getD (i + 1) 0 ∧
      (nn.bs i).rows = 1 ∧ (nn.bs i).cols = arch.getD (i + 1) 0) := by
  unfold nn_alloc at h
  split at h
  · cases h
  · dsimp only at h
    split at h
    · cases h
    · split at h
      · cases h
      · split at h
        · cases h
        · rename_i a3 _
          cases e0 : mat_alloc 1 (arch.getD 0 0) a3 with
          | error x => rw [e0] at h; cases h
          | ok m0 =>
            rw [e0] at h
            simp only [bind, Except.bind] at h
            have h0 := mat_alloc_shape _ _ _ m0.2 m0.1 e0
            have hinv := forLoopE_ok_inv (arch_count - 1) _
              (fun t (st : NN × Alloc) =>
                st.1.count = arch_count - 1 ∧
                (∀ i, i ≤ t → (st.1.as i).rows = 1 ∧ (st.1.as i).cols = arch.getD i 0) ∧
                (∀ i, i < t →
                  (st.1.ws i).rows = arch.getD i 0 ∧ (st.1.ws i).cols = arch.getD (i + 1) 0 ∧
                  (st.1.bs i).rows = 1 ∧ (st.1.bs i).cols = arch.getD (i + 1) 0))
              _ _
              (by
                refine ⟨rfl, ?_, ?_⟩
                · intro i hi
                  have : i = 0 := by omega
                  subst this
                  simp only [Function.update_same]
                  exact h0
                · intro i hi
                  omega)
              (by
                intro t _ st s1 hI hb
                obtain ⟨hc, hA, hP⟩ := hI
                obtain ⟨kc, kA, kP, ka1, ka2, kw1, kw2, kb1, kb2⟩ :=
                  nn_alloc_step_shape arch t st s1 hb
                refine ⟨kc.trans hc, ?_, ?_⟩
                · intro i hi
                  by_cases hit : i = t + 1
                  · subst hit; exact ⟨ka1, ka2⟩
                  · rw [kA i hit]; exact hA i (by omega)
                · intro i hi
                  by_cases hit : i = t
                  · subst hit
                    exact ⟨kw1.trans (hA i (Nat.le_refl i)).2, kw2, kb1, kb2⟩
                  · rw [(kP i hit).1, (kP i hit).2]; exact hP i (by omega))
              h
            exact hinv

/-- Whenever `nn_alloc` returns a network, the network satisfies the shape invariant. -/
theorem nn_alloc_shapeOK (arch : List Nat) (arch_count : Nat) (a a' : Alloc) (nn : NN)
    (h : nn_alloc arch arch_count a = .ok (nn, a')) : nn.shapeOK := by
  obtain ⟨hc, hA, hP⟩ := nn_alloc_ok_shapes arch arch_count a a' nn h
  rw [← hc] at hA hP
  refine ⟨fun i hi => (hA i hi).1, ?_⟩
  intro i hi
  obtain ⟨w1, w2, b1, b2⟩ := hP i hi
  refine ⟨?_, ?_, ?_, b1⟩
  · rw [w1, (hA i (Nat.le_of_lt hi)).2]
  · rw [w2, b2]
  · rw [b2, (hA (i + 1) hi).2]

section Unreachable

variable {F : Type} [Zero F] [One F] [Add F] [Sub F] [Mul F] [Neg F] [Div F] [NatCast F]

/-- C20: on a network returned by `nn_alloc`, every sequence of `nn_rand`,
`nn_forward`, `nn_learn` and `nn_finite_diff` calls, made with gradient networks of the
same architecture and datasets of matching row count and input/output widths, runs to
its end without a failed assertion, and a call of `nn_forward` after it returns as
well: the assertions of `mat_dot` and `mat_sum` do not fire. The calls take the
network by value and hand back only float memory, so the rows, cols and stride that
`nn_alloc` set are the ones every later call sees. -/
theorem allocated_network_never_asserts (expf : F → F) (RAND_MAX : Nat) (rnd : Nat → Nat)
    (arch : List Nat) (a a' : Alloc) (nn : NN)
    (halloc : nn_alloc arch arch.length a = .ok (nn, a'))
    (calls : List (Call F)) (hfits : ∀ c, c ∈ calls → c.fits nn) (st : Mem F × Nat) :
    ∃ st', runCalls expf RAND_MAX rnd nn calls st = .ok st' ∧
      ∃ mem', nn_forward expf nn st'.1 = .ok mem' := by
  have hsh : nn.shapeOK := nn_alloc_shapeOK arch arch.length a a' nn halloc
  obtain ⟨st', e⟩ := runCalls_returns expf RAND_MAX rnd nn hsh calls hfits st
  exact ⟨st', e, nn_forward_returns expf nn hsh st'.1⟩

end Unreachable

theorem allocated_network_never_asserts_witness :
    nn_alloc exArch exArch.length exAllocHigh = .ok (exAllocNet, { brk := 71, cap := 100 }) ∧
    (∀ c, c ∈ exCalls → c.fits exAllocNet) ∧
    ∃ st', runCalls exExp 32767 exRnd exAllocNet exCalls (exMemRat, 0) = .ok st' ∧
      ∃ mem', nn_forward exExp exAllocNet st'.1 = .ok mem' :=
  ⟨rfl, by decide,
    allocated_network_never_asserts exExp 32767 exRnd exArch exAllocHigh
      { brk := 71, cap := 100 } exAllocNet rfl exCalls (by decide) (exMemRat, 0)⟩

/-! ## Rounding to binary32 -/

theorem roundHalfEven_near (q : Rat) :
    (roundHalfEven q : Rat) - 1 / 2 ≤ q ∧ q ≤ (roundHalfEven q : Rat) + 1 / 2 := by
  have h1 : ((⌊q⌋ : Int) : Rat) ≤ q := Int.floor_le q
  have h2 : q < ((⌊q⌋ : Int) : Rat) + 1 := Int.lt_floor_add_one q
  unfold roundHalfEven
  split_ifs with c1 c2 c3
  · constructor <;> linarith
  · push_cast; constructor <;> linarith
  · constructor <;> linarith
  · push_cast; constructor <;> linarith

theorem roundHalfEven_mono {a b : Rat} (h : a ≤ b) : roundHalfEven a ≤ roundHalfEven b := by
  by_contra hc
  have hlt : roundHalfEven b + 1 ≤ roundHalfEven a := by omega
  have hq : ((roundHalfEven b : Int) : Rat) + 1 ≤ (roundHalfEven a : Rat) := by exact_mod_cast hlt
  have ha := (roundHalfEven_near a).1
  have hb := (roundHalfEven_near b).2
  have hab : a = b := le_antisymm h (by linarith)
  rw [hab] at hc
  exact hc (le_refl _)

theorem roundHalfEven_intCast (n : Int) : roundHalfEven (n : Rat) = n := by
  unfold roundHalfEven
  rw [Int.floor_intCast, sub_self, if_pos (by norm_num)]

/-- The integer within less than a half of `q` is the rounding of `q`. -/
theorem roundHalfEven_eq {q : Rat} {n : Int} (h1 : (n : Rat) ≤ q) (h2 : q < (n : Rat) + 1 / 2) :
    roundHalfEven q = n := by
  have hf : ⌊q⌋ = n := Int.floor_eq_iff.mpr ⟨h1, by linarith⟩
  unfold roundHalfEven
  rw [hf, if_pos (by linarith)]

theorem ulp32_pos (q : Rat) : 0 < ulp32 q := zpow_pos (by norm_num) _

theorem binary32Pos_zero : binary32Pos 0 = 0 := by
  unfold binary32Pos
  rw [zero_div]
  have : roundHalfEven 0 = 0 := roundHalfEven_intCast 0
  rw [this]
  simp

theorem binary32Pos_nonneg {q : Rat} (h : 0 ≤ q) : 0 ≤ binary32Pos q := by
  unfold binary32Pos
  have h0 : roundHalfEven ((0 : Int) : Rat) ≤ roundHalfEven (q / ulp32 q) :=
    roundHalfEven_mono (by
      rw [Int.cast_zero]
      exact div_nonneg h (le_of_lt (ulp32_pos q)))
  rw [roundHalfEven_intCast] at h0
  exact mul_nonneg (by exact_mod_cast h0) (le_of_lt (ulp32_pos q))

/-- The rounding of `q` does not leave the binade of `q` upwards. -/
theorem binary32Pos_le_pow (q : Rat) :
    binary32Pos q ≤ 2 ^ (max (Int.log 2 q) (-126) + 1) := by
  have hlt : q < (2 : Rat) ^ (max (Int.log 2 q) (-126) + 1) := by
    have h1 : q < ((2 : Nat) : Rat) ^ (Int.log 2 q + 1) := Int.lt_zpow_succ_log_self (by norm_num) q
    have h2 : (2 : Rat) ^ (Int.log 2 q + 1) ≤ 2 ^ (max (Int.log 2 q) (-126) + 1) :=
      zpow_le_zpow_right₀ (by norm_num) (by omega)
    have h3 : (((2 : Nat) : Rat)) = 2 := by norm_num
    rw [h3] at h1
    exact lt_of_lt_of_le h1 h2
  have hu := ulp32_pos q
  have hsplit : (2 : Rat) ^ (max (Int.log 2 q) (-126) + 1) = ((2 ^ 24 : Int) : Rat) * ulp32 q := by
    unfold ulp32
    have : ((2 ^ 24 : Int) : Rat) = (2 : Rat) ^ (24 : Int) := by norm_num
    rw [this, ← zpow_add₀ (by norm_num)]
    congr 1
    omega
  have hr : roundHalfEven (q / ulp32 q) ≤ 2 ^ 24 := by
    have := roundHalfEven_mono (a := q / ulp32 q) (b := ((2 ^ 24 : Int) : Rat))
      (by rw [div_le_iff₀ hu, ← hsplit]; exact le_of_lt hlt)
    rwa [roundHalfEven_intCast] at this
  rw [hsplit]
  unfold binary32Pos
  exact mul_le_mul_of_nonneg_right (by exact_mod_cast hr) (le_of_lt hu)

/-- The rounding of a normal `q` does not leave the binade of `q` downwards. -/
theorem pow_le_binary32Pos {q : Rat} (hq : 0 < q) (hn : -126 ≤ Int.log 2 q) :
    2 ^ (Int.log 2 q) ≤ binary32Pos q := by
  have hle : (2 : Rat) ^ (Int.log 2 q) ≤ q := by
    have h1 : ((2 : Nat) : Rat) ^ (Int.log 2 q) ≤ q := Int.zpow_log_le_self (by norm_num) hq
    have h3 : (((2 : Nat) : Rat)) = 2 := by norm_num
    rwa [h3] at h1
  have hu := ulp32_pos q
  have hmax : max (Int.log 2 q) (-126) = Int.log 2 q := max_eq_left hn
  have hsplit : (2 : Rat) ^ (Int.log 2 q) = ((2 ^ 23 : Int) : Rat) * ulp32 q := by
    unfold ulp32
    have : ((2 ^ 23 : Int) : Rat) = (2 : Rat) ^ (23 : Int) := by norm_num
    rw [this, ← zpow_add₀ (by norm_num), hmax]
    congr 1
    omega
  have hr : 2 ^ 23 ≤ roundHalfEven (q / ulp32 q) := by
    have := roundHalfEven_mono (a := ((2 ^ 23 : Int) : Rat)) (b := q / ulp32 q)
      (by rw [le_div_iff₀ hu, ← hsplit]; exact hle)
    rwa [roundHalfEven_intCast] at this
  rw [hsplit]
  unfold binary32Pos
  exact mul_le_mul_of_nonneg_right (by exact_mod_cast hr) (le_of_lt hu)

theorem binary32Pos_mono {a b : Rat} (ha : 0 ≤ a) (h : a ≤ b) :
    binary32Pos a ≤ binary32Pos b := by
  rcases eq_or_lt_of_le ha with h0 | hpos
  · rw [← h0, binary32Pos_zero]
    exact binary32Pos_nonneg (le_trans ha h)
  · have hb : 0 < b := lt_of_lt_of_le hpos h
    have hlog : Int.log 2 a ≤ Int.log 2 b := Int.log_mono_right hpos h
    rcases eq_or_lt_of_le (max_le_max_right (-126) hlog) with he | hlt
    · have hu : ulp32 a = ulp32 b := by unfold ulp32; rw [he]
      unfold binary32Pos
      rw [hu]
      have hr := roundHalfEven_mono (a := a / ulp32 b) (b := b / ulp32 b)
        (div_le_div_of_nonneg_right h (le_of_lt (ulp32_pos b)))
      exact mul_le_mul_of_nonneg_right (by exact_mod_cast hr) (le_of_lt (ulp32_pos b))
    · have hn : -126 ≤ Int.log 2 b := by
        by_contra hc
        have h1 : max (Int.log 2 b) (-126) = -126 := max_eq_right (by omega)
        have h2 : -126 ≤ max (Int.log 2 a) (-126) := le_max_right _ _
        omega
      have hmax : max (Int.log 2 b) (-126) = Int.log 2 b := max_eq_left hn
      rw [hmax] at hlt
      calc binary32Pos a ≤ 2 ^ (max (Int.log 2 a) (-126) + 1) := binary32Pos_le_pow a
        _ ≤ 2 ^ (Int.log 2 b) := zpow_le_zpow_right₀ (by norm_num) (by omega)
        _ ≤ binary32Pos b := pow_le_binary32Pos hb hn

/-- Rounding to binary32 keeps the order. -/
theorem binary32_mono (a b : Rat) (h : a ≤ b) : binary32 a ≤ binary32 b := by
  unfold binary32
  split_ifs with ha hb hb
  · exact neg_le_neg (binary32Pos_mono (by linarith) (by linarith))
  · have h1 := binary32Pos_nonneg (q := -a) (by linarith)
    have h2 := binary32Pos_nonneg (q := b) (by linarith)
    linarith
  · exact absurd (lt_of_le_of_lt h hb) ha
  · exact binary32Pos_mono (by linarith) h

/-- The powers of two from 2^-126 on are binary32 numbers. -/
theorem binary32_pow (k : Int) (hk : -126 ≤ k) : binary32 (2 ^ k) = 2 ^ k := by
  have hpos : (0 : Rat) < 2 ^ k := zpow_pos (by norm_num) k
  have hlog : Int.log 2 ((2 : Rat) ^ k) = k := by
    have := Int.log_zpow (R := Rat) (b := 2) (by norm_num) k
    have h3 : (((2 : Nat) : Rat)) = 2 := by norm_num
    rwa [h3] at this
  unfold binary32
  rw [if_neg (not_lt.mpr (le_of_lt hpos))]
  unfold binary32Pos ulp32
  rw [hlog, max_eq_left hk]
  have hq : (2 : Rat) ^ k / 2 ^ (k - 23) = ((2 ^ 23 : Int) : Rat) := by
    have : ((2 ^ 23 : Int) : Rat) = (2 : Rat) ^ (23 : Int) := by norm_num
    rw [this, ← zpow_sub₀ (by norm_num)]
    congr 1
    omega
  rw [hq, roundHalfEven_intCast, ← hq]
  exact div_mul_cancel₀ _ (ne_of_gt (zpow_pos (by norm_num) _))

theorem binary32_zero : binary32 0 = 0 := by
  unfold binary32
  rw [if_neg (lt_irrefl 0), binary32Pos_zero]

theorem binary32_one : binary32 1 = 1 := by
  have := binary32_pow 0 (by norm_num)
  rwa [zpow_zero] at this

theorem binary32_two : binary32 2 = 2 := by
  have := binary32_pow 1 (by norm_num)
  rwa [zpow_one] at this

theorem binary32_half : binary32 (1 / 2) = 1 / 2 := by
  have := binary32_pow (-1) (by norm_num)
  have h : (2 : Rat) ^ (-1 : Int) = 1 / 2 := by norm_num
  rwa [h] at this

/-- Adding less than 2^-24 to 1 is lost in the rounding: half the spacing of binary32
at 1 is 2^-24. -/
theorem binary32_one_add_small (e : Rat) (h0 : 0 ≤ e) (h1 : e < 1 / 2 ^ 24) :
    binary32 (1 + e) = 1 := by
  have hpos : (0 : Rat) < 1 + e := by linarith
  have hsmall : e < 1 := lt_trans h1 (by norm_num)
  have hlog : Int.log 2 (1 + e) = 0 := by
    have h3 : (((2 : Nat) : Rat)) = 2 := by norm_num
    have hle : (0 : Int) ≤ Int.log 2 (1 + e) := by
      apply (Int.zpow_le_iff_le_log (R := Rat) (b := 2) (by norm_num) hpos).mp
      rw [h3, zpow_zero]
      linarith
    have hlt : Int.log 2 (1 + e) < 1 := by
      apply (Int.lt_zpow_iff_log_lt (R := Rat) (b := 2) (by norm_num) hpos).mp
      rw [h3, zpow_one]
      linarith
    omega
  unfold binary32
  rw [if_neg (not_lt.mpr (le_of_lt hpos))]
  unfold binary32Pos ulp32
  rw [hlog, max_eq_left (by norm_num)]
  have hu : (2 : Rat) ^ ((0 : Int) - 23) = 1 / 2 ^ 23 := by norm_num
  rw [hu]
  have hr : roundHalfEven ((1 + e) / (1 / 2 ^ 23)) = 2 ^ 23 := by
    apply roundHalfEven_eq
    · rw [le_div_iff₀ (by norm_num)]
      push_cast
      linarith
    · rw [div_lt_iff₀ (by norm_num)]
      push_cast
      linarith
  rw [hr]
  norm_num

/-! ## Claim on the sigmoid in float arithmetic -/

theorem exExp32_val (x : Rounded binary32) :
    (exExp32 x).val = binary32 (2 ^ ⌊x.val * (13 / 9)⌋) := rfl

theorem exExp32_nonneg (x : Rounded binary32) : 0 ≤ (exExp32 x).val := by
  rw [exExp32_val]
  have h := binary32_mono 0 (2 ^ ⌊x.val * (13 / 9)⌋) (le_of_lt (zpow_pos (by norm_num) _))
  rwa [binary32_zero] at h

theorem exExp32_mono (x y : Rounded binary32) (h : x.val ≤ y.val) :
    (exExp32 x).val ≤ (exExp32 y).val := by
  rw [exExp32_val, exExp32_val]
  apply binary32_mono
  apply zpow_le_zpow_right₀ (by norm_num)
  exact Int.floor_le_floor (mul_le_mul_of_nonneg_right h (by norm_num))

theorem exExp32_zero : (exExp32 ⟨0⟩).val = 1 := by
  rw [exExp32_val]
  show binary32 (2 ^ ⌊(0 : Rat) * (13 / 9)⌋) = 1
  rw [zero_mul, Int.floor_zero, zpow_zero, binary32_one]

theorem exExp32_at_neg20 : (exExp32 ⟨-20⟩).val = 1 / 2 ^ 29 := by
  rw [exExp32_val]
  show binary32 (2 ^ ⌊(-20 : Rat) * (13 / 9)⌋) = 1 / 2 ^ 29
  have hf : ⌊(-20 : Rat) * (13 / 9)⌋ = -29 := by
    rw [Int.floor_eq_iff]
    constructor <;> norm_num
  rw [hf, binary32_pow (-29) (by norm_num)]
  norm_num

section RoundedSigmoid

variable {Q : Type} [LinearOrderedField Q] {rnd : Q → Q}

/-- The value `sigmoidf` computes in rounded arithmetic: the sum and the quotient are
rounded, the negation is exact. -/
theorem sigmoidf_rounded_val (expf : Rounded rnd → Rounded rnd) (x : Rounded rnd) :
    (sigmoidf expf x).val = rnd (1 / rnd (1 + (expf (-x)).val)) := rfl

theorem neg_rounded_val (x : Rounded rnd) : (-x).val = -x.val := rfl

end RoundedSigmoid

/-- In binary32, whenever `expf(-x)` is below 2^-24, half the spacing of the floats at 1,
the sum `1.f + expf(-x)` rounds to `1.f` and `sigmoidf(x)` is 1. -/
theorem sigmoidf_binary32_saturates (expf : Rounded binary32 → Rounded binary32)
    (x : Rounded binary32) (h0 : 0 ≤ (expf (-x)).val) (h1 : (expf (-x)).val < 1 / 2 ^ 24) :
    (sigmoidf expf x).val = 1 := by
  rw [sigmoidf_rounded_val, binary32_one_add_small _ h0 h1, div_one, binary32_one]

/-- C18, the claim as stated fails in float arithmetic: in binary32, with `expf(-20)`
about 1.86e-9, the sum `1.f + expf(-20.f)` rounds to `1.f`, so `sigmoidf(20.f)` is 1
and not below 1, and `mat_sig` stores 1 in an element that held 20. -/
theorem sigmoidf_saturates_counterexample :
    (sigmoidf exExp32 (⟨20⟩ : Rounded binary32)).val = 1 ∧
    ¬ (sigmoidf exExp32 (⟨20⟩ : Rounded binary32)).val < 1 ∧
    (MAT_AT (mat_sig exExp32 exCell exMem32) exCell 0 0).val = 1 := by
  have hneg : (-(⟨20⟩ : Rounded binary32)) = ⟨-20⟩ := rfl
  have hs : (sigmoidf exExp32 (⟨20⟩ : Rounded binary32)).val = 1 := by
    apply sigmoidf_binary32_saturates
    · rw [hneg, exExp32_at_neg20]; norm_num
    · rw [hneg, exExp32_at_neg20]; norm_num
  refine ⟨hs, ?_, ?_⟩
  · rw [hs]
    exact lt_irrefl 1
  · have hcell : MAT_AT (mat_sig exExp32 exCell exMem32) exCell 0 0
        = sigmoidf exExp32 (MAT_AT exMem32 exCell 0 0) :=
      (mat_sig_spec exExp32 exCell exMem32 (by decide)).2 0 (by decide) 0 (by decide)
    rw [hcell]
    exact hs

/-- C18, amended: in float arithmetic, that is with every sum and quotient rounded by a
rounding `rnd` that keeps the order and leaves 0, 1/2, 1 and 2 as they are, and with an
`expf` that is nonnegative, increasing and 1 at 0, the function
`sigmoidf(x) = 1 / (1 + expf(-x))` satisfies `0 <= sigmoidf(x) <= 1` for every `x`, it
is monotonically increasing, and `sigmoidf(0) == 0.5`; consequently after `mat_sig(m)`
every in-range element of a matrix `m` (stride at least cols) lies in the closed
interval from 0 to 1. In exact arithmetic, when `rnd` changes nothing and `expf` is
positive, the bounds are strict. -/
theorem sigmoidf_closed_unit_interval {Q : Type} [LinearOrderedField Q] (rnd : Q → Q)
    (hrnd : ∀ a b, a ≤ b → rnd a ≤ rnd b)
    (hr0 : rnd 0 = 0) (hrh : rnd (1 / 2) = 1 / 2) (hr1 : rnd 1 = 1) (hr2 : rnd 2 = 2)
    (expf : Rounded rnd → Rounded rnd)
    (hnn : ∀ x, 0 ≤ (expf x).val)
    (hmono : ∀ x y, x.val ≤ y.val → (expf x).val ≤ (expf y).val)
    (h0 : (expf ⟨0⟩).val = 1)
    (m : Mat) (hs : m.cols ≤ m.stride) (mem : Mem (Rounded rnd)) :
    (∀ x, 0 ≤ (sigmoidf expf x).val ∧ (sigmoidf expf x).val ≤ 1) ∧
    (∀ x y, x.val ≤ y.val → (sigmoidf expf x).val ≤ (sigmoidf expf y).val) ∧
    (sigmoidf expf ⟨0⟩).val = 1 / 2 ∧
    (∀ i, i < m.rows → ∀ j, j < m.cols →
      0 ≤ (MAT_AT (mat_sig expf m mem) m i j).val ∧
      (MAT_AT (mat_sig expf m mem) m i j).val ≤ 1) ∧
    ((∀ q, rnd q = q) → (∀ x, 0 < (expf x).val) →
      ∀ x, 0 < (sigmoidf expf x).val ∧ (sigmoidf expf x).val < 1) := by
  have hden : ∀ x : Rounded rnd, 1 ≤ rnd (1 + (expf (-x)).val) := by
    intro x
    have h := hrnd 1 (1 + (expf (-x)).val) (by linarith [hnn (-x)])
    rwa [hr1] at h
  have hrange : ∀ x, 0 ≤ (sigmoidf expf x).val ∧ (sigmoidf expf x).val ≤ 1 := by
    intro x
    rw [sigmoidf_rounded_val]
    have hd := hden x
    have hpos : (0 : Q) < rnd (1 + (expf (-x)).val) := lt_of_lt_of_le one_pos hd
    constructor
    · have h := hrnd 0 (1 / rnd (1 + (expf (-x)).val)) (le_of_lt (one_div_pos.mpr hpos))
      rwa [hr0] at h
    · have h := hrnd (1 / rnd (1 + (expf (-x)).val)) 1 ((div_le_one hpos).mpr hd)
      rwa [hr1] at h
  refine ⟨hrange, ?_, ?_, ?_, ?_⟩
  · intro x y hxy
    rw [sigmoidf_rounded_val, sigmoidf_rounded_val]
    have he : (expf (-y)).val ≤ (expf (-x)).val :=
      hmono (-y) (-x) (by rw [neg_rounded_val, neg_rounded_val]; exact neg_le_neg hxy)
    have hd : rnd (1 + (expf (-y)).val) ≤ rnd (1 + (expf (-x)).val) :=
      hrnd _ _ (by linarith)
    have hpos : (0 : Q) < rnd (1 + (expf (-y)).val) := lt_of_lt_of_le one_pos (hden y)
    exact hrnd _ _ (one_div_le_one_div_of_le hpos hd)
  · rw [sigmoidf_rounded_val]
    have hneg : (-(⟨0⟩ : Rounded rnd)) = ⟨0⟩ := by
      show (⟨-0⟩ : Rounded rnd) = ⟨0⟩
      rw [neg_zero]
    rw [hneg, h0]
    have h11 : (1 : Q) + 1 = 2 := by norm_num
    rw [h11, hr2, hrh]
  · intro i hi j hj
    show 0 ≤ (mat_sig expf m mem (m.addr i j)).val ∧ (mat_sig expf m mem (m.addr i j)).val ≤ 1
    rw [(mat_sig_spec expf m mem hs).2 i hi j hj]
    exact hrange _
  · intro hid hpos x
    rw [sigmoidf_rounded_val, hid, hid]
    have he := hpos (-x)
    have hd : (0 : Q) < 1 + (expf (-x)).val := by linarith
    exact ⟨one_div_pos.mpr hd, (div_lt_one hd).mpr (by linarith)⟩

/-- C18, an instance: binary32 arithmetic, the stand-in `exExp32` for `expf`, and the
strided 4x2 view over a memory that holds 20 in every cell. -/
theorem sigmoidf_closed_unit_interval_witness :
    (∀ x, 0 ≤ (sigmoidf exExp32 x).val ∧ (sigmoidf exExp32 x).val ≤ 1) ∧
    (∀ x y, x.val ≤ y.val → (sigmoidf exExp32 x).val ≤ (sigmoidf exExp32 y).val) ∧
    (sigmoidf exExp32 ⟨0⟩).val = 1 / 2 ∧
    (∀ i, i < exView.rows → ∀ j, j < exView.cols →
      0 ≤ (MAT_AT (mat_sig exExp32 exView exMem32) exView i j).val ∧
      (MAT_AT (mat_sig exExp32 exView exMem32) exView i j).val ≤ 1) ∧
    ((∀ q, binary32 q = q) → (∀ x, 0 < (exExp32 x).val) →
      ∀ x, 0 < (sigmoidf exExp32 x).val ∧ (sigmoidf exExp32 x).val < 1) :=
  sigmoidf_closed_unit_interval binary32 binary32_mono binary32_zero binary32_half
    binary32_one binary32_two exExp32 exExp32_nonneg exExp32_mono exExp32_zero exView
    (by decide) exMem32

/-! ## Evaluating binary32 arithmetic -/

section RoundedVal

variable {Q : Type} {rnd : Q → Q}

theorem Rounded.eq_of_val {x y : Rounded rnd} (h : x.val = y.val) : x = y := by
  cases x; cases y
  cases h
  rfl

theorem Rounded.zero_val [Zero Q] : (0 : Rounded rnd).val = 0 := rfl

theorem Rounded.one_val [One Q] : (1 : Rounded rnd).val = 1 := rfl

theorem Rounded.add_val [Add Q] (x y : Rounded rnd) : (x + y).val = rnd (x.val + y.val) := rfl

theorem Rounded.sub_val [Sub Q] (x y : Rounded rnd) : (x - y).val = rnd (x.val - y.val) := rfl

theorem Rounded.mul_val [Mul Q] (x y : Rounded rnd) : (x * y).val = rnd (x.val * y.val) := rfl

theorem Rounded.div_val [Div Q] (x y : Rounded rnd) : (x / y).val = rnd (x.val / y.val) := rfl

theorem Rounded.neg_val [Neg Q] (x : Rounded rnd) : (-x).val = -x.val := rfl

theorem Rounded.natCast_val [NatCast Q] (n : Nat) :
    ((n : Rounded rnd)).val = rnd (n : Q) := rfl

end RoundedVal

/-- The integer within less than a half above `q` is the rounding of `q`. -/
theorem roundHalfEven_eq_up {q : Rat} {n : Int} (h1 : (n : Rat) - 1 / 2 < q) (h2 : q ≤ (n : Rat)) :
    roundHalfEven q = n := by
  rcases eq_or_lt_of_le h2 with he | hlt
  · rw [he, roundHalfEven_intCast]
  · have hf : ⌊q⌋ = n - 1 := Int.floor_eq_iff.mpr ⟨by push_cast; linarith, by push_cast; linarith⟩
    unfold roundHalfEven
    rw [hf, if_neg (by push_cast; linarith), if_pos (by push_cast; linarith)]
    omega

/-- A tie goes to the even neighbour. -/
theorem roundHalfEven_tie {q : Rat} {n : Int} (h : q = (n : Rat) + 1 / 2) (he : n % 2 = 0) :
    roundHalfEven q = n := by
  have hf : ⌊q⌋ = n := Int.floor_eq_iff.mpr ⟨by linarith, by linarith⟩
  unfold roundHalfEven
  rw [hf, if_neg (by linarith), if_neg (by linarith), if_pos he]

theorem binary32_of_nonneg {q : Rat} (h : 0 ≤ q) : binary32 q = binary32Pos q := by
  unfold binary32
  rw [if_neg (not_lt.mpr h)]

theorem binary32_neg (q : Rat) : binary32 (-q) = -binary32 q := by
  rcases lt_trichotomy q 0 with h | h | h
  · unfold binary32
    rw [if_neg (by linarith), if_pos h, neg_neg]
  · rw [h, neg_zero, binary32_zero, neg_zero]
  · unfold binary32
    rw [if_pos (by linarith), if_neg (by linarith), neg_neg]

theorem log2_eq {q : Rat} {e : Int} (hlo : (2 : Rat) ^ e ≤ q) (hhi : q < 2 ^ (e + 1)) :
    Int.log 2 q = e := by
  have hpos : 0 < q := lt_of_lt_of_le (zpow_pos (by norm_num) e) hlo
  have h3 : (((2 : Nat) : Rat)) = 2 := by norm_num
  have hle : e ≤ Int.log 2 q := by
    apply (Int.zpow_le_iff_le_log (R := Rat) (b := 2) (by norm_num) hpos).mp
    rwa [h3]
  have hlt : Int.log 2 q < e + 1 := by
    apply (Int.lt_zpow_iff_log_lt (R := Rat) (b := 2) (by norm_num) hpos).mp
    rwa [h3]
  omega

/-- The rounding of a number `q` of the binade `2^e <= q < 2^(e+1)`, `e >= -126`, from
the rounding of `q / 2^(e-23)` to an integer. -/
theorem binary32_eq {q v : Rat} (e n : Int) (he : -126 ≤ e) (hlo : (2 : Rat) ^ e ≤ q)
    (hhi : q < 2 ^ (e + 1)) (hr : roundHalfEven (q / 2 ^ (e - 23)) = n)
    (hv : (n : Rat) * 2 ^ (e - 23) = v) : binary32 q = v := by
  have hpos : 0 < q := lt_of_lt_of_le (zpow_pos (by norm_num) e) hlo
  rw [binary32_of_nonneg (le_of_lt hpos)]
  unfold binary32Pos ulp32
  rw [log2_eq hlo hhi, max_eq_left he, hr, hv]

theorem binary32Pos_idem {q : Rat} (hq : 0 ≤ q) : binary32Pos (binary32Pos q) = binary32Pos q := by
  rcases eq_or_lt_of_le hq with h0 | hpos
  · rw [← h0, binary32Pos_zero, binary32Pos_zero]
  · have hv0 : 0 ≤ binary32Pos q := binary32Pos_nonneg hq
    rcases eq_or_lt_of_le hv0 with hz | hvpos
    · rw [← hz, binary32Pos_zero]
    · have hu := ulp32_pos q
      have hup := binary32Pos_le_pow q
      rcases eq_or_lt_of_le hup with heq | hlt
      · rw [heq]
        have := binary32_pow (max (Int.log 2 q) (-126) + 1)
          (by have := le_max_right (Int.log 2 q) (-126); omega)
        rwa [binary32_of_nonneg (le_of_lt (zpow_pos (by norm_num) _))] at this
      · have h3 : (((2 : Nat) : Rat)) = 2 := by norm_num
        have hlog1 : Int.log 2 (binary32Pos q) < max (Int.log 2 q) (-126) + 1 := by
          apply (Int.lt_zpow_iff_log_lt (R := Rat) (b := 2) (by norm_num) hvpos).mp
          rwa [h3]
        have hmax : max (Int.log 2 (binary32Pos q)) (-126) = max (Int.log 2 q) (-126) := by
          rcases le_or_lt (-126) (Int.log 2 q) with hn | hs
          · have hlow := pow_le_binary32Pos hpos hn
            have hlog2 : Int.log 2 q ≤ Int.log 2 (binary32Pos q) := by
              apply (Int.zpow_le_iff_le_log (R := Rat) (b := 2) (by norm_num) hvpos).mp
              rwa [h3]
            rw [max_eq_left hn] at hlog1 ⊢
            rw [max_eq_left (by omega)]
            omega
          · rw [max_eq_right (le_of_lt hs)] at hlog1 ⊢
            exact max_eq_right (by omega)
        have hulp : ulp32 (binary32Pos q) = ulp32 q := by
          unfold ulp32
          rw [hmax]
        have hval : binary32Pos q / ulp32 q = ((roundHalfEven (q / ulp32 q) : Int) : Rat) := by
          unfold binary32Pos
          exact mul_div_cancel_right₀ _ (ne_of_gt hu)
        have step : binary32Pos (binary32Pos q)
            = (roundHalfEven (binary32Pos q / ulp32 (binary32Pos q)) : Rat)
              * ulp32 (binary32Pos q) := rfl
        rw [step, hulp, hval, roundHalfEven_intCast]
        rfl

/-- Rounding a binary32 number changes nothing. -/
theorem binary32_idem (q : Rat) : binary32 (binary32 q) = binary32 q := by
  rcases lt_or_le q 0 with h | h
  · have hq : binary32 q = -binary32Pos (-q) := by
      unfold binary32
      rw [if_pos h]
    rw [hq, binary32_neg, binary32_of_nonneg (binary32Pos_nonneg (by linarith)),
      binary32Pos_idem (by linarith)]
  · rw [binary32_of_nonneg h, binary32_of_nonneg (binary32Pos_nonneg h), binary32Pos_idem h]

/-! ## Claim on `mat_rand` in float arithmetic -/

section RandRounded

variable {Q : Type} [LinearOrderedField Q] {rnd : Q → Q}

/-- In rounded arithmetic the value `rand_float() * (high - low) + low` for a result
`r <= RAND_MAX` of `rand()` lies between `low` and the float value of
`(high - low) + low`. -/
theorem rand_value_bounds_rounded (hrnd : ∀ a b, a ≤ b → rnd a ≤ rnd b) (hr0 : rnd 0 = 0)
    (hr1 : rnd 1 = 1) (hidem : ∀ q, rnd (rnd q) = rnd q) (RAND_MAX r : Nat)
    (hRM : 0 < RAND_MAX) (hr : r ≤ RAND_MAX) (low high : Rounded rnd)
    (hlow : rnd low.val = low.val) (hlh : low.val < high.val) :
    low.val ≤ (rand_float RAND_MAX r * (high - low) + low).val ∧
    (rand_float RAND_MAX r * (high - low) + low).val ≤ ((high - low) + low).val := by
  have hval : (rand_float RAND_MAX r * (high - low) + low).val
      = rnd (rnd (rnd (rnd (r : Q) / rnd (RAND_MAX : Q)) * rnd (high.val - low.val))
          + low.val) := rfl
  have hup : ((high - low) + low).val = rnd (rnd (high.val - low.val) + low.val) := rfl
  rw [hval, hup]
  have hd : 0 ≤ rnd (high.val - low.val) := by
    have := hrnd 0 (high.val - low.val) (by linarith)
    rwa [hr0] at this
  have hRM1 : (1 : Q) ≤ rnd (RAND_MAX : Q) := by
    have := hrnd 1 (RAND_MAX : Q) (by exact_mod_cast hRM)
    rwa [hr1] at this
  have hRMpos : (0 : Q) < rnd (RAND_MAX : Q) := lt_of_lt_of_le one_pos hRM1
  have hr0' : 0 ≤ rnd (r : Q) := by
    have := hrnd 0 (r : Q) (Nat.cast_nonneg r)
    rwa [hr0] at this
  have hrle : rnd (r : Q) ≤ rnd (RAND_MAX : Q) := hrnd _ _ (by exact_mod_cast hr)
  have ht0 : 0 ≤ rnd (rnd (r : Q) / rnd (RAND_MAX : Q)) := by
    have := hrnd 0 _ (div_nonneg hr0' (le_of_lt hRMpos))
    rwa [hr0] at this
  have ht1 : rnd (rnd (r : Q) / rnd (RAND_MAX : Q)) ≤ 1 := by
    have := hrnd _ 1 ((div_le_one hRMpos).mpr hrle)
    rwa [hr1] at this
  have hp0 : 0 ≤ rnd (rnd (rnd (r : Q) / rnd (RAND_MAX : Q)) * rnd (high.val - low.val)) := by
    have := hrnd 0 _ (mul_nonneg ht0 hd)
    rwa [hr0] at this
  have hp1 : rnd (rnd (rnd (r : Q) / rnd (RAND_MAX : Q)) * rnd (high.val - low.val))
      ≤ rnd (high.val - low.val) := by
    have := hrnd _ _ (mul_le_of_le_one_left hd ht1)
    rwa [hidem] at this
  constructor
  · have := hrnd low.val
      (rnd (rnd (rnd (r : Q) / rnd (RAND_MAX : Q)) * rnd (high.val - low.val)) + low.val)
      (by linarith)
    rwa [hlow] at this
  · exact hrnd _ _ (by linarith)

end RandRounded

theorem exLow32_float : binary32 exLow32.val = exLow32.val := by
  show binary32 (-1) = -1
  rw [binary32_neg, binary32_one]

theorem exLow32_lt_exHigh32 : exLow32.val < exHigh32.val := by
  show (-1 : Rat) < 3 / 2 ^ 25
  norm_num

/-- In binary32 the value `mat_rand` writes can exceed `high`: with `low = -1`,
`high = 3 * 2^-25` and `rand()` returning `RAND_MAX = 0x7FFF`, the difference
`high - low` rounds up to `1 + 2^-23` and the value written is `2^-23`. -/
theorem rand_value_above_high_binary32 :
    (rand_float 32767 32767 * (exHigh32 - exLow32) + exLow32).val = 1 / 2 ^ 23 ∧
    exHigh32.val < (rand_float 32767 32767 * (exHigh32 - exLow32) + exLow32).val := by
  have hval : (rand_float 32767 32767 * (exHigh32 - exLow32) + exLow32).val
      = binary32 (binary32 (binary32 (binary32 ((32767 : Nat) : Rat) / binary32 ((32767 : Nat) : Rat))
          * binary32 (3 / 2 ^ 25 - (-1))) + (-1)) := rfl
  have h32767 : binary32 ((32767 : Nat) : Rat) = 32767 :=
    binary32_eq 14 16776704 (by norm_num) (by norm_num) (by norm_num)
      (roundHalfEven_eq (by norm_num) (by norm_num)) (by norm_num)
  have hd : binary32 (3 / 2 ^ 25 - (-1)) = 8388609 / 8388608 :=
    binary32_eq 0 8388609 (by norm_num) (by norm_num) (by norm_num)
      (roundHalfEven_eq_up (by norm_num) (by norm_num)) (by norm_num)
  have hp : binary32 (8388609 / 8388608) = 8388609 / 8388608 :=
    binary32_eq 0 8388609 (by norm_num) (by norm_num) (by norm_num)
      (roundHalfEven_eq (by norm_num) (by norm_num)) (by norm_num)
  have hlast : binary32 (1 / 8388608) = 1 / 8388608 := by
    have := binary32_pow (-23) (by norm_num)
    have h : (2 : Rat) ^ (-23 : Int) = 1 / 8388608 := by norm_num
    rwa [h] at this
  have hv : (rand_float 32767 32767 * (exHigh32 - exLow32) + exLow32).val = 1 / 2 ^ 23 := by
    rw [hval, h32767, div_self (by norm_num), binary32_one, hd, one_mul, hp]
    have h2 : (8388609 / 8388608 + (-1) : Rat) = 1 / 8388608 := by norm_num
    rw [h2, hlast]
    norm_num
  refine ⟨hv, ?_⟩
  rw [hv]
  show (3 : Rat) / 2 ^ 25 < 1 / 2 ^ 23
  norm_num

/-- C17, amended: in float arithmetic without overflow, that is with every result rounded
by a rounding `rnd` that keeps the order, leaves 0 and 1 as they are and leaves a rounded
number as it is, `mat_rand` (and `nn_rand` on every weight and bias) sets every element to a value
between `low` and the float value of `(high - low) + low`, both ends included. For floats
`low < high` and every result `r` of `rand()` with `0 <= r <= RAND_MAX` the value
`v = rand_float() * (high - low) + low` satisfies `low <= v <= (high - low) + low`; so
does every in-range element of `m` after `mat_rand(m, low, high)`, and every weight and
bias of `nn` after `nn_rand(nn, low, high)`. -/
theorem mat_rand_float_interval {Q : Type} [LinearOrderedField Q] (rnd : Q → Q)
    (hrnd : ∀ a b, a ≤ b → rnd a ≤ rnd b) (hr0 : rnd 0 = 0) (hr1 : rnd 1 = 1)
    (hidem : ∀ q, rnd (rnd q) = rnd q) (RAND_MAX : Nat) (rs : Nat → Nat)
    (hRM : 0 < RAND_MAX) (hrs : ∀ k, rs k ≤ RAND_MAX) (low high : Rounded rnd)
    (hlow : rnd low.val = low.val) (hlh : low.val < high.val) (m : Mat)
    (hs : m.cols ≤ m.stride) (nn : NN) (hown : nn.owned) (st : Mem (Rounded rnd) × Nat) :
    (∀ r, r ≤ RAND_MAX →
      low.val ≤ (rand_float RAND_MAX r * (high - low) + low).val ∧
      (rand_float RAND_MAX r * (high - low) + low).val ≤ ((high - low) + low).val) ∧
    (∀ i, i < m.rows → ∀ j, j < m.cols →
      low.val ≤ (MAT_AT (mat_rand RAND_MAX rs m low high st).1 m i j).val ∧
      (MAT_AT (mat_rand RAND_MAX rs m low high st).1 m i j).val ≤ ((high - low) + low).val) ∧
    (∀ l, l < nn.count →
      (∀ j, j < (nn.ws l).rows → ∀ k, k < (nn.ws l).cols →
        low.val ≤ (MAT_AT (nn_rand RAND_MAX rs nn low high st).1 (nn.ws l) j k).val ∧
        (MAT_AT (nn_rand RAND_MAX rs nn low high st).1 (nn.ws l) j k).val
          ≤ ((high - low) + low).val) ∧
      (∀ j, j < (nn.bs l).rows → ∀ k, k < (nn.bs l).cols →
        low.val ≤ (MAT_AT (nn_rand RAND_MAX rs nn low high st).1 (nn.bs l) j k).val ∧
        (MAT_AT (nn_rand RAND_MAX rs nn low high st).1 (nn.bs l) j k).val
          ≤ ((high - low) + low).val)) := by
  have hb : ∀ r, r ≤ RAND_MAX →
      low.val ≤ (rand_float RAND_MAX r * (high - low) + low).val ∧
      (rand_float RAND_MAX r * (high - low) + low).val ≤ ((high - low) + low).val :=
    fun r hr => rand_value_bounds_rounded hrnd hr0 hr1 hidem RAND_MAX r hRM hr low high hlow hlh
  refine ⟨hb, ?_, ?_⟩
  · intro i hi j hj
    show low.val ≤ ((mat_rand RAND_MAX rs m low high st).1 (m.addr i j)).val ∧
      ((mat_rand RAND_MAX rs m low high st).1 (m.addr i j)).val ≤ ((high - low) + low).val
    rw [(mat_rand_spec RAND_MAX rs m hs low high st.1 st.2).2.2 i hi j hj]
    exact hb _ (hrs _)
  · exact nn_rand_all RAND_MAX rs nn hown low high
      (fun v => low.val ≤ v.val ∧ v.val ≤ ((high - low) + low).val)
      (fun r => hb _ (hrs r)) st

/-- C17 amended, an instance: binary32, `RAND_MAX = 0x7FFF`, the interval from -1 to
3 * 2^-25, the strided 4x2 view and the {2, 2, 1} network. -/
theorem mat_rand_float_interval_witness :
    (∀ r, r ≤ 32767 →
      exLow32.val ≤ (rand_float 32767 r * (exHigh32 - exLow32) + exLow32).val ∧
      (rand_float 32767 r * (exHigh32 - exLow32) + exLow32).val
        ≤ ((exHigh32 - exLow32) + exLow32).val) ∧
    (∀ i, i < exView.rows → ∀ j, j < exView.cols →
      exLow32.val ≤ (MAT_AT (mat_rand 32767 exRnd exView exLow32 exHigh32 (exMem32, 0)).1
        exView i j).val ∧
      (MAT_AT (mat_rand 32767 exRnd exView exLow32 exHigh32 (exMem32, 0)).1 exView i j).val
        ≤ ((exHigh32 - exLow32) + exLow32).val) ∧
    (∀ l, l < exNet.count →
      (∀ j, j < (exNet.ws l).rows → ∀ k, k < (exNet.ws l).cols →
        exLow32.val ≤ (MAT_AT (nn_rand 32767 exRnd exNet exLow32 exHigh32 (exMem32, 0)).1
          (exNet.ws l) j k).val ∧
        (MAT_AT (nn_rand 32767 exRnd exNet exLow32 exHigh32 (exMem32, 0)).1
          (exNet.ws l) j k).val ≤ ((exHigh32 - exLow32) + exLow32).val) ∧
      (∀ j, j < (exNet.bs l).rows → ∀ k, k < (exNet.bs l).cols →
        exLow32.val ≤ (MAT_AT (nn_rand 32767 exRnd exNet exLow32 exHigh32 (exMem32, 0)).1
          (exNet.bs l) j k).val ∧
        (MAT_AT (nn_rand 32767 exRnd exNet exLow32 exHigh32 (exMem32, 0)).1
          (exNet.bs l) j k).val ≤ ((exHigh32 - exLow32) + exLow32).val)) :=
  mat_rand_float_interval binary32 binary32_mono binary32_zero binary32_one binary32_idem
    32767 exRnd (by decide) (fun k => Nat.le_of_lt_succ (Nat.mod_lt _ (by decide)))
    exLow32 exHigh32 exLow32_float exLow32_lt_exHigh32 exView (by decide) exNet (by decide)
    (exMem32, 0)

/-! ## Claim on the sign of the cost in float arithmetic -/

section CostRounded

variable {Q : Type} [LinearOrderedField Q] {rnd : Q → Q}

end CostRounded

theorem binary32_1e8 : binary32 100000000 = 100000000 :=
  binary32_eq 26 12500000 (by norm_num) (by norm_num) (by norm_num)
    (roundHalfEven_eq (by norm_num) (by norm_num)) (by norm_num)

theorem binary32_1e8_add_one : binary32 100000001 = 100000000 :=
  binary32_eq 26 12500000 (by norm_num) (by norm_num) (by norm_num)
    (roundHalfEven_eq (by norm_num) (by norm_num)) (by norm_num)

/-- In binary32 the accumulation of `1e8 * 1`, `1 * 1` and `-1e8 * 1` from 0 ends at 0:
the 1 is lost when it is added to 1e8. -/
theorem dotAcc_cancel :
    (dotAcc 3 (fun k => exMemCancel (exRowA.addr 0 k))
      (fun k => exMemCancel (exColB.addr k 0))).val = 0 := by
  have h : (dotAcc 3 (fun k => exMemCancel (exRowA.addr 0 k))
      (fun k => exMemCancel (exColB.addr k 0))).val
      = binary32 (binary32 (binary32 (0 + binary32 (100000000 * 1)) + binary32 (1 * 1))
          + binary32 (-100000000 * 1)) := rfl
  rw [h, mul_one, binary32_1e8, zero_add, binary32_1e8, mul_one, binary32_one]
  have h1 : (100000000 + 1 : Rat) = 100000001 := by norm_num
  rw [h1, binary32_1e8_add_one, mul_one, binary32_neg, binary32_1e8, add_neg_cancel,
    binary32_zero]

/-- C1, the claim as stated fails in float arithmetic: in binary32, for the 1x3 row
(1e8, 1, -1e8) and the 3x1 column (1, 1, 1), all numbers of binary32, the shapes fit and
`dest` shares no cell with the operands, the sum over `k` of `a[0][k] * b[k][0]` is 1,
and `mat_dot` leaves 0 in `dest[0][0]`. -/
theorem mat_dot_exact_sum_counterexample :
    exRowA.cols = exColB.rows ∧ exDot.rows = exRowA.rows ∧ exDot.cols = exColB.cols ∧
    exDot.disj exRowA ∧ exDot.disj exColB ∧
    (∑ k in Finset.range exRowA.cols,
      (MAT_AT exMemCancel exRowA 0 k).val * (MAT_AT exMemCancel exColB k 0).val) = 1 ∧
    ∃ mem', mat_dot exDot exRowA exColB exMemCancel = .ok mem' ∧
      (MAT_AT mem' exDot 0 0).val = 0 := by
  refine ⟨by decide, by decide, by decide, by decide, by decide, ?_, ?_⟩
  · have h : (∑ k in Finset.range exRowA.cols,
        (MAT_AT exMemCancel exRowA 0 k).val * (MAT_AT exMemCancel exColB k 0).val)
        = (0 + (100000000 : Rat) * 1 + 1 * 1) + (-100000000) * 1 := by
      show (∑ k in Finset.range 3, _) = _
      rw [Finset.sum_range_succ, Finset.sum_range_succ, Finset.sum_range_succ,
        Finset.sum_range_zero]
      rfl
    rw [h]
    norm_num
  · obtain ⟨mem', hok, _, hval⟩ := mat_dot_spec exDot exRowA exColB exMemCancel
      (by decide) (by decide) (by decide) (by decide) (by decide) (by decide)
    refine ⟨mem', hok, ?_⟩
    show (mem' (exDot.addr 0 0)).val = 0
    rw [hval 0 (by decide) 0 (by decide)]
    exact dotAcc_cancel

/-- C1, amended: for matrices with `a.cols == b.rows`, `dest.rows == a.rows`,
`dest.cols == b.cols`, `dest` a matrix (stride at least cols) that shares no cell with
`a` or `b`, `mat_dot` returns and every element `dest[i][j]` is the value of the float
accumulation `acc = 0; acc = acc + a[i][k] * b[k][j]` for `k = 0, ..., a.cols - 1` in
this order, with the operations of `float` whatever they are (every product and every
partial sum rounded), whatever `dest` held before; the operands are untouched; the
element is 0 when `a.cols == 0`, and for 1x1 matrices it is `0 + a[0][0] * b[0][0]`. -/
theorem mat_dot_accumulates {F : Type} [Zero F] [Add F] [Mul F] (dest a b : Mat) (mem : Mem F)
    (h1 : a.cols = b.rows) (h2 : dest.rows = a.rows) (h3 : dest.cols = b.cols)
    (hs : dest.cols ≤ dest.stride) (hda : dest.disj a) (hdb : dest.disj b) :
    ∃ mem', mat_dot dest a b mem = .ok mem' ∧
      (∀ i, i < dest.rows → ∀ j, j < dest.cols →
        MAT_AT mem' dest i j
          = forLoop a.cols (fun k acc => acc + MAT_AT mem a i k * MAT_AT mem b k j) 0) ∧
      (∀ x, ¬ dest.owns x → mem' x = mem x) ∧
      (a.cols = 0 → ∀ i, i < dest.rows → ∀ j, j < dest.cols → MAT_AT mem' dest i j = 0) ∧
      (dest.rows = 1 → dest.cols = 1 → a.cols = 1 →
        MAT_AT mem' dest 0 0 = 0 + MAT_AT mem a 0 0 * MAT_AT mem b 0 0) := by
  obtain ⟨mem', hok, hframe, hval⟩ := mat_dot_spec dest a b mem h1 h2 h3 hs hda hdb
  have hacc : ∀ i, i < dest.rows → ∀ j, j < dest.cols →
      MAT_AT mem' dest i j
        = forLoop a.cols (fun k acc => acc + MAT_AT mem a i k * MAT_AT mem b k j) 0 :=
    fun i hi j hj => hval i hi j hj
  refine ⟨mem', hok, hacc, hframe, ?_, ?_⟩
  · intro h0 i hi j hj
    rw [hacc i hi j hj, h0]
    rfl
  · intro hr hc hn
    rw [hacc 0 (by omega) 0 (by omega), hn]
    rfl

/-- C1 amended, an instance: the row (1e8, 1, -1e8) times the column (1, 1, 1) in
binary32. -/
theorem mat_dot_accumulates_witness :
    ∃ mem', mat_dot exDot exRowA exColB exMemCancel = .ok mem' ∧
      (∀ i, i < exDot.rows → ∀ j, j < exDot.cols →
        MAT_AT mem' exDot i j
          = forLoop exRowA.cols
              (fun k acc => acc + MAT_AT exMemCancel exRowA i k * MAT_AT exMemCancel exColB k j)
              0) ∧
      (∀ x, ¬ exDot.owns x → mem' x = exMemCancel x) ∧
      (exRowA.cols = 0 → ∀ i, i < exDot.rows → ∀ j, j < exDot.cols →
        MAT_AT mem' exDot i j = 0) ∧
      (exDot.rows = 1 → exDot.cols = 1 → exRowA.cols = 1 →
        MAT_AT mem' exDot 0 0
          = 0 + MAT_AT exMemCancel exRowA 0 0 * MAT_AT exMemCancel exColB 0 0) :=
  mat_dot_accumulates exDot exRowA exColB exMemCancel (by decide) (by decide) (by decide)
    (by decide) (by decide) (by decide)

theorem binary32_five_quarters : binary32 (5 / 4) = 5 / 4 :=
  binary32_eq 0 10485760 (by norm_num) (by norm_num) (by norm_num)
    (roundHalfEven_eq (by norm_num) (by norm_num)) (by norm_num)

theorem binary32_three_quarters : binary32 (3 / 4) = 3 / 4 :=
  binary32_eq (-1) 12582912 (by norm_num) (by norm_num) (by norm_num)
    (roundHalfEven_eq (by norm_num) (by norm_num)) (by norm_num)

/-- In binary32 with the stand-in `exExp32`, `sigmoidf(0)` is 1/2. -/
theorem sigmoidf_exExp32_zero : (sigmoidf exExp32 (⟨0⟩ : Rounded binary32)).val = 1 / 2 := by
  rw [sigmoidf_rounded_val]
  have hneg : (-(⟨0⟩ : Rounded binary32)) = ⟨0⟩ := by
    show (⟨-0⟩ : Rounded binary32) = ⟨0⟩
    rw [neg_zero]
  rw [hneg, exExp32_zero]
  have h11 : (1 : Rat) + 1 = 2 := by norm_num
  rw [h11, binary32_two, binary32_half]

/-- In binary32 with the stand-in `exExp32`, `sigmoidf(1)` is above 1/2. -/
theorem sigmoidf_exExp32_one : 1 / 2 < (sigmoidf exExp32 (⟨1⟩ : Rounded binary32)).val := by
  rw [sigmoidf_rounded_val]
  have hneg : (-(⟨1⟩ : Rounded binary32)) = ⟨-1⟩ := rfl
  have he : (exExp32 ⟨-1⟩).val = 1 / 4 := by
    rw [exExp32_val]
    show binary32 (2 ^ ⌊(-1 : Rat) * (13 / 9)⌋) = 1 / 4
    have hf : ⌊(-1 : Rat) * (13 / 9)⌋ = -2 := by
      rw [Int.floor_eq_iff]
      constructor <;> norm_num
    rw [hf, binary32_pow (-2) (by norm_num)]
    norm_num
  rw [hneg, he]
  have h1 : (1 : Rat) + 1 / 4 = 5 / 4 := by norm_num
  rw [h1, binary32_five_quarters]
  have h2 := binary32_mono (3 / 4) (1 / (5 / 4)) (by norm_num)
  rw [binary32_three_quarters] at h2
  exact lt_of_lt_of_le (by norm_num) h2

/-- C2, the claim as stated fails in float arithmetic: in binary32, on the {3, 1} network
with the input row (1e8, 1, -1e8), weights 1 and bias 0, a well-formed network, the sum
over `k` of `activations[0][0][k] * weights[0][k][0]` plus the bias is 1, and
`nn_forward` leaves `sigmoidf(0) = 1/2` in the output, which is not `sigmoidf(1)`. -/
theorem nn_forward_exact_sum_counterexample :
    exNet31.shapeOK ∧ exNet31.owned ∧
    (∑ k in Finset.range (exNet31.as 0).cols,
      (MAT_AT exMemCancel (exNet31.as 0) 0 k).val * (MAT_AT exMemCancel (exNet31.ws 0) k 0).val)
      + (MAT_AT exMemCancel (exNet31.bs 0) 0 0).val = 1 ∧
    (sigmoidf exExp32 (⟨1⟩ : Rounded binary32)).val ≠ 1 / 2 ∧
    ∃ mem', nn_forward exExp32 exNet31 exMemCancel = .ok mem' ∧
      (∀ k, k < 3 → MAT_AT mem' (exNet31.as 0) 0 k = MAT_AT exMemCancel (exNet31.as 0) 0 k) ∧
      exNet31.sameParams mem' exMemCancel ∧
      (MAT_AT mem' (exNet31.as 1) 0 0).val = 1 / 2 := by
  have hown : exNet31.owned := by decide
  have hsh : exNet31.shapeOK := by decide
  refine ⟨hsh, hown, ?_, ne_of_gt sigmoidf_exExp32_one, ?_⟩
  · have h : (∑ k in Finset.range (exNet31.as 0).cols,
        (MAT_AT exMemCancel (exNet31.as 0) 0 k).val
          * (MAT_AT exMemCancel (exNet31.ws 0) k 0).val)
        + (MAT_AT exMemCancel (exNet31.bs 0) 0 0).val
        = ((0 + (100000000 : Rat) * 1 + 1 * 1) + (-100000000) * 1) + 0 := by
      show (∑ k in Finset.range 3, _) + _ = _
      rw [Finset.sum_range_succ, Finset.sum_range_succ, Finset.sum_range_succ,
        Finset.sum_range_zero]
      rfl
    rw [h]
    norm_num
  · obtain ⟨mem', hok, hfr, hv⟩ := nn_forward_spec exExp32 exNet31 hsh hown exMemCancel
    have hsame : exNet31.sameParams mem' exMemCancel :=
      exNet31.sameParams_of_frame hown mem' exMemCancel
        (fun x hx => hfr x (fun hh => hx (exNet31.hidden_act hh)))
    refine ⟨mem', hok, ?_, hsame, ?_⟩
    · intro k hk
      exact hfr _ (exNet31.input_not_hidden hown ⟨0, by decide, k, hk, rfl⟩)
    · show (mem' ((exNet31.as 1).addr 0 0)).val = 1 / 2
      rw [hv 1 (by decide) 0 (by decide)]
      have hz : dotAcc 3 (fun k => exMemCancel ((exNet31.as 0).addr 0 k))
          (fun k => MAT_AT exMemCancel (exNet31.ws 0) k 0) + MAT_AT exMemCancel (exNet31.bs 0) 0 0
          = (⟨0⟩ : Rounded binary32) := by
        apply Rounded.eq_of_val
        show binary32 ((dotAcc 3 (fun k => exMemCancel (exRowA.addr 0 k))
          (fun k => exMemCancel (exColB.addr k 0))).val + 0) = 0
        rw [dotAcc_cancel, add_zero, binary32_zero]
      show (sigmoidf exExp32 (dotAcc 3 (fun k => exMemCancel ((exNet31.as 0).addr 0 k))
          (fun k => MAT_AT exMemCancel (exNet31.ws 0) k 0)
          + MAT_AT exMemCancel (exNet31.bs 0) 0 0)).val = 1 / 2
      rw [hz]
      exact sigmoidf_exExp32_zero

/-- C2, amended: on a network that satisfies the shape invariant and owns its matrices,
`nn_forward` returns and for every layer `i < count` and column `j`,
`activations[i+1][0][j] = sigmoidf(acc + biases[i][0][j])`, where `acc` is the value of
the float accumulation `acc = 0; acc = acc + activations[i][0][k] * weights[i][k][j]` for
`k` in increasing order, with the operations of `float` whatever they are (every product
and every partial sum rounded); the input row `activations[0]`, the weights and the
biases are not modified. -/
theorem nn_forward_layer_accumulates {F : Type} [Zero F] [One F] [Add F] [Mul F] [Neg F]
    [Div F] (expf : F → F) (nn : NN) (hsh : nn.shapeOK) (hown : nn.owned) (mem : Mem F) :
    ∃ mem', nn_forward expf nn mem = .ok mem' ∧
      (∀ i, i < nn.count → ∀ j, j < (nn.as (i + 1)).cols →
        MAT_AT mem' (nn.as (i + 1)) 0 j
          = sigmoidf expf (forLoop (nn.as i).cols
              (fun k acc => acc + MAT_AT mem' (nn.as i) 0 k * MAT_AT mem' (nn.ws i) k j) 0
              + MAT_AT mem' (nn.bs i) 0 j)) ∧
      (∀ j, j < (nn.as 0).cols → MAT_AT mem' (nn.as 0) 0 j = MAT_AT mem (nn.as 0) 0 j) ∧
      nn.sameParams mem' mem := by
  obtain ⟨mem', hok, hfr, hv⟩ := nn_forward_spec expf nn hsh hown mem
  have hsame : nn.sameParams mem' mem :=
    nn.sameParams_of_frame hown mem' mem (fun x hx => hfr x (fun hh => hx (nn.hidden_act hh)))
  refine ⟨mem', hok, ?_, ?_, hsame⟩
  · intro i hi j hj
    obtain ⟨hwr, hwc, hbc, hbr⟩ := hsh.2 i hi
    show mem' ((nn.as (i + 1)).addr 0 j) = _
    rw [hv (i + 1) hi j hj]
    show sigmoidf expf (dotAcc (nn.as i).cols
      (actRow expf nn mem (fun k => mem ((nn.as 0).addr 0 k)) i)
      (fun k => MAT_AT mem (nn.ws i) k j) + MAT_AT mem (nn.bs i) 0 j)
      = sigmoidf expf (dotAcc (nn.as i).cols (fun k => MAT_AT mem' (nn.as i) 0 k)
          (fun k => MAT_AT mem' (nn.ws i) k j) + MAT_AT mem' (nn.bs i) 0 j)
    rw [(hsame i hi).2 0 (by omega) j (by omega),
      dotAcc_congr (nn.as i).cols _ _ (fun k => MAT_AT mem' (nn.as i) 0 k)
        (fun k => MAT_AT mem' (nn.ws i) k j)
        (fun k hk => (hv i (Nat.le_of_lt hi) k hk).symm)
        (fun k hk => ((hsame i hi).1 k (by omega) j (by omega)).symm)]
  · intro j hj
    exact hfr _ (nn.input_not_hidden hown
      ⟨0, by rw [hsh.1 0 (Nat.zero_le _)]; exact Nat.one_pos, j, hj, rfl⟩)

/-- C2 amended, an instance: the {3, 1} network in binary32 with the input row
(1e8, 1, -1e8). -/
theorem nn_forward_layer_accumulates_witness :
    ∃ mem', nn_forward exExp32 exNet31 exMemCancel = .ok mem' ∧
      (∀ i, i < exNet31.count → ∀ j, j < (exNet31.as (i + 1)).cols →
        MAT_AT mem' (exNet31.as (i + 1)) 0 j
          = sigmoidf exExp32 (forLoop (exNet31.as i).cols
              (fun k acc =>
                acc + MAT_AT mem' (exNet31.as i) 0 k * MAT_AT mem' (exNet31.ws i) k j) 0
              + MAT_AT mem' (exNet31.bs i) 0 j)) ∧
      (∀ j, j < (exNet31.as 0).cols →
        MAT_AT mem' (exNet31.as 0) 0 j = MAT_AT exMemCancel (exNet31.as 0) 0 j) ∧
      exNet31.sameParams mem' exMemCancel :=
  nn_forward_layer_accumulates exExp32 exNet31 (by decide) (by decide) exMemCancel

theorem binary32_pow24 : binary32 16777216 = 16777216 := by
  have := binary32_pow 24 (by norm_num)
  have h : (2 : Rat) ^ (24 : Int) = 16777216 := by norm_num
  rwa [h] at this

theorem binary32_pow24_add_one : binary32 16777217 = 16777216 :=
  binary32_eq 24 8388608 (by norm_num) (by norm_num) (by norm_num)
    (roundHalfEven_tie (by norm_num) (by decide)) (by norm_num)

theorem binary32_4096 : binary32 4096 = 4096 := by
  have := binary32_pow 12 (by norm_num)
  have h : (2 : Rat) ^ (12 : Int) = 4096 := by norm_num
  rwa [h] at this

theorem binary32_pow23 : binary32 8388608 = 8388608 := by
  have := binary32_pow 23 (by norm_num)
  have h : (2 : Rat) ^ (23 : Int) = 8388608 := by norm_num
  rwa [h] at this

/-- The output of `exNet11` with weight 0 and bias 0 in binary32: `sigmoidf(0) = 1/2`
whatever the input. -/
theorem netOut_exMemCost (i : Nat) :
    netOut exExp32 exNet11 exTi2 exMemCost i 0 = ⟨1 / 2⟩ := by
  have hz : ∀ x : Rounded binary32, (0 + x * (⟨0⟩ : Rounded binary32)) + ⟨0⟩ = ⟨0⟩ := by
    intro x
    apply Rounded.eq_of_val
    show binary32 (binary32 (0 + binary32 (x.val * 0)) + 0) = 0
    simp only [mul_zero, add_zero, binary32_zero]
  have h : netOut exExp32 exNet11 exTi2 exMemCost i 0
      = sigmoidf exExp32 ((0 + MAT_AT exMemCost exTi2 i 0 * (⟨0⟩ : Rounded binary32)) + ⟨0⟩) :=
    rfl
  rw [h, hz]
  exact Rounded.eq_of_val sigmoidf_exExp32_zero

/-- C3, the claim as stated fails in float arithmetic: in binary32, on the {1, 1} network
with weight 0 and bias 0 and the two samples with targets 4096.5 and 1.5, the network
outputs 1/2 for both, the sum of the squared errors over the sample count is
16777217/2, and `nn_cost` returns 8388608: adding 1 to 2^24 is lost in the rounding. -/
theorem nn_cost_exact_sum_counterexample :
    exNet11.shapeOK ∧ exNet11.owned ∧ exNet11.dataShape exTi2 exTo2 ∧
    exNet11.dataApart exTi2 exTo2 ∧
    (∀ i, i < exTi2.rows → (netOut exExp32 exNet11 exTi2 exMemCost i 0).val = 1 / 2) ∧
    (∑ i in Finset.range exTi2.rows, ∑ j in Finset.range exTo2.cols,
      ((netOut exExp32 exNet11 exTi2 exMemCost i j).val - (MAT_AT exMemCost exTo2 i j).val) ^ 2)
      / (exTi2.rows : Rat) = 16777217 / 2 ∧
    ∃ c mem', nn_cost exExp32 exNet11 exTi2 exTo2 exMemCost = .ok (c, mem') ∧
      c.val = 8388608 := by
  have hout0 := netOut_exMemCost 0
  have hout1 := netOut_exMemCost 1
  refine ⟨by decide, by decide, by decide, by decide, ?_, ?_, ?_⟩
  · intro i _
    rw [netOut_exMemCost i]
  · show (∑ i in Finset.range 2, ∑ j in Finset.range 1,
      ((netOut exExp32 exNet11 exTi2 exMemCost i j).val
        - (MAT_AT exMemCost exTo2 i j).val) ^ 2) / ((2 : Nat) : Rat) = 16777217 / 2
    rw [Finset.sum_range_succ, Finset.sum_range_succ, Finset.sum_range_zero,
      Finset.sum_range_one, Finset.sum_range_one, hout0, hout1]
    show (0 + ((1 / 2 : Rat) - 8193 / 2) ^ 2 + ((1 / 2 : Rat) - 3 / 2) ^ 2) / ((2 : Nat) : Rat)
      = 16777217 / 2
    norm_num
  · obtain ⟨mem', hok, _⟩ := nn_cost_spec exExp32 exNet11 (by decide) (by decide) exTi2 exTo2
      (by decide) (by decide) exMemCost
    refine ⟨_, mem', hok, ?_⟩
    have h : costVal exExp32 exNet11 exTi2 exTo2 exMemCost
        = ((0 + (netOut exExp32 exNet11 exTi2 exMemCost 0 0 - ⟨8193 / 2⟩)
              * (netOut exExp32 exNet11 exTi2 exMemCost 0 0 - ⟨8193 / 2⟩))
            + (netOut exExp32 exNet11 exTi2 exMemCost 1 0 - ⟨3 / 2⟩)
              * (netOut exExp32 exNet11 exTi2 exMemCost 1 0 - ⟨3 / 2⟩))
          / ((2 : Nat) : Rounded binary32) := rfl
    rw [h, hout0, hout1]
    show binary32 (binary32 (binary32 (0 + binary32 (binary32 (1 / 2 - 8193 / 2)
        * binary32 (1 / 2 - 8193 / 2)))
        + binary32 (binary32 (1 / 2 - 3 / 2) * binary32 (1 / 2 - 3 / 2)))
        / binary32 ((2 : Nat) : Rat)) = 8388608
    have e1 : (1 / 2 - 8193 / 2 : Rat) = -4096 := by norm_num
    have e2 : (1 / 2 - 3 / 2 : Rat) = -1 := by norm_num
    have e3 : ((-4096 : Rat)) * (-4096) = 16777216 := by norm_num
    have e4 : ((-1 : Rat)) * (-1) = 1 := by norm_num
    have e5 : ((2 : Nat) : Rat) = 2 := by norm_num
    have e6 : (16777216 + 1 : Rat) = 16777217 := by norm_num
    have e7 : (16777216 / 2 : Rat) = 8388608 := by norm_num
    rw [e1, e2, binary32_neg, binary32_4096, binary32_neg, binary32_one, e3, e4,
      binary32_pow24, zero_add, binary32_pow24, binary32_one, e6, binary32_pow24_add_one,
      e5, binary32_two, e7, binary32_pow23]

/-- C3, amended: for a well-formed network and dataset with `n = ti.rows = to.rows >= 1`,
`nn_cost` returns `c / (float) n`, where `c` is the value of the float accumulation
`c = 0; c = c + d * d` with `d = F(ti row i)[j] - to[i][j]`, over the samples
`i = 0, ..., n - 1` and within a sample over the output columns `j = 0, ..., to.cols - 1`
in this order, with the operations of `float` whatever they are (every difference,
product and partial sum rounded); the total is divided by `n` only, not by the number of
columns. `F(ti row i)` is the output row `nn_forward` leaves whenever `activations[0]`
holds row `i` of `ti` and the weights and biases are those of the memory `nn_cost`
started with. -/
theorem nn_cost_accumulates {F : Type} [Zero F] [One F] [Add F] [Sub F] [Mul F] [Neg F]
    [Div F] [NatCast F] (expf : F → F) (nn : NN) (hsh : nn.shapeOK) (hown : nn.owned)
    (ti tout : Mat) (hds : nn.dataShape ti tout) (hda : nn.dataApart ti tout) (mem : Mem F)
    (_hn : 1 ≤ ti.rows) :
    ∃ mem', nn_cost expf nn ti tout mem
        = .ok (forLoop ti.rows (fun i c =>
            forLoop tout.cols (fun j c =>
              c + (netOut expf nn ti mem i j - MAT_AT mem tout i j)
                * (netOut expf nn ti mem i j - MAT_AT mem tout i j)) c) 0
            / (ti.rows : F), mem') ∧
      (∀ i, i < ti.rows → ∀ m1 : Mem F, nn.sameParams m1 mem →
        (∀ k, k < ti.cols → MAT_AT m1 (NN_INPUT nn) 0 k = MAT_AT mem ti i k) →
        ∃ m2, nn_forward expf nn m1 = .ok m2 ∧
          ∀ j, j < tout.cols → MAT_AT m2 (NN_OUTPUT nn) 0 j = netOut expf nn ti mem i j) := by
  obtain ⟨mem', hok, _⟩ := nn_cost_spec expf nn hsh hown ti tout hds hda mem
  refine ⟨mem', hok, ?_⟩
  intro i _ m1 hp hin
  obtain ⟨m2, e2, _, v2⟩ := forward_on_sample expf nn hsh hown ti hds.2.1 mem m1 i hp hin
  exact ⟨m2, e2, fun j hj => v2 j (hds.2.2 ▸ hj)⟩

/-- C3 amended, an instance: the {1, 1} network in binary32 on the table of two
samples. -/
theorem nn_cost_accumulates_witness :
    ∃ mem', nn_cost exExp32 exNet11 exTi2 exTo2 exMemCost
        = .ok (forLoop exTi2.rows (fun i c =>
            forLoop exTo2.cols (fun j c =>
              c + (netOut exExp32 exNet11 exTi2 exMemCost i j - MAT_AT exMemCost exTo2 i j)
                * (netOut exExp32 exNet11 exTi2 exMemCost i j - MAT_AT exMemCost exTo2 i j))
              c) 0
            / (exTi2.rows : Rounded binary32), mem') ∧
      (∀ i, i < exTi2.rows → ∀ m1 : Mem (Rounded binary32), exNet11.sameParams m1 exMemCost →
        (∀ k, k < exTi2.cols → MAT_AT m1 (NN_INPUT exNet11) 0 k = MAT_AT exMemCost exTi2 i k) →
        ∃ m2, nn_forward exExp32 exNet11 m1 = .ok m2 ∧
          ∀ j, j < exTo2.cols →
            MAT_AT m2 (NN_OUTPUT exNet11) 0 j = netOut exExp32 exNet11 exTi2 exMemCost i j) :=
  nn_cost_accumulates exExp32 exNet11 (by decide) (by decide) exTi2 exTo2 (by decide)
    (by decide) exMemCost (by decide)

end NNFramework
